import Mathlib

/-!
Verification of the radix-tree string set (`trie` / `Node`).

The development shallowly embeds the C++ sources:

* `node.h` / node implementation (`Node::approximate_match`, `Node::prefix_match`,
  `Node::exact_match`, `Node::key_count`, `Node::first_key`, `Node::next_node`,
  `Node::equals`, `Node::check_invariant`, free function `is_prefix`);
* the trie implementation (`trie::empty`, `trie::size`, `trie::find`,
  `trie::find_prefix`, `trie::insert`, `trie::erase`, `trie::erase_prefix`,
  `trie::clear`, `trie::begin`, `trie::end(string)`, `operator==`, `operator+=`,
  `operator-=`);
* the iterator implementation (`iterator::operator++`).

Keys are byte strings, modelled as `List Char` with lexicographic order; the
container never interprets bytes, so the choice of alphabet is immaterial.
A tree vertex is `Node.mk is_end children` where `children` is the ordered
`std::map<std::string, unique_ptr<Node>>` modelled as an association list kept
sorted by strictly increasing label.  Parent pointers of the C++ are implicit:
a vertex is addressed by its path (the list of edge labels from the root), and
the upward walks of the C++ (`next_node`, `underlying_string`) become
recursions over that path.  `assert` statements are compiled out in the
reference's release build (`-DNDEBUG`); they are therefore not modelled,
except where a theorem is explicitly about debug behaviour (`nextNodeDbg`).
-/

/-! ### Byte strings -/

/-- Keys and edge labels: finite byte strings, modelled as lists of characters. -/
abbrev Str := List Char

/-- Lexicographic strict order on byte strings, as `std::string::operator<`. -/
def strLt : Str → Str → Bool
  | _, [] => false
  | [], _ :: _ => true
  | a :: s, b :: t => if a < b then true else if a = b then strLt s t else false

/-- Embeds the free function `is_prefix(prf, word)` of the node module: whether
`prf` is a prefix of `word`. -/
def isPfxOf : Str → Str → Bool
  | [], _ => true
  | _ :: _, [] => false
  | a :: s, b :: t => a = b && isPfxOf s t

/-- The longest common prefix of two strings, as computed by the calls to
`std::mismatch` in `trie::insert` (`common`). -/
def commonPfx : Str → Str → Str
  | a :: s, b :: t => if a = b then a :: commonPfx s t else []
  | _, _ => []

/-! ### The vertex type

`Node` of `node.h`: an end marker plus the ordered children map.  The map is a
list of (label, child) pairs in strictly increasing label order, which is the
iteration order of `std::map`. -/

/-- A radix-tree vertex: `is_end` flag and ordered children map. -/
inductive Node where
  | mk (is_end : Bool) (children : List (Str × Node))

instance : Inhabited Node := ⟨.mk false []⟩

/-- The `is_end` field of a vertex. -/
def Node.is_end : Node → Bool
  | .mk e _ => e

/-- The ordered children map of a vertex. -/
def Node.children : Node → List (Str × Node)
  | .mk _ cs => cs

/-! ### Operations of the ordered children map (`std::map`) -/

/-- `map.find(k)` / `map[k]` read access on the sorted association list. -/
def mapLookup : List (Str × Node) → Str → Option Node
  | [], _ => none
  | (l, c) :: rest, k => if l = k then some c else mapLookup rest k

/-- `map.emplace(k, v)`: insert keeping sorted order; if `k` is already
present the map is unchanged (emplace does not overwrite). -/
def mapEmplace : List (Str × Node) → Str → Node → List (Str × Node)
  | [], k, v => [(k, v)]
  | (l, c) :: rest, k, v =>
    if strLt k l then (k, v) :: (l, c) :: rest
    else if l = k then (l, c) :: rest
    else (l, c) :: mapEmplace rest k v

/-- `map.erase(k)`: remove the entry with key `k`, if present. -/
def mapErase : List (Str × Node) → Str → List (Str × Node)
  | [], _ => []
  | (l, c) :: rest, k => if l = k then rest else (l, c) :: mapErase rest k

/-- Replace the value stored at key `k` in place (used to model in-place
mutation of a child found by pointer). -/
def mapUpdate : List (Str × Node) → Str → Node → List (Str × Node)
  | [], _, _ => []
  | (l, c) :: rest, k, v => if l = k then (l, v) :: rest else (l, c) :: mapUpdate rest k v

/-! ### Search kernel -/

/-- Embeds `Node::approximate_match(key)`: descend while some child label is a
prefix of the remaining key (children scanned in map order), returning the
deepest vertex reached together with the unconsumed residual of `key` (the
C++ reports the residual by mutating its argument). -/
def Node.approximateMatch : Node → Str → Node × Str
  | .mk e cs, k =>
    if k = [] then (.mk e cs, k)
    else
      match goChildren cs k with
      | some r => r
      | none => (.mk e cs, k)
where goChildren : List (Str × Node) → Str → Option (Node × Str)
  | [], _ => none
  | (l, c) :: rest, k =>
    if isPfxOf l k then some (c.approximateMatch (k.drop l.length))
    else goChildren rest k

/-- The descent path of `approximate_match`: the same recursion, returning the
list of edge labels consumed from the starting vertex down to the matched
vertex (the C++ identifies the matched vertex by pointer; we identify it by
this path). -/
def Node.approxPath : Node → Str → List Str × Str
  | .mk _ cs, k =>
    if k = [] then ([], k)
    else
      match goChildren cs k with
      | some r => r
      | none => ([], k)
where goChildren : List (Str × Node) → Str → Option (List Str × Str)
  | [], _ => none
  | (l, c) :: rest, k =>
    if isPfxOf l k then
      some (let r := c.approxPath (k.drop l.length); (l :: r.1, r.2))
    else goChildren rest k

/-- Embeds `Node::key_count()`: the number of end-marked vertices in the
subtree, this vertex included. -/
def Node.keyCount : Node → Nat
  | .mk e cs => (if e then 1 else 0) + goChildren cs
where goChildren : List (Str × Node) → Nat
  | [] => 0
  | (_, c) :: rest => c.keyCount + goChildren rest

/-- First child of `cs` whose label has `r` as a prefix, in map order: the
scan of `Node::prefix_match` after the approximate match. -/
def findExtChild : List (Str × Node) → Str → Option (Str × Node)
  | [], _ => none
  | (l, c) :: rest, r => if isPfxOf r l then some (l, c) else findExtChild rest r

/-- Embeds `Node::prefix_match(prf)`: run `approximate_match`; if the residual
is empty that vertex is the match, otherwise the first child of the matched
vertex whose label extends the residual, else null.  Returns the optional
matched vertex together with the final residual (the mutated `prf`). -/
def Node.pfxMatch (n : Node) (p : Str) : Option Node × Str :=
  let a := n.approximateMatch p
  if a.2 = [] then (some a.1, a.2)
  else
    match findExtChild a.1.children a.2 with
    | some lc => (some lc.2, [])
    | none => (none, a.2)

/-- Path variant of `prefix_match`: the path of the matched vertex from the
starting vertex, or `none` when `prefix_match` returns null. -/
def Node.pfxMatchPath (n : Node) (p : Str) : Option (List Str) :=
  let a := n.approxPath p
  if a.2 = [] then some a.1
  else
    match nodeAtHelp n a.1 with
    | some m =>
      match findExtChild m.children a.2 with
      | some lc => some (a.1 ++ [lc.1])
      | none => none
    | none => none
where nodeAtHelp : Node → List Str → Option Node
  | n, [] => some n
  | n, l :: rest =>
    match mapLookup n.children l with
    | some c => nodeAtHelp c rest
    | none => none

/-- The vertex sitting at a given path of edge labels below `n`. -/
def nodeAt : Node → List Str → Option Node
  | n, [] => some n
  | n, l :: rest =>
    match mapLookup n.children l with
    | some c => nodeAt c rest
    | none => none

/-- Embeds `Node::exact_match(word)`: the vertex at which `word` is fully
consumed, end-marked or not, else null.  (The source returns the vertex
whenever the residual is empty; it does not test `is_end`.) -/
def Node.exactMatch (n : Node) (w : Str) : Option Node :=
  let a := n.approximateMatch w
  if a.2 = [] then some a.1 else none

/-- Path variant of `exact_match`. -/
def Node.exactPath (n : Node) (w : Str) : Option (List Str) :=
  let a := n.approxPath w
  if a.2 = [] then some a.1 else none

/-! ### In-order navigation -/

/-- The loop body of `Node::first_key()`: having just stepped to the child
reached by edge `l`, stop if it is end-marked, else step to its first child
(the do/while loop `rt = rt->children.begin()->second` until `rt->is_end`).
A non-end vertex with no children makes the C++ dereference `begin()` of an
empty map; that situation is excluded by invariant 4 and modelled as `none`
(in release builds the pointer read is undefined behaviour). -/
def Node.firstKeyFrom : Str → Node → Option (List Str)
  | l, .mk true _ => some [l]
  | _, .mk false [] => none
  | l, .mk false ((l', c') :: _) => (Node.firstKeyFrom l' c').map (l :: ·)

/-- Embeds `Node::first_key()`: the path (from this vertex) of the smallest
end-marked proper descendant, `none` when the vertex has no children. -/
def Node.firstKeyPath : Node → Option (List Str)
  | .mk _ [] => none
  | .mk _ ((l, c) :: _) => Node.firstKeyFrom l c

/-- Whether `l` is the label of the last entry of the children map: the test
`par->children.rbegin()->second.get() == ptr` of `Node::next_node`, expressed
by label (labels are unique in the map). -/
def isLastChild (cs : List (Str × Node)) (l : Str) : Bool :=
  match cs.getLast? with
  | some p => p.1 = l
  | none => false

/-- The entry immediately after the one with label `l`: the `++child_iter`
step of `Node::next_node` after `value_find` locates the current child. -/
def nextSibling : List (Str × Node) → Str → Option (Str × Node)
  | [], _ => none
  | (l', _) :: rest, l => if l' = l then rest.head? else nextSibling rest l

/-- The upward walk of `Node::next_node`, on the reversed path of the current
vertex: while the current vertex is the rightmost child of its parent move up;
on reaching the root return null; otherwise descend to the right sibling's
first key (or the sibling itself when it is end-marked).  Release-build
semantics: the `assert`s of the source are compiled out. -/
def nextNodeRev (t : Node) : List Str → Option (List Str)
  | [] => none
  | l :: srev =>
    match nodeAt t srev.reverse with
    | none => none
    | some par =>
      if isLastChild par.children l then nextNodeRev t srev
      else
        match nextSibling par.children l with
        | none => none
        | some (l', c') =>
          if c'.is_end then some (srev.reverse ++ [l'])
          else (c'.firstKeyPath).map (fun r => srev.reverse ++ l' :: r)

/-- Embeds `Node::next_node()` for the vertex at path `p` of tree `t`:
the path of the next in-order end-marked vertex outside this subtree. -/
def nextNodePath (t : Node) (p : List Str) : Option (List Str) :=
  nextNodeRev t p.reverse

/-- Debug-build semantics of the entry into `Node::next_node`: the function
begins with `assert(!par->children.empty())` where `par` is the parent of the
current vertex, before the `while (par && ...)` null test.  Called on the
root (parent null) this dereferences a null pointer; on any other vertex of a
well-formed tree it agrees with the release behaviour. -/
def nextNodeDbg (t : Node) (p : List Str) : Except Unit (Option (List Str)) :=
  match p with
  | [] => .error ()
  | _ :: _ => .ok (nextNodePath t p)

/-- The key represented by the vertex at path `p`: `Node::underlying_string`,
the concatenation of the edge labels from the root. -/
def pathString (p : List Str) : Str :=
  p.foldr (· ++ ·) []

/-- Embeds `Node::equals(other)`: same `is_end`, same number of children,
and the ordered children maps agree pairwise (labels equal, subtrees
recursively equal). -/
def Node.equals : Node → Node → Bool
  | .mk e1 cs1, .mk e2 cs2 => e1 = e2 && goChildren cs1 cs2
where goChildren : List (Str × Node) → List (Str × Node) → Bool
  | [], [] => true
  | (l1, c1) :: r1, (l2, c2) :: r2 => l1 = l2 && c1.equals c2 && goChildren r1 r2
  | _, _ => false

/-! ### Specification-side views of a tree

These definitions are the declarative side used to state the claims: the
in-order list of end-marked vertices (by path and by represented key).  They
are written directly from the data model of the spec ("the set of keys is
exactly the representations of the end-marked vertices", ordered children). -/

/-- In-order list of the paths of all end-marked vertices of the subtree:
the vertex itself first (path `[]`), then the children in map order. -/
def endPaths : Node → List (List Str)
  | .mk e cs => (if e then [[]] else []) ++ goChildren cs
where goChildren : List (Str × Node) → List (List Str)
  | [] => []
  | (l, c) :: rest => (endPaths c).map (l :: ·) ++ goChildren rest

/-- In-order list of the stored keys of the subtree: the representations of
its end-marked vertices. -/
def keysOf : Node → List Str
  | .mk e cs => (if e then [[]] else []) ++ goChildren cs
where goChildren : List (Str × Node) → List Str
  | [] => []
  | (l, c) :: rest => (keysOf c).map (l ++ ·) ++ goChildren rest

/-! ### Structural invariants

Section 3 of the specification.  Invariants 1 and 7 (root exists, parent
links consistent) are inherent in the functional representation.  The
remaining structural conditions, at one vertex:

* map well-formedness: children strictly sorted by label (`std::map`);
* invariant 2/6: no edge label is empty;
* invariant 3: no two child labels share their first byte;
* invariant 4: a childless non-root vertex is end-marked;
* invariant 5: a non-root non-end vertex has at least two children.

`subOkB` checks invariants 2-4 hereditarily for a non-root vertex;
`sub5OkB` also checks invariant 5.  `validB` / `valid5B` are the root
versions (the root is exempt from invariants 4 and 5). -/

/-- Local children-map conditions at one vertex: strictly sorted labels,
no empty label, pairwise distinct first bytes. -/
def localOkB (cs : List (Str × Node)) : Bool :=
  goSorted cs && goNonempty cs && goHeads cs
where
  goSorted : List (Str × Node) → Bool
    | [] => true
    | [_] => true
    | (l1, _) :: (l2, c2) :: rest => strLt l1 l2 && goSorted ((l2, c2) :: rest)
  goNonempty : List (Str × Node) → Bool
    | [] => true
    | (l, _) :: rest => !l.isEmpty && goNonempty rest
  goHeads : List (Str × Node) → Bool
    | [] => true
    | (l, _) :: rest => rest.all (fun q => q.1.head? != l.head?) && goHeads rest

/-- Invariants 2-4 for a non-root vertex, hereditarily. -/
def subOkB : Node → Bool
  | .mk e cs => (!cs.isEmpty || e) && localOkB cs && goChildren cs
where goChildren : List (Str × Node) → Bool
  | [] => true
  | (_, c) :: rest => subOkB c && goChildren rest

/-- Invariants 2-5 for a non-root vertex, hereditarily. -/
def sub5OkB : Node → Bool
  | .mk e cs => (!cs.isEmpty || e) && (e || cs.length != 1) && localOkB cs && goChildren cs
where goChildren : List (Str × Node) → Bool
  | [] => true
  | (_, c) :: rest => sub5OkB c && goChildren rest

/-- Invariants 2-4 of the whole tree (root exempt from 4 and 5). -/
def validB (t : Node) : Bool :=
  localOkB t.children && t.children.all (fun p => subOkB p.2)

/-- All structural invariants 2-5 of the whole tree (root exempt from 4, 5). -/
def valid5B (t : Node) : Bool :=
  localOkB t.children && t.children.all (fun p => sub5OkB p.2)

/-! ### The container -/

/-- `trie::trie()`: the empty container, a root with no children and no
end mark. -/
def trieNew : Node := .mk false []

/-- Embeds `trie::empty(prefix)`: null prefix vertex, or a prefix vertex
that is not end-marked and has no children. -/
def trieEmpty (t : Node) (p : Str) : Bool :=
  match (t.pfxMatch p).1 with
  | none => true
  | some m => !m.is_end && m.children.isEmpty

/-- Embeds `trie::size(prefix)`: `key_count` of the prefix vertex, 0 when
there is none. -/
def trieSize (t : Node) (p : Str) : Nat :=
  match (t.pfxMatch p).1 with
  | none => 0
  | some m => m.keyCount

/-- Embeds `trie::find(key)`: the vertex referenced by the returned iterator
(`none` is the end iterator).  An empty key is answered from the root's end
mark; a non-empty key is answered by `exact_match`, whose result is not
tested for `is_end`. -/
def trieFind (t : Node) (k : Str) : Option Node :=
  if k = [] then (if t.is_end then some t else none)
  else t.exactMatch k

/-- First child of `cs` whose label shares its first byte with `k`: the scan
`child_str.front() != key.front() → continue` of `trie::insert`. -/
def findHeadChild : List (Str × Node) → Str → Option (Str × Node)
  | [], _ => none
  | (l, c) :: rest, k => if l.head? = k.head? then some (l, c) else findHeadChild rest k

/-- First child of `cs` whose label is a prefix of `k`, in map order: the
loop of `Node::approximate_match` deciding whether to descend. -/
def findPfxChild : List (Str × Node) → Str → Option (Str × Node)
  | [], _ => none
  | (l, c) :: rest, k => if isPfxOf l k then some (l, c) else findPfxChild rest k

/-- The local action of `trie::insert` at the vertex `loc` returned by
`approximate_match`, with residual key `k` (so no child label of `loc` is a
prefix of `k`):

* `k` empty: mark `loc` as end;
* `loc` childless: attach a new end-marked leaf labelled `k`;
* some child shares its first byte with `k`: split that edge at the longest
  common prefix, creating a junction that carries the old child under the
  unshared part of its label and, when the key extends past the junction, a
  new end-marked leaf;
* otherwise attach a new end-marked leaf labelled `k`. -/
def insertLoc : Node → Str → Node
  | .mk e cs, k =>
    if k = [] then .mk true cs
    else if cs.isEmpty then .mk e (mapEmplace cs k (.mk true []))
    else
      match findHeadChild cs k with
      | some (l, c) =>
        let common := commonPfx k l
        let postKey := k.drop common.length
        let postChild := l.drop common.length
        let junction : Node :=
          if postKey = [] then .mk true (mapEmplace [] postChild c)
          else .mk false (mapEmplace (mapEmplace [] postChild c) postKey (.mk true []))
        .mk e (mapErase (mapEmplace cs common junction) l)
      | none => .mk e (mapEmplace cs k (.mk true []))

/-- Embeds `trie::insert(key)`: `approximate_match` locates the deepest vertex
`loc` consuming a prefix of the key, and the residual is inserted at `loc`
(`insertLoc`).  The pointer-mutation of the C++ is embedded as a rebuild
along the descent: each step of this recursion is one descent step of
`approximate_match`. -/
def trieInsert : Node → Str → Node
  | .mk e cs, k =>
    if k = [] then insertLoc (.mk e cs) k
    else
      match goChildren cs k with
      | some cs' => .mk e cs'
      | none => insertLoc (.mk e cs) k
where goChildren : List (Str × Node) → Str → Option (List (Str × Node))
  | [], _ => none
  | (l, c) :: rest, k =>
    if isPfxOf l k then some ((l, trieInsert c (k.drop l.length)) :: rest)
    else (goChildren rest k).map ((l, c) :: ·)

/-- The action of `trie::erase` at the parent `P` of the matched vertex `M`
(child of `P` under label `lm`), when no grandparent join applies:

* `M` childless: detach it;
* `M` with one child: join `M` into `P`, concatenating the two edge labels
  (emplace the joined edge, then erase the old one);
* otherwise just clear `M`'s end mark. -/
def eraseChildAction (par : Node) (lm : Str) : Node :=
  match mapLookup par.children lm with
  | none => par
  | some m =>
    if m.children.isEmpty then .mk par.is_end (mapErase par.children lm)
    else
      match m.children with
      | [(lc, cc)] =>
        .mk par.is_end (mapErase (mapEmplace par.children (lm ++ lc) cc) lm)
      | _ => .mk par.is_end (mapUpdate par.children lm (.mk false m.children))

/-- The recursion of `trie::erase` below the root, on the exact-match path.
The interesting work happens in the last two levels: at the grandparent of
the matched vertex the source can join a parent left degenerate by a leaf
detachment (`par->children.size() == 1 && par != root && !par->is_end`);
one level above the matched vertex the other cases apply directly.  A path
of length one only ever occurs at the root (the parent-is-root case of the
source, which never grandparent-joins). -/
def eraseAt : Node → List Str → Node
  | n, [] => .mk false n.children
  | n, [lm] => eraseChildAction n lm
  | n, [lp, lm] =>
    (match mapLookup n.children lp with
     | none => n
     | some par =>
       match mapLookup par.children lm with
       | none => n
       | some m =>
         if m.children.isEmpty then
           let par' : Node := .mk par.is_end (mapErase par.children lm)
           match par'.children with
           | [(lc, cc)] =>
             if !par'.is_end then
               .mk n.is_end (mapErase (mapEmplace n.children (lp ++ lc) cc) lp)
             else .mk n.is_end (mapUpdate n.children lp par')
           | _ => .mk n.is_end (mapUpdate n.children lp par')
         else .mk n.is_end (mapUpdate n.children lp (eraseChildAction par lm)))
  | n, lp :: rest =>
    match mapLookup n.children lp with
    | none => n
    | some c => .mk n.is_end (mapUpdate n.children lp (eraseAt c rest))

/-- Embeds `trie::erase(key)`: locate the exact vertex (by its path); if none,
no-op; if it is the root, clear the root's end mark; otherwise clear the end
mark and apply the detach/join logic (`eraseAt`). -/
def trieErase (t : Node) (k : Str) : Node :=
  match t.exactPath k with
  | none => t
  | some p => eraseAt t p

/-- Remove the edge entering the vertex at (non-empty) path `p`: the
detachment `par->children.erase(par->find_child(prf_ptr))` of
`trie::erase_prefix`, with the walk to the parent made explicit. -/
def removeEdgeAt : Node → List Str → Node
  | n, [] => n
  | n, [l] => .mk n.is_end (mapErase n.children l)
  | n, l :: rest =>
    match mapLookup n.children l with
    | none => n
    | some c => .mk n.is_end (mapUpdate n.children l (removeEdgeAt c rest))

/-- Embeds `trie::clear()`: drop all children of the root and unset its end
mark. -/
def trieClear (_ : Node) : Node := .mk false []

/-- Embeds `trie::erase_prefix(prefix)`: `prefix_match`; if null, no-op; if
the matched vertex is the root, `clear()`; otherwise detach the matched
vertex from its parent.  The source performs no degenerate-parent join
here. -/
def trieErasePfx (t : Node) (p : Str) : Node :=
  match t.pfxMatchPath p with
  | none => t
  | some [] => trieClear t
  | some pa => removeEdgeAt t pa

/-- Embeds `trie::begin()`: the root itself when end-marked, else its first
key; `none` is the end iterator. -/
def trieBeginPath (t : Node) : Option (List Str) :=
  if t.is_end then some [] else t.firstKeyPath

/-- Embeds `iterator::operator++` (release build) at the vertex with path
`p`: descend to the first key when there are children, else `next_node`. -/
def iterStep (t : Node) (p : List Str) : Option (List Str) :=
  match nodeAt t p with
  | none => none
  | some n =>
    if n.children.isEmpty then nextNodePath t p
    else (n.firstKeyPath).map (p ++ ·)

/-- Repeated `operator++`, collecting the represented key at each position,
with explicit fuel. -/
def iterList (t : Node) : Nat → Option (List Str) → List Str
  | 0, _ => []
  | _ + 1, none => []
  | fuel + 1, some p => pathString p :: iterList t fuel (iterStep t p)

/-- `operator++` applied `n` times to a position. -/
def iterN (t : Node) : Nat → Option (List Str) → Option (List Str)
  | 0, s => s
  | _ + 1, none => none
  | fuel + 1, some p => iterN t fuel (iterStep t p)

/-- The keys visited by forward iteration from `begin()`, reading off
`size()` many positions (a correct iteration visits exactly that many). -/
def trieIterKeys (t : Node) : List Str :=
  iterList t t.keyCount (trieBeginPath t)

/-- Embeds `trie::end(string prefix)` (release build): approximate-match the
prefix; when the residual is empty, the matched vertex has no children, or
all its children are (lexicographically) below the residual, the result is
`next_node` of the matched vertex; otherwise the first child whose label's
first byte exceeds the residual's provides the result; if the scan falls
through, the source throws `runtime_error` (modelled as `.error`). -/
def trieEndRange (t : Node) (p : Str) : Except Unit (Option (List Str)) :=
  let a := t.approxPath p
  let r := a.2
  match nodeAt t a.1 with
  | none => .ok none
  | some app =>
    if r = [] || app.children.isEmpty ||
        strLt (match app.children.getLast? with
               | some q => q.1
               | none => []) r then
      .ok (nextNodePath t a.1)
    else goScan app.children r a.1
where goScan : List (Str × Node) → Str → List Str → Except Unit (Option (List Str))
  | [], _, _ => .error ()
  | (l, c) :: rest, r, pa =>
    if (match l.head?, r.head? with
        | some a, some b => decide (b < a)
        | _, _ => false) then
      .ok (if c.is_end then some (pa ++ [l])
           else (c.firstKeyPath).map (fun q => pa ++ l :: q))
    else goScan rest r pa

/-- Embeds `operator+=`: insert every key of the other container, in its
iteration order. -/
def trieUnion (t s : Node) : Node :=
  (trieIterKeys s).foldl trieInsert t

/-- Embeds `operator-=`: erase every key of the other container, in its
iteration order. -/
def trieDiff (t s : Node) : Node :=
  (trieIterKeys s).foldl trieErase t

/-- Bulk construction (`trie(first, last)` / initializer list): insert each
key in turn into an empty container. -/
def trieOf (ks : List Str) : Node :=
  ks.foldl trieInsert trieNew

/-- Convenience for concrete examples: a key from a string literal. -/
def chars (s : String) : Str := s.toList

/-! ### Basic lemmas: vertex accessors and induction -/

@[simp]
theorem Node.is_end_mk (e : Bool) (cs : List (Str × Node)) : (Node.mk e cs).is_end = e := rfl

@[simp]
theorem Node.children_mk (e : Bool) (cs : List (Str × Node)) :
    (Node.mk e cs).children = cs := rfl

theorem Node.eta (n : Node) : Node.mk n.is_end n.children = n := by
  cases n; rfl

/-- Structural induction over the nested tree type: to prove `P` everywhere
it suffices to prove it at a vertex assuming it for every child. -/
theorem Node.indMem (P : Node → Prop)
    (h : ∀ e cs, (∀ p ∈ cs, P p.2) → P (.mk e cs)) : ∀ n, P n
  | .mk e cs => h e cs (goList cs)
where goList : (cs : List (Str × Node)) → ∀ p ∈ cs, P p.2
  | [], p, hp => absurd hp (List.not_mem_nil p)
  | q :: rest, p, hp => by
    rcases List.mem_cons.mp hp with h1 | h2
    · exact h1 ▸ Node.indMem P h q.2
    · exact goList rest p h2

/-! ### Lemmas about the string order -/

theorem strLt_irrefl (s : Str) : strLt s s = false := by
  induction s with
  | nil => rfl
  | cons a s ih => simp [strLt, ih]

theorem strLt_trans : ∀ {a b c : Str}, strLt a b = true → strLt b c = true →
    strLt a c = true := by
  intro a
  induction a with
  | nil =>
    intro b c _ hbc
    cases c with
    | nil => cases b <;> simp_all [strLt]
    | cons y t => simp [strLt]
  | cons x s ih =>
    intro b c hab hbc
    cases b with
    | nil => simp [strLt] at hab
    | cons y t =>
      cases c with
      | nil => simp [strLt] at hbc
      | cons z u =>
        simp only [strLt] at hab hbc ⊢
        by_cases hxy : x < y
        · by_cases hyz : y < z
          · simp [lt_trans hxy hyz]
          · simp only [if_neg hyz] at hbc
            by_cases hyze : y = z
            · simp [hyze ▸ hxy]
            · simp [if_neg hyze] at hbc
        · simp only [if_neg hxy] at hab
          by_cases hxye : x = y
          · subst hxye
            simp only [if_pos rfl] at hab
            by_cases hyz : x < z
            · simp [hyz]
            · simp only [if_neg hyz] at hbc ⊢
              by_cases hyze : x = z
              · simp only [if_pos hyze] at hbc ⊢
                exact ih hab hbc
              · simp [if_neg hyze] at hbc
          · simp [if_neg hxye] at hab

theorem strLt_asymm {a b : Str} (h : strLt a b = true) : strLt b a = false := by
  by_contra hc
  have hba : strLt b a = true := by
    cases hx : strLt b a
    · exact absurd hx hc
    · rfl
  have := strLt_trans h hba
  rw [strLt_irrefl] at this
  exact Bool.false_ne_true this

theorem strLt_connex : ∀ {a b : Str}, a ≠ b → strLt a b = true ∨ strLt b a = true := by
  intro a
  induction a with
  | nil =>
    intro b hne
    cases b with
    | nil => exact absurd rfl hne
    | cons y t => left; simp [strLt]
  | cons x s ih =>
    intro b hne
    cases b with
    | nil => right; simp [strLt]
    | cons y t =>
      rcases lt_trichotomy x y with hxy | hxy | hxy
      · left; simp [strLt, hxy]
      · subst hxy
        have hst : s ≠ t := fun h => hne (h ▸ rfl)
        rcases ih hst with h1 | h1
        · left; simp [strLt, h1]
        · right; simp [strLt, h1]
      · right; simp [strLt, hxy]

theorem strLt_nil {s : Str} (h : s ≠ []) : strLt [] s = true := by
  cases s with
  | nil => exact absurd rfl h
  | cons a t => rfl

theorem strLt_append_left : ∀ (l a b : Str), strLt (l ++ a) (l ++ b) = strLt a b := by
  intro l
  induction l with
  | nil => intro a b; rfl
  | cons x s ih => intro a b; simp [strLt, ih]

theorem strLt_of_head_lt : ∀ {a b : Str} {x y : Char}, a.head? = some x →
    b.head? = some y → x < y → strLt a b = true := by
  intro a b x y ha hb hxy
  cases a with
  | nil => simp at ha
  | cons x' s =>
    cases b with
    | nil => simp at hb
    | cons y' t =>
      simp only [List.head?_cons, Option.some.injEq] at ha hb
      subst ha; subst hb
      simp [strLt, hxy]

theorem head_le_of_strLt : ∀ {a b : Str} {x y : Char}, strLt a b = true →
    a.head? = some x → b.head? = some y → x < y ∨ x = y := by
  intro a b x y h ha hb
  cases a with
  | nil => simp at ha
  | cons x' s =>
    cases b with
    | nil => simp [strLt] at h
    | cons y' t =>
      simp only [List.head?_cons, Option.some.injEq] at ha hb
      subst ha; subst hb
      simp only [strLt] at h
      by_cases hxy : x' < y'
      · exact Or.inl hxy
      · simp only [if_neg hxy] at h
        by_cases hxye : x' = y'
        · exact Or.inr hxye
        · simp [if_neg hxye] at h

/-! ### Lemmas about prefixes -/

theorem isPfxOf_iff : ∀ {p w : Str}, isPfxOf p w = true ↔ p <+: w := by
  intro p
  induction p with
  | nil => intro w; simp [isPfxOf]
  | cons a s ih =>
    intro w
    cases w with
    | nil =>
      simp only [isPfxOf, Bool.false_eq_true, false_iff]
      intro h
      exact absurd (List.eq_nil_of_prefix_nil h) (by simp)
    | cons b t =>
      simp [isPfxOf, List.cons_prefix_cons, ih]

theorem isPfxOf_self (s : Str) : isPfxOf s s = true :=
  isPfxOf_iff.mpr (List.prefix_refl s)

theorem isPfxOf_nil (w : Str) : isPfxOf [] w = true := rfl

theorem drop_of_isPfxOf {p w : Str} (h : isPfxOf p w = true) :
    w = p ++ w.drop p.length := by
  rcases isPfxOf_iff.mp h with ⟨t, rfl⟩
  simp

theorem head_eq_of_isPfxOf {p w : Str} (h : isPfxOf p w = true) (hp : p ≠ []) :
    w.head? = p.head? := by
  rcases isPfxOf_iff.mp h with ⟨t, rfl⟩
  cases p with
  | nil => exact absurd rfl hp
  | cons a s => rfl

theorem commonPfx_pfx_left : ∀ (a b : Str), commonPfx a b <+: a := by
  intro a
  induction a with
  | nil => intro b; cases b <;> simp [commonPfx]
  | cons x s ih =>
    intro b
    cases b with
    | nil => simp [commonPfx]
    | cons y t =>
      by_cases hxy : x = y
      · subst hxy
        simpa [commonPfx] using ih t
      · simp [commonPfx, hxy]

theorem commonPfx_pfx_right : ∀ (a b : Str), commonPfx a b <+: b := by
  intro a
  induction a with
  | nil => intro b; cases b <;> simp [commonPfx]
  | cons x s ih =>
    intro b
    cases b with
    | nil => simp [commonPfx]
    | cons y t =>
      by_cases hxy : x = y
      · subst hxy
        simpa [commonPfx] using ih t
      · simp [commonPfx, hxy]

theorem commonPfx_ne_nil {x : Char} {s t : Str} :
    commonPfx (x :: s) (x :: t) ≠ [] := by
  simp [commonPfx]

theorem commonPfx_eq_of_pfx : ∀ {a b : Str}, a <+: b → commonPfx a b = a := by
  intro a
  induction a with
  | nil => intro b _; cases b <;> rfl
  | cons x s ih =>
    intro b h
    cases b with
    | nil => exact absurd (List.eq_nil_of_prefix_nil h) (by simp)
    | cons y t =>
      rw [List.cons_prefix_cons] at h
      obtain ⟨rfl, h2⟩ := h
      simp [commonPfx, ih h2]

/-- Maximality of the common prefix: the first characters of the two
residuals differ (when both are non-empty). -/
theorem commonPfx_residual_heads : ∀ (a b : Str),
    (a.drop (commonPfx a b).length).head? = (b.drop (commonPfx a b).length).head? →
    a.drop (commonPfx a b).length = [] ∨ b.drop (commonPfx a b).length = [] := by
  intro a
  induction a with
  | nil => intro b _; left; simp
  | cons x s ih =>
    intro b
    cases b with
    | nil => intro _; right; simp
    | cons y t =>
      by_cases hxy : x = y
      · subst hxy
        simpa [commonPfx] using ih t
      · simp only [commonPfx, if_neg hxy, List.length_nil, List.drop_zero, List.head?_cons,
          Option.some.injEq]
        intro h
        exact absurd h hxy

/-! ### Lemmas about the children-map operations -/

theorem mapLookup_eq_none_iff {cs : List (Str × Node)} {k : Str} :
    mapLookup cs k = none ↔ ∀ p ∈ cs, p.1 ≠ k := by
  induction cs with
  | nil => simp [mapLookup]
  | cons q rest ih =>
    obtain ⟨l, c⟩ := q
    by_cases hl : l = k
    · subst hl; simp [mapLookup]
    · simp [mapLookup, hl, ih]

theorem mapLookup_mem {cs : List (Str × Node)} {k : Str} {c : Node}
    (h : mapLookup cs k = some c) : (k, c) ∈ cs := by
  induction cs with
  | nil => simp [mapLookup] at h
  | cons q rest ih =>
    obtain ⟨l, c'⟩ := q
    by_cases hl : l = k
    · subst hl
      have hc : c' = c := by simpa [mapLookup] using h
      subst hc
      exact List.mem_cons_self _ _
    · simp only [mapLookup, if_neg hl] at h
      exact List.mem_cons_of_mem _ (ih h)

theorem mapLookup_cons_self {l : Str} {c : Node} {rest : List (Str × Node)} :
    mapLookup ((l, c) :: rest) l = some c := by
  simp [mapLookup]

/-- Keys of the association list. -/
def mapKeys (cs : List (Str × Node)) : List Str := cs.map Prod.fst

theorem mapEmplace_not_mem {cs : List (Str × Node)} {k : Str} (v : Node)
    (h : ∀ p ∈ cs, p.1 ≠ k) :
    ∃ l1 l2, cs = l1 ++ l2 ∧ mapEmplace cs k v = l1 ++ (k, v) :: l2 := by
  induction cs with
  | nil => exact ⟨[], [], rfl, rfl⟩
  | cons q rest ih =>
    obtain ⟨l, c⟩ := q
    by_cases hk : strLt k l
    · exact ⟨[], (l, c) :: rest, rfl, by simp [mapEmplace, hk]⟩
    · have hne : l ≠ k := h (l, c) (List.mem_cons_self _ _)
      obtain ⟨l1, l2, he, hr⟩ := ih (fun p hp => h p (List.mem_cons_of_mem _ hp))
      refine ⟨(l, c) :: l1, l2, by simp [he], ?_⟩
      simp [mapEmplace, hk, hne, hr]

theorem mapErase_not_mem {cs : List (Str × Node)} {k : Str}
    (h : ∀ p ∈ cs, p.1 ≠ k) : mapErase cs k = cs := by
  induction cs with
  | nil => rfl
  | cons q rest ih =>
    obtain ⟨l, c⟩ := q
    have hne : l ≠ k := h (l, c) (List.mem_cons_self _ _)
    simp [mapErase, hne, ih (fun p hp => h p (List.mem_cons_of_mem _ hp))]

theorem mapErase_append_of_not_mem {l1 : List (Str × Node)} {k : Str}
    (h : ∀ p ∈ l1, p.1 ≠ k) (c : Node) (l2 : List (Str × Node)) :
    mapErase (l1 ++ (k, c) :: l2) k = l1 ++ l2 := by
  induction l1 with
  | nil => simp [mapErase]
  | cons q rest ih =>
    obtain ⟨l, c'⟩ := q
    have hne : l ≠ k := h (l, c') (List.mem_cons_self _ _)
    simp [mapErase, hne, ih (fun p hp => h p (List.mem_cons_of_mem _ hp))]

theorem mapUpdate_not_mem {cs : List (Str × Node)} {k : Str} (v : Node)
    (h : ∀ p ∈ cs, p.1 ≠ k) : mapUpdate cs k v = cs := by
  induction cs with
  | nil => rfl
  | cons q rest ih =>
    obtain ⟨l, c⟩ := q
    have hne : l ≠ k := h (l, c) (List.mem_cons_self _ _)
    simp [mapUpdate, hne, ih (fun p hp => h p (List.mem_cons_of_mem _ hp))]

theorem mapUpdate_append_of_not_mem {l1 : List (Str × Node)} {k : Str}
    (h : ∀ p ∈ l1, p.1 ≠ k) (c v : Node) (l2 : List (Str × Node)) :
    mapUpdate (l1 ++ (k, c) :: l2) k v = l1 ++ (k, v) :: l2 := by
  induction l1 with
  | nil => simp [mapUpdate]
  | cons q rest ih =>
    obtain ⟨l, c'⟩ := q
    have hne : l ≠ k := h (l, c') (List.mem_cons_self _ _)
    simp [mapUpdate, hne, ih (fun p hp => h p (List.mem_cons_of_mem _ hp))]

/-! ### Propositional form of the structural invariants -/

/-- Relation between two entries of a well-formed children map: strictly
increasing labels with distinct first bytes. -/
def ChOrd (a b : Str × Node) : Prop :=
  strLt a.1 b.1 = true ∧ a.1.head? ≠ b.1.head?

/-- Local well-formedness of a children map: pairwise `ChOrd` and no empty
label. -/
def LocalOk (cs : List (Str × Node)) : Prop :=
  cs.Pairwise ChOrd ∧ ∀ p ∈ cs, p.1 ≠ ([] : Str)

/-- Invariants 2-4 at a non-root vertex, hereditarily (propositional form of
`subOkB`). -/
inductive SubP : Node → Prop where
  | mk : ∀ (e : Bool) (cs : List (Str × Node)),
      (cs = [] → e = true) → LocalOk cs →
      (∀ p ∈ cs, SubP p.2) → SubP (.mk e cs)

/-- Invariants 2-5 at a non-root vertex, hereditarily (propositional form of
`sub5OkB`). -/
inductive Sub5P : Node → Prop where
  | mk : ∀ (e : Bool) (cs : List (Str × Node)),
      (cs = [] → e = true) → (e = false → 2 ≤ cs.length) → LocalOk cs →
      (∀ p ∈ cs, Sub5P p.2) → Sub5P (.mk e cs)

/-- Invariants 2-4 of a whole tree (propositional form of `validB`). -/
def ValidP (t : Node) : Prop :=
  LocalOk t.children ∧ ∀ p ∈ t.children, SubP p.2

/-- Invariants 2-5 of a whole tree (propositional form of `valid5B`). -/
def Valid5P (t : Node) : Prop :=
  LocalOk t.children ∧ ∀ p ∈ t.children, Sub5P p.2

theorem SubP.leafEnd4 {e cs} (h : SubP (.mk e cs)) : cs = [] → e = true := by
  cases h; assumption

theorem SubP.localOk4 {e cs} (h : SubP (.mk e cs)) : LocalOk cs := by
  cases h; assumption

theorem SubP.child4 {e cs} (h : SubP (.mk e cs)) : ∀ p ∈ cs, SubP p.2 := by
  cases h; assumption

theorem Sub5P.leafEnd {e cs} (h : Sub5P (.mk e cs)) : cs = [] → e = true := by
  cases h; assumption

theorem Sub5P.branch {e cs} (h : Sub5P (.mk e cs)) : e = false → 2 ≤ cs.length := by
  cases h; assumption

theorem Sub5P.localOk {e cs} (h : Sub5P (.mk e cs)) : LocalOk cs := by
  cases h; assumption

theorem Sub5P.child {e cs} (h : Sub5P (.mk e cs)) : ∀ p ∈ cs, Sub5P p.2 := by
  cases h; assumption

theorem Sub5P.toSubP {n : Node} (h : Sub5P n) : SubP n := by
  revert h
  refine Node.indMem (fun n => Sub5P n → SubP n) ?_ n
  intro e cs ih h
  exact SubP.mk e cs h.leafEnd h.localOk (fun p hp => ih p hp (h.child p hp))

theorem SubP.toValidP4 {n : Node} (h : SubP n) : ValidP n := by
  cases h with
  | mk e cs h1 h2 h3 => exact ⟨h2, h3⟩

theorem Sub5P.toValid5P {n : Node} (h : Sub5P n) : Valid5P n := by
  cases h with
  | mk e cs h1 h2 h3 h4 => exact ⟨h3, h4⟩

theorem Valid5P.toValidP {t : Node} (h : Valid5P t) : ValidP t :=
  ⟨h.1, fun p hp => (h.2 p hp).toSubP⟩

theorem pairwise_and_split {R S : (Str × Node) → (Str × Node) → Prop}
    {l : List (Str × Node)} :
    l.Pairwise (fun a b => R a b ∧ S a b) ↔ l.Pairwise R ∧ l.Pairwise S := by
  induction l with
  | nil => simp
  | cons q rest ih =>
    simp only [List.pairwise_cons, ih]
    constructor
    · rintro ⟨h1, h2, h3⟩
      exact ⟨⟨fun p hp => (h1 p hp).1, h2⟩, fun p hp => (h1 p hp).2, h3⟩
    · rintro ⟨⟨h1, h2⟩, h3, h4⟩
      exact ⟨fun p hp => ⟨h1 p hp, h3 p hp⟩, h2, h4⟩

theorem goSorted_iff : ∀ {cs : List (Str × Node)},
    localOkB.goSorted cs = true ↔ cs.Pairwise (fun a b => strLt a.1 b.1 = true) := by
  have inst : IsTrans (Str × Node) (fun a b => strLt a.1 b.1 = true) :=
    ⟨fun _ _ _ h1 h2 => strLt_trans h1 h2⟩
  intro cs
  rw [← List.chain'_iff_pairwise]
  induction cs with
  | nil => simp [localOkB.goSorted]
  | cons q rest ih =>
    obtain ⟨l1, c1⟩ := q
    cases rest with
    | nil => simp [localOkB.goSorted]
    | cons q2 rest2 =>
      obtain ⟨l2, c2⟩ := q2
      simp only [localOkB.goSorted, Bool.and_eq_true, ih, List.chain'_cons]

theorem goNonempty_iff : ∀ {cs : List (Str × Node)},
    localOkB.goNonempty cs = true ↔ ∀ p ∈ cs, p.1 ≠ ([] : Str) := by
  intro cs
  induction cs with
  | nil => simp [localOkB.goNonempty]
  | cons q rest ih =>
    obtain ⟨l, c⟩ := q
    simp only [localOkB.goNonempty, Bool.and_eq_true, ih, List.forall_mem_cons]
    constructor
    · rintro ⟨h1, h2⟩
      refine ⟨?_, h2⟩
      simpa [List.isEmpty_iff] using h1
    · rintro ⟨h1, h2⟩
      refine ⟨?_, h2⟩
      simpa [List.isEmpty_iff] using h1

theorem goHeads_iff : ∀ {cs : List (Str × Node)},
    localOkB.goHeads cs = true ↔ cs.Pairwise (fun a b => a.1.head? ≠ b.1.head?) := by
  intro cs
  induction cs with
  | nil => simp [localOkB.goHeads]
  | cons q rest ih =>
    obtain ⟨l, c⟩ := q
    simp only [localOkB.goHeads, Bool.and_eq_true, ih, List.pairwise_cons, List.all_eq_true]
    constructor
    · rintro ⟨h1, h2⟩
      refine ⟨fun p hp => ?_, h2⟩
      have := h1 p hp
      simp only [bne_iff_ne, ne_eq] at this
      exact fun hc => this hc.symm
    · rintro ⟨h1, h2⟩
      refine ⟨fun p hp => ?_, h2⟩
      have := h1 p hp
      simp only [bne_iff_ne, ne_eq]
      exact fun hc => this hc.symm

theorem localOkB_iff {cs : List (Str × Node)} :
    localOkB cs = true ↔ LocalOk cs := by
  unfold localOkB LocalOk
  rw [Bool.and_eq_true, Bool.and_eq_true, goSorted_iff, goNonempty_iff, goHeads_iff]
  unfold ChOrd
  rw [pairwise_and_split]
  tauto

theorem subOkB_iff {n : Node} : subOkB n = true ↔ SubP n := by
  refine Node.indMem (fun n => subOkB n = true ↔ SubP n) ?_ n
  intro e cs ih
  have hgo : ∀ cs', (∀ p ∈ cs', subOkB p.2 = true ↔ SubP p.2) →
      (subOkB.goChildren cs' = true ↔ ∀ p ∈ cs', SubP p.2) := by
    intro cs' h
    induction cs' with
    | nil => simp [subOkB.goChildren]
    | cons q rest ih2 =>
      simp only [subOkB.goChildren, Bool.and_eq_true, List.forall_mem_cons]
      rw [h q (List.mem_cons_self _ _),
        ih2 (fun p hp => h p (List.mem_cons_of_mem _ hp))]
  constructor
  · intro h
    simp only [subOkB, Bool.and_eq_true] at h
    obtain ⟨⟨h1, h2⟩, h3⟩ := h
    refine SubP.mk e cs ?_ (localOkB_iff.mp h2) ((hgo cs ih).mp h3)
    intro hnil
    subst hnil
    simpa using h1
  · intro h
    cases h with
    | mk e cs h1 h2 h3 =>
      simp only [subOkB, Bool.and_eq_true]
      refine ⟨⟨?_, localOkB_iff.mpr h2⟩, (hgo cs ih).mpr h3⟩
      cases cs with
      | nil => simp [h1 rfl]
      | cons q rest => simp

theorem sub5OkB_iff {n : Node} : sub5OkB n = true ↔ Sub5P n := by
  refine Node.indMem (fun n => sub5OkB n = true ↔ Sub5P n) ?_ n
  intro e cs ih
  have hgo : ∀ cs', (∀ p ∈ cs', sub5OkB p.2 = true ↔ Sub5P p.2) →
      (sub5OkB.goChildren cs' = true ↔ ∀ p ∈ cs', Sub5P p.2) := by
    intro cs' h
    induction cs' with
    | nil => simp [sub5OkB.goChildren]
    | cons q rest ih2 =>
      simp only [sub5OkB.goChildren, Bool.and_eq_true, List.forall_mem_cons]
      rw [h q (List.mem_cons_self _ _),
        ih2 (fun p hp => h p (List.mem_cons_of_mem _ hp))]
  constructor
  · intro h
    simp only [sub5OkB, Bool.and_eq_true] at h
    obtain ⟨⟨⟨h1, h4⟩, h2⟩, h3⟩ := h
    refine Sub5P.mk e cs ?_ ?_ (localOkB_iff.mp h2) ((hgo cs ih).mp h3)
    · intro hnil
      subst hnil
      simpa using h1
    · intro he
      subst he
      simp at h4 h1
      have hne : cs ≠ [] := by
        intro hc
        subst hc
        simp at h1
      have hpos : 0 < cs.length := List.length_pos.mpr hne
      omega
  · intro h
    cases h with
    | mk e cs h1 h5 h2 h3 =>
      simp only [sub5OkB, Bool.and_eq_true]
      refine ⟨⟨⟨?_, ?_⟩, localOkB_iff.mpr h2⟩, (hgo cs ih).mpr h3⟩
      · cases cs with
        | nil => simp [h1 rfl]
        | cons q rest => simp
      · cases e with
        | true => simp
        | false =>
          have h6 := h5 rfl
          simp only [Bool.false_or, bne_iff_ne, ne_eq]
          omega

theorem validB_iff {t : Node} : validB t = true ↔ ValidP t := by
  unfold validB ValidP
  rw [Bool.and_eq_true, localOkB_iff, List.all_eq_true]
  constructor
  · rintro ⟨h1, h2⟩
    exact ⟨h1, fun p hp => subOkB_iff.mp (by simpa using h2 p hp)⟩
  · rintro ⟨h1, h2⟩
    exact ⟨h1, fun p hp => by simpa using subOkB_iff.mpr (h2 p hp)⟩

theorem valid5B_iff {t : Node} : valid5B t = true ↔ Valid5P t := by
  unfold valid5B Valid5P
  rw [Bool.and_eq_true, localOkB_iff, List.all_eq_true]
  constructor
  · rintro ⟨h1, h2⟩
    exact ⟨h1, fun p hp => sub5OkB_iff.mp (by simpa using h2 p hp)⟩
  · rintro ⟨h1, h2⟩
    exact ⟨h1, fun p hp => by simpa using sub5OkB_iff.mpr (h2 p hp)⟩

/-! ### Search-kernel lemmas -/

theorem findPfxChild_goChildrenAM : ∀ (cs : List (Str × Node)) (k : Str),
    Node.approximateMatch.goChildren cs k =
      (findPfxChild cs k).map (fun lc => lc.2.approximateMatch (k.drop lc.1.length)) := by
  intro cs k
  induction cs with
  | nil => rfl
  | cons q rest ih =>
    obtain ⟨l, c⟩ := q
    by_cases hp : isPfxOf l k = true
    · simp [Node.approximateMatch.goChildren, findPfxChild, hp]
    · simp only [Bool.not_eq_true] at hp
      simp [Node.approximateMatch.goChildren, findPfxChild, hp, ih]

/-- Rewriting form of `approximate_match`: one descent step through the first
prefix child. -/
theorem approximateMatch_eq (n : Node) (k : Str) :
    n.approximateMatch k =
      (if k = [] then (n, k)
       else match findPfxChild n.children k with
         | some lc => lc.2.approximateMatch (k.drop lc.1.length)
         | none => (n, k)) := by
  cases n with
  | mk e cs =>
    show Node.approximateMatch (.mk e cs) k = _
    rw [Node.approximateMatch]
    rw [findPfxChild_goChildrenAM]
    by_cases hk : k = []
    · simp [hk]
    · simp only [if_neg hk]
      cases h : findPfxChild cs k with
      | none => simp [h]
      | some lc => simp [h]

theorem findPfxChild_goChildrenAP : ∀ (cs : List (Str × Node)) (k : Str),
    Node.approxPath.goChildren cs k =
      (findPfxChild cs k).map
        (fun lc =>
          ((lc.1 :: (lc.2.approxPath (k.drop lc.1.length)).1),
            (lc.2.approxPath (k.drop lc.1.length)).2)) := by
  intro cs k
  induction cs with
  | nil => rfl
  | cons q rest ih =>
    obtain ⟨l, c⟩ := q
    by_cases hp : isPfxOf l k = true
    · simp [Node.approxPath.goChildren, findPfxChild, hp]
    · simp only [Bool.not_eq_true] at hp
      simp [Node.approxPath.goChildren, findPfxChild, hp, ih]

/-- Rewriting form of the instrumented `approxPath`. -/
theorem approxPath_eq (n : Node) (k : Str) :
    n.approxPath k =
      (if k = [] then ([], k)
       else match findPfxChild n.children k with
         | some lc =>
           ((lc.1 :: (lc.2.approxPath (k.drop lc.1.length)).1),
             (lc.2.approxPath (k.drop lc.1.length)).2)
         | none => ([], k)) := by
  cases n with
  | mk e cs =>
    show Node.approxPath (.mk e cs) k = _
    rw [Node.approxPath]
    rw [findPfxChild_goChildrenAP]
    by_cases hk : k = []
    · simp [hk]
    · simp only [if_neg hk]
      cases h : findPfxChild cs k with
      | none => simp [h]
      | some lc => simp [h]

theorem findPfxChild_none_iff {cs : List (Str × Node)} {k : Str} :
    findPfxChild cs k = none ↔ ∀ p ∈ cs, isPfxOf p.1 k = false := by
  induction cs with
  | nil => simp [findPfxChild]
  | cons q rest ih =>
    obtain ⟨l, c⟩ := q
    by_cases hp : isPfxOf l k = true
    · simp [findPfxChild, hp]
    · simp only [Bool.not_eq_true] at hp
      simp [findPfxChild, hp, ih]

theorem findPfxChild_some {cs : List (Str × Node)} {k : Str} {l : Str} {c : Node}
    (h : findPfxChild cs k = some (l, c)) :
    (l, c) ∈ cs ∧ isPfxOf l k = true := by
  induction cs with
  | nil => simp [findPfxChild] at h
  | cons q rest ih =>
    obtain ⟨l', c'⟩ := q
    by_cases hp : isPfxOf l' k = true
    · simp only [findPfxChild, if_pos hp, Option.some.injEq] at h
      obtain ⟨rfl, rfl⟩ := Prod.mk.injEq .. ▸ (Prod.ext_iff.mp h.symm)
      exact ⟨List.mem_cons_self _ _, hp⟩
    · simp only [Bool.not_eq_true] at hp
      simp only [findPfxChild, hp, Bool.false_eq_true, if_false] at h
      obtain ⟨h1, h2⟩ := ih h
      exact ⟨List.mem_cons_of_mem _ h1, h2⟩

theorem findExtChild_none_iff {cs : List (Str × Node)} {r : Str} :
    findExtChild cs r = none ↔ ∀ p ∈ cs, isPfxOf r p.1 = false := by
  induction cs with
  | nil => simp [findExtChild]
  | cons q rest ih =>
    obtain ⟨l, c⟩ := q
    by_cases hp : isPfxOf r l = true
    · simp [findExtChild, hp]
    · simp only [Bool.not_eq_true] at hp
      simp [findExtChild, hp, ih]

theorem findExtChild_some {cs : List (Str × Node)} {r : Str} {l : Str} {c : Node}
    (h : findExtChild cs r = some (l, c)) :
    (l, c) ∈ cs ∧ isPfxOf r l = true := by
  induction cs with
  | nil => simp [findExtChild] at h
  | cons q rest ih =>
    obtain ⟨l', c'⟩ := q
    by_cases hp : isPfxOf r l' = true
    · simp only [findExtChild, if_pos hp, Option.some.injEq] at h
      obtain ⟨rfl, rfl⟩ := Prod.mk.injEq .. ▸ (Prod.ext_iff.mp h.symm)
      exact ⟨List.mem_cons_self _ _, hp⟩
    · simp only [Bool.not_eq_true] at hp
      simp only [findExtChild, hp, Bool.false_eq_true, if_false] at h
      obtain ⟨h1, h2⟩ := ih h
      exact ⟨List.mem_cons_of_mem _ h1, h2⟩

/-- The descent consumes a prefix of the key: path labels plus residual
reassemble the key. -/
theorem approxPath_consumes : ∀ (n : Node) (k : Str),
    pathString (n.approxPath k).1 ++ (n.approxPath k).2 = k := by
  refine Node.indMem (fun n => ∀ k, pathString (n.approxPath k).1 ++ (n.approxPath k).2 = k) ?_
  intro e cs ih k
  rw [approxPath_eq]
  by_cases hk : k = []
  · simp [hk, pathString]
  · simp only [if_neg hk]
    cases h : findPfxChild cs k with
    | none => simp [h, pathString]
    | some lc =>
      obtain ⟨l, c⟩ := lc
      obtain ⟨hmem, hpfx⟩ := findPfxChild_some h
      have ihc := ih (l, c) hmem (k.drop l.length)
      simp only [Node.children_mk, h]
      simp only [pathString, List.foldr_cons] at ihc ⊢
      rw [List.append_assoc, ihc]
      exact (drop_of_isPfxOf hpfx).symm

theorem validP_mk_iff {e : Bool} {cs : List (Str × Node)} :
    ValidP (.mk e cs) ↔ LocalOk cs ∧ ∀ p ∈ cs, SubP p.2 := Iff.rfl

theorem valid5P_mk_iff {e : Bool} {cs : List (Str × Node)} :
    Valid5P (.mk e cs) ↔ LocalOk cs ∧ ∀ p ∈ cs, Sub5P p.2 := Iff.rfl

/-- Under a well-formed map, membership determines lookup (labels are
pairwise distinct). -/
theorem localOk_lookup : ∀ {cs : List (Str × Node)}, cs.Pairwise ChOrd →
    ∀ {l : Str} {c : Node}, (l, c) ∈ cs → mapLookup cs l = some c := by
  intro cs hpw l c hm
  induction cs with
  | nil => simp at hm
  | cons q rest ih =>
    obtain ⟨l', c'⟩ := q
    rcases List.mem_cons.mp hm with h1 | h2
    · obtain ⟨rfl, rfl⟩ := Prod.mk.injEq .. ▸ (Prod.ext_iff.mp h1.symm)
      exact mapLookup_cons_self
    · have hne : l' ≠ l := by
        intro hc
        subst hc
        have := (List.pairwise_cons.mp hpw).1 (l', c) h2
        exact absurd this.1 (by simp [strLt_irrefl])
      simp only [mapLookup, if_neg hne]
      exact ih (List.pairwise_cons.mp hpw).2 h2

theorem ValidP.childSub {e : Bool} {cs : List (Str × Node)}
    (h : ValidP (.mk e cs)) {l : Str} {c : Node} (hm : (l, c) ∈ cs) : SubP c :=
  h.2 (l, c) hm

/-- Soundness of the instrumented descent: the path of `approxPath` addresses
exactly the vertex of `approximate_match`, with the same residual. -/
theorem approxPath_sound : ∀ (n : Node), ValidP n → ∀ (k : Str),
    nodeAt n (n.approxPath k).1 = some (n.approximateMatch k).1 ∧
    (n.approxPath k).2 = (n.approximateMatch k).2 := by
  refine Node.indMem (fun n => ValidP n → ∀ k,
    nodeAt n (n.approxPath k).1 = some (n.approximateMatch k).1 ∧
    (n.approxPath k).2 = (n.approximateMatch k).2) ?_
  intro e cs ih hv k
  rw [approxPath_eq, approximateMatch_eq]
  by_cases hk : k = []
  · simp [hk, nodeAt]
  · simp only [if_neg hk, Node.children_mk]
    cases h : findPfxChild cs k with
    | none => simp [nodeAt]
    | some lc =>
      obtain ⟨l, c⟩ := lc
      obtain ⟨hmem, hpfx⟩ := findPfxChild_some h
      have hsub : SubP c := hv.childSub hmem
      have ihc := ih (l, c) hmem hsub.toValidP4 (k.drop l.length)
      have hlk : mapLookup cs l = some c := localOk_lookup hv.1.1 hmem
      simp only [nodeAt, Node.children_mk, hlk]
      exact ihc

/-- On termination of `approximate_match` with a non-empty residual, no child
label of the matched vertex is a prefix of the residual. -/
theorem approx_no_pfx_child : ∀ (n : Node) (k : Str),
    (n.approximateMatch k).2 ≠ [] →
    findPfxChild (n.approximateMatch k).1.children (n.approximateMatch k).2 = none := by
  refine Node.indMem (fun n => ∀ k, (n.approximateMatch k).2 ≠ [] →
    findPfxChild (n.approximateMatch k).1.children (n.approximateMatch k).2 = none) ?_
  intro e cs ih k hne
  rw [approximateMatch_eq] at hne ⊢
  by_cases hk : k = []
  · simp [hk] at hne
  · simp only [if_neg hk, Node.children_mk] at hne ⊢
    cases h : findPfxChild cs k with
    | none => simp [h]
    | some lc =>
      obtain ⟨l, c⟩ := lc
      obtain ⟨hmem, _⟩ := findPfxChild_some h
      simp only [h] at hne ⊢
      exact ih (l, c) hmem _ hne

/-- The vertex returned by `approximate_match` is itself well-formed. -/
theorem approx_valid : ∀ (n : Node), ValidP n → ∀ (k : Str),
    ValidP (n.approximateMatch k).1 := by
  refine Node.indMem (fun n => ValidP n → ∀ k, ValidP (n.approximateMatch k).1) ?_
  intro e cs ih hv k
  rw [approximateMatch_eq]
  by_cases hk : k = []
  · simpa [hk] using hv
  · simp only [if_neg hk, Node.children_mk]
    cases h : findPfxChild cs k with
    | none => simpa [h] using hv
    | some lc =>
      obtain ⟨l, c⟩ := lc
      obtain ⟨hmem, _⟩ := findPfxChild_some h
      simp only [h]
      exact ih (l, c) hmem (hv.childSub hmem).toValidP4 _

/-- The vertex returned by `prefix_match`, when non-null, is well-formed. -/
theorem pfxMatch_valid {t : Node} (hv : ValidP t) {p : Str} {m : Node}
    (h : (t.pfxMatch p).1 = some m) : ValidP m := by
  unfold Node.pfxMatch at h
  by_cases hr : (t.approximateMatch p).2 = []
  · simp only [hr, if_pos rfl] at h
    obtain rfl := Option.some.inj h
    exact approx_valid t hv p
  · simp only [if_neg hr] at h
    cases hf : findExtChild (t.approximateMatch p).1.children (t.approximateMatch p).2 with
    | none => simp [hf] at h
    | some lc =>
      simp only [hf, Option.some.injEq] at h
      subst h
      obtain ⟨hmem, _⟩ := findExtChild_some hf
      have hva : ValidP (t.approximateMatch p).1 := approx_valid t hv p
      cases hm : (t.approximateMatch p).1 with
      | mk e2 cs2 =>
        rw [hm] at hva hmem
        exact (hva.childSub hmem).toValidP4

/-! ### Counting lemmas -/

theorem keyCount_eq_length : ∀ (n : Node), n.keyCount = (keysOf n).length := by
  refine Node.indMem (fun n => n.keyCount = (keysOf n).length) ?_
  intro e cs ih
  show Node.keyCount (.mk e cs) = (keysOf (.mk e cs)).length
  rw [Node.keyCount, keysOf]
  have hgo : ∀ cs', (∀ p ∈ cs', p.2.keyCount = (keysOf p.2).length) →
      Node.keyCount.goChildren cs' = (keysOf.goChildren cs').length := by
    intro cs' h
    induction cs' with
    | nil => rfl
    | cons q rest ih2 =>
      simp only [Node.keyCount.goChildren, keysOf.goChildren, List.length_append,
        List.length_map]
      rw [h q (List.mem_cons_self _ _),
        ih2 (fun p hp => h p (List.mem_cons_of_mem _ hp))]
  rw [hgo cs ih]
  cases e <;> simp [Nat.add_comm]

theorem SubP.keyCount_pos : ∀ {n : Node}, SubP n → 1 ≤ n.keyCount := by
  have H : ∀ n, SubP n → 1 ≤ n.keyCount := by
    refine Node.indMem (fun n => SubP n → 1 ≤ n.keyCount) ?_
    intro e cs ih hs
    rw [Node.keyCount]
    cases e with
    | true => simp
    | false =>
      have hcs : cs ≠ [] := by
        intro hc
        exact absurd (hs.leafEnd4 hc) (by simp)
      cases cs with
      | nil => exact absurd rfl hcs
      | cons q rest =>
        have h1 : 1 ≤ q.2.keyCount :=
          ih q (List.mem_cons_self _ _) (hs.child4 q (List.mem_cons_self _ _))
        simp only [Node.keyCount.goChildren]
        omega
  exact fun {n} => H n

theorem isPfxOf_append_cancel : ∀ (l a b : Str), isPfxOf (l ++ a) (l ++ b) = isPfxOf a b := by
  intro l
  induction l with
  | nil => intro a b; rfl
  | cons x s ih => intro a b; simp [isPfxOf, ih]

theorem isPfxOf_of_pfx_pfx {p l : Str} (h : p <+: l) (u : Str) :
    isPfxOf p (l ++ u) = true :=
  isPfxOf_iff.mpr (h.trans (List.prefix_append l u))

theorem isPfxOf_false_of_incomp {p l : Str} (h1 : ¬ p <+: l) (h2 : ¬ l <+: p) (u : Str) :
    isPfxOf p (l ++ u) = false := by
  cases hx : isPfxOf p (l ++ u) with
  | false => rfl
  | true =>
    have hp : p <+: l ++ u := isPfxOf_iff.mp hx
    have hl : l <+: l ++ u := List.prefix_append l u
    rcases List.prefix_or_prefix_of_prefix hp hl with hc | hc
    · exact absurd hc h1
    · exact absurd hc h2

theorem isPfxOf_head_ne {p w : Str} (h : p.head? ≠ w.head?) (hp : p ≠ []) :
    isPfxOf p w = false := by
  cases hx : isPfxOf p w with
  | false => rfl
  | true => exact absurd (head_eq_of_isPfxOf hx hp).symm h

theorem keysOf_goChildren_append : ∀ (u v : List (Str × Node)),
    keysOf.goChildren (u ++ v) = keysOf.goChildren u ++ keysOf.goChildren v := by
  intro u v
  induction u with
  | nil => rfl
  | cons q rest ih =>
    obtain ⟨l, c⟩ := q
    simp [keysOf.goChildren, ih]

theorem findPfxChild_decomp {cs : List (Str × Node)} {k l : Str} {c : Node}
    (h : findPfxChild cs k = some (l, c)) :
    ∃ u1 u2, cs = u1 ++ (l, c) :: u2 := by
  induction cs with
  | nil => simp [findPfxChild] at h
  | cons q rest ih =>
    by_cases hp : isPfxOf q.1 k = true
    · refine ⟨[], rest, ?_⟩
      obtain ⟨l', c'⟩ := q
      simp only [findPfxChild, hp, if_true, Option.some.injEq] at h
      obtain ⟨rfl, rfl⟩ := Prod.mk.injEq .. ▸ (Prod.ext_iff.mp h.symm)
      rfl
    · obtain ⟨l', c'⟩ := q
      simp only [Bool.not_eq_true] at hp
      simp only [findPfxChild, hp, Bool.false_eq_true, if_false] at h
      obtain ⟨u1, u2, he⟩ := ih h
      exact ⟨(l', c') :: u1, u2, by simp [he]⟩

theorem findExtChild_decomp {cs : List (Str × Node)} {r l : Str} {c : Node}
    (h : findExtChild cs r = some (l, c)) :
    ∃ u1 u2, cs = u1 ++ (l, c) :: u2 := by
  induction cs with
  | nil => simp [findExtChild] at h
  | cons q rest ih =>
    by_cases hp : isPfxOf r q.1 = true
    · refine ⟨[], rest, ?_⟩
      obtain ⟨l', c'⟩ := q
      simp only [findExtChild, hp, if_true, Option.some.injEq] at h
      obtain ⟨rfl, rfl⟩ := Prod.mk.injEq .. ▸ (Prod.ext_iff.mp h.symm)
      rfl
    · obtain ⟨l', c'⟩ := q
      simp only [Bool.not_eq_true] at hp
      simp only [findExtChild, hp, Bool.false_eq_true, if_false] at h
      obtain ⟨u1, u2, he⟩ := ih h
      exact ⟨(l', c') :: u1, u2, by simp [he]⟩

/-- All keys contributed by children whose label head differs from the head
of a non-empty `p` fail the `p`-prefix test. -/
theorem countP_goChildren_zero_heads {p : Str} {h0 : Char} (hp : p.head? = some h0) :
    ∀ (u : List (Str × Node)), (∀ q ∈ u, q.1.head? ≠ some h0) → (∀ q ∈ u, q.1 ≠ []) →
    (keysOf.goChildren u).countP (fun w => isPfxOf p w) = 0 := by
  intro u hheads hne
  induction u with
  | nil => rfl
  | cons q rest ih =>
    obtain ⟨l, c⟩ := q
    simp only [keysOf.goChildren, List.countP_append]
    rw [ih (fun q hq => hheads q (List.mem_cons_of_mem _ hq))
        (fun q hq => hne q (List.mem_cons_of_mem _ hq))]
    have hl : l ≠ [] := hne (l, c) (List.mem_cons_self _ _)
    have hcount : ((keysOf c).map (l ++ ·)).countP (fun w => isPfxOf p w) = 0 := by
      rw [List.countP_eq_zero]
      intro w hw
      obtain ⟨w0, _, rfl⟩ := List.mem_map.mp hw
      have hph : p ≠ [] := by
        intro hc
        rw [hc] at hp
        simp at hp
      have hheadw : (l ++ w0).head? = l.head? := by
        cases l with
        | nil => exact absurd rfl hl
        | cons x s => rfl
      have : p.head? ≠ (l ++ w0).head? := by
        rw [hp, hheadw]
        exact fun hc => hheads (l, c) (List.mem_cons_self _ _) hc.symm
      simp [isPfxOf_head_ne this hph]
    omega

/-- Children whose label is prefix-incomparable with `p` contribute no
`p`-prefixed key. -/
theorem countP_child_incomp {p l : Str} {c : Node}
    (h1 : isPfxOf p l = false) (h2 : isPfxOf l p = false) :
    ((keysOf c).map (l ++ ·)).countP (fun w => isPfxOf p w) = 0 := by
  rw [List.countP_eq_zero]
  intro w hw
  obtain ⟨w0, _, rfl⟩ := List.mem_map.mp hw
  have hn1 : ¬ p <+: l := fun hc => by simp [isPfxOf_iff.mpr hc] at h1
  have hn2 : ¬ l <+: p := fun hc => by simp [isPfxOf_iff.mpr hc] at h2
  simp [isPfxOf_false_of_incomp hn1 hn2 w0]

theorem pfxMatch_descend {e : Bool} {cs : List (Str × Node)} {k l : Str} {c : Node}
    (hk : k ≠ []) (h : findPfxChild cs k = some (l, c)) :
    (Node.mk e cs).pfxMatch k = c.pfxMatch (k.drop l.length) := by
  unfold Node.pfxMatch
  rw [approximateMatch_eq]
  simp [hk, h]

theorem countP_goChildren_incomp {p : Str} :
    ∀ (u : List (Str × Node)), (∀ q ∈ u, isPfxOf p q.1 = false ∧ isPfxOf q.1 p = false) →
    (keysOf.goChildren u).countP (fun w => isPfxOf p w) = 0 := by
  intro u hall
  induction u with
  | nil => rfl
  | cons q rest ih =>
    obtain ⟨l, c⟩ := q
    simp only [keysOf.goChildren, List.countP_append]
    obtain ⟨h1, h2⟩ := hall (l, c) (List.mem_cons_self _ _)
    rw [countP_child_incomp h1 h2, ih (fun q hq => hall q (List.mem_cons_of_mem _ hq))]

/-- Heads of all entries of `u1` and `u2` differ from the head of `l` when
`u1 ++ (l, c) :: u2` is pairwise `ChOrd`-ordered. -/
theorem heads_ne_of_pairwise {u1 u2 : List (Str × Node)} {l : Str} {c : Node}
    (hpw : (u1 ++ (l, c) :: u2).Pairwise ChOrd) :
    (∀ q ∈ u1, q.1.head? ≠ l.head?) ∧ (∀ q ∈ u2, q.1.head? ≠ l.head?) := by
  rw [List.pairwise_append] at hpw
  obtain ⟨hp1, hp2, hcross⟩ := hpw
  constructor
  · intro q hq
    exact (hcross q hq (l, c) (List.mem_cons_self _ _)).2
  · intro q hq
    have := (List.pairwise_cons.mp hp2).1 q hq
    exact fun hc => this.2 hc.symm

/-- The central counting lemma: the number of stored keys of the subtree
having `p` as a prefix equals the `key_count` of the `prefix_match` vertex
(0 when `prefix_match` is null). -/
theorem countP_pfx : ∀ (n : Node), ValidP n → ∀ (p : Str),
    (keysOf n).countP (fun w => isPfxOf p w) =
      (match (n.pfxMatch p).1 with
       | some m => m.keyCount
       | none => 0) := by
  refine Node.indMem (fun n => ValidP n → ∀ p,
    (keysOf n).countP (fun w => isPfxOf p w) =
      (match (n.pfxMatch p).1 with
       | some m => m.keyCount
       | none => 0)) ?_
  intro e cs ih hv p
  by_cases hp : p = []
  · subst hp
    have h1 : (Node.mk e cs).pfxMatch [] = (some (Node.mk e cs), []) := by
      unfold Node.pfxMatch
      rw [approximateMatch_eq]
      simp
    rw [h1]
    show (keysOf (Node.mk e cs)).countP (fun w => isPfxOf [] w) = (Node.mk e cs).keyCount
    rw [keyCount_eq_length]
    exact List.countP_eq_length.mpr (fun w _ => by simp [isPfxOf_nil])
  · have hfront : (if e then [([] : Str)] else []).countP (fun w => isPfxOf p w) = 0 := by
      cases p with
      | nil => exact absurd rfl hp
      | cons x s => cases e <;> simp [isPfxOf]
    cases hfp : findPfxChild cs p with
    | some lc =>
      obtain ⟨l, c⟩ := lc
      obtain ⟨hmem, hpfx⟩ := findPfxChild_some hfp
      rw [pfxMatch_descend hp hfp,
        ← ih (l, c) hmem (hv.childSub hmem).toValidP4 (p.drop l.length)]
      obtain ⟨u1, u2, hdec⟩ := findPfxChild_decomp hfp
      have hl : l ≠ [] := hv.1.2 (l, c) hmem
      have hpl := drop_of_isPfxOf hpfx
      have hph : p.head? = l.head? := head_eq_of_isPfxOf hpfx hl
      have hpw : (u1 ++ (l, c) :: u2).Pairwise ChOrd := hdec ▸ hv.1.1
      obtain ⟨hh1, hh2⟩ := heads_ne_of_pairwise hpw
      have hlh : ∃ h0, l.head? = some h0 := by
        cases l with
        | nil => exact absurd rfl hl
        | cons x s => exact ⟨x, rfl⟩
      obtain ⟨h0, hlh⟩ := hlh
      simp only [keysOf, hdec, keysOf_goChildren_append, keysOf.goChildren,
        List.countP_append, hfront]
      rw [countP_goChildren_zero_heads (hph.trans hlh) u1
          (fun q hq => by rw [← hlh]; exact hh1 q hq)
          (fun q hq => hv.1.2 q (hdec ▸ List.mem_append_left _ hq)),
        countP_goChildren_zero_heads (hph.trans hlh) u2
          (fun q hq => by rw [← hlh]; exact hh2 q hq)
          (fun q hq => hv.1.2 q
            (hdec ▸ List.mem_append_right _ (List.mem_cons_of_mem _ hq)))]
      have hmid : ((keysOf c).map (l ++ ·)).countP (fun w => isPfxOf p w) =
          (keysOf c).countP (fun w => isPfxOf (p.drop l.length) w) := by
        rw [List.countP_map]
        refine List.countP_congr (fun w _ => ?_)
        show isPfxOf p (l ++ w) = true ↔ isPfxOf (p.drop l.length) w = true
        have hcan : isPfxOf p (l ++ w) = isPfxOf (p.drop l.length) w := by
          conv_lhs => rw [hpl]
          exact isPfxOf_append_cancel l (p.drop l.length) w
        rw [hcan]
      omega
    | none =>
      have happrox : (Node.mk e cs).approximateMatch p = (Node.mk e cs, p) := by
        rw [approximateMatch_eq]
        simp [hp, hfp]
      unfold Node.pfxMatch
      rw [happrox]
      simp only [hp, if_false, Node.children_mk]
      cases hfe : findExtChild cs p with
      | some lc =>
        obtain ⟨l, c⟩ := lc
        obtain ⟨hmem, hpfx⟩ := findExtChild_some hfe
        simp only
        obtain ⟨u1, u2, hdec⟩ := findExtChild_decomp hfe
        have hl : l ≠ [] := hv.1.2 (l, c) hmem
        have hph : l.head? = p.head? := head_eq_of_isPfxOf hpfx hp
        have hpw : (u1 ++ (l, c) :: u2).Pairwise ChOrd := hdec ▸ hv.1.1
        obtain ⟨hh1, hh2⟩ := heads_ne_of_pairwise hpw
        have hlh : ∃ h0, l.head? = some h0 := by
          cases l with
          | nil => exact absurd rfl hl
          | cons x s => exact ⟨x, rfl⟩
        obtain ⟨h0, hlh⟩ := hlh
        simp only [keysOf, hdec, keysOf_goChildren_append, keysOf.goChildren,
          List.countP_append, hfront]
        rw [countP_goChildren_zero_heads (hlh ▸ hph.symm) u1
            (fun q hq => by rw [← hlh]; exact hh1 q hq)
            (fun q hq => hv.1.2 q (hdec ▸ List.mem_append_left _ hq)),
          countP_goChildren_zero_heads (hlh ▸ hph.symm) u2
            (fun q hq => by rw [← hlh]; exact hh2 q hq)
            (fun q hq => hv.1.2 q
              (hdec ▸ List.mem_append_right _ (List.mem_cons_of_mem _ hq)))]
        have hmid : ((keysOf c).map (l ++ ·)).countP (fun w => isPfxOf p w) =
            (keysOf c).length := by
          rw [List.countP_map]
          refine List.countP_eq_length.mpr (fun w _ => ?_)
          show isPfxOf p (l ++ w) = true
          exact isPfxOf_of_pfx_pfx (isPfxOf_iff.mp hpfx) w
        rw [hmid, keyCount_eq_length]
        omega
      | none =>
        simp only [keysOf, List.countP_append, hfront]
        rw [countP_goChildren_incomp cs (fun q hq =>
          ⟨(findExtChild_none_iff.mp hfe) q hq, (findPfxChild_none_iff.mp hfp) q hq⟩)]

/-- `size(p)` counts exactly the stored keys with prefix `p`. -/
theorem trieSize_counts {t : Node} (hv : ValidP t) (p : Str) :
    trieSize t p = (keysOf t).countP (fun w => isPfxOf p w) := by
  rw [countP_pfx t hv p]
  unfold trieSize
  cases (t.pfxMatch p).1 <;> rfl

/-- `empty(p)` agrees with `size(p) == 0` on well-formed trees. -/
theorem trieEmpty_iff_size {t : Node} (hv : ValidP t) (p : Str) :
    trieEmpty t p = true ↔ trieSize t p = 0 := by
  unfold trieEmpty trieSize
  cases hm : (t.pfxMatch p).1 with
  | none => simp
  | some m =>
    have hvm : ValidP m := pfxMatch_valid hv hm
    cases m with
    | mk e cs =>
      cases cs with
      | nil => cases e <;> simp [Node.keyCount, Node.keyCount.goChildren]
      | cons q rest =>
        have hq : SubP q.2 := hvm.2 q (List.mem_cons_self _ _)
        have hpos := hq.keyCount_pos
        simp only [Node.is_end_mk, Node.children_mk, List.isEmpty_cons, Bool.and_false,
          Node.keyCount, Node.keyCount.goChildren, Bool.false_eq_true, false_iff]
        omega

/-! ### Termination of the descent -/

/-- Fuel-indexed rephrasing of `approximate_match`: the recursion of the C++
is bounded, each descent step consuming at least one byte of the key. -/
def approxFuel : Nat → Node → Str → Option (Node × Str)
  | 0, _, _ => none
  | fuel + 1, n, k =>
    if k = [] then some (n, k)
    else
      match findPfxChild n.children k with
      | some lc => approxFuel fuel lc.2 (k.drop lc.1.length)
      | none => some (n, k)

/-- On a well-formed tree, fuel exceeding the key length suffices: the
recursion depth of `approximate_match` is bounded by the key length, because
every consumed edge label is non-empty. -/
theorem approxFuel_complete : ∀ (n : Node), ValidP n → ∀ (k : Str) (fuel : Nat),
    k.length < fuel → approxFuel fuel n k = some (n.approximateMatch k) := by
  refine Node.indMem (fun n => ValidP n → ∀ k fuel, k.length < fuel →
    approxFuel fuel n k = some (n.approximateMatch k)) ?_
  intro e cs ih hv k fuel hlt
  cases fuel with
  | zero => omega
  | succ f =>
    rw [approxFuel, approximateMatch_eq]
    by_cases hk : k = []
    · simp [hk]
    · simp only [if_neg hk, Node.children_mk]
      cases h : findPfxChild cs k with
      | none => simp
      | some lc =>
        obtain ⟨l, c⟩ := lc
        obtain ⟨hmem, hpfx⟩ := findPfxChild_some h
        have hl : l ≠ [] := hv.1.2 (l, c) hmem
        have hlen : l.length ≤ k.length := (isPfxOf_iff.mp hpfx).length_le
        have hl1 : 1 ≤ l.length := by
          cases l with
          | nil => exact absurd rfl hl
          | cons x s => simp
        have hdrop : (k.drop l.length).length < f := by
          rw [List.length_drop]
          omega
        simp only
        exact ih (l, c) hmem (hv.childSub hmem).toValidP4 _ f hdrop

/-! ### Sortedness of the key list -/

theorem head?_append_of_ne {l : Str} (hl : l ≠ []) (u : Str) :
    (l ++ u).head? = l.head? := by
  cases l with
  | nil => exact absurd rfl hl
  | cons x s => rfl

theorem mem_keysOf_goChildren : ∀ {cs : List (Str × Node)} {w : Str},
    w ∈ keysOf.goChildren cs ↔ ∃ q ∈ cs, ∃ u ∈ keysOf q.2, w = q.1 ++ u := by
  intro cs w
  induction cs with
  | nil => simp [keysOf.goChildren]
  | cons q rest ih =>
    obtain ⟨l, c⟩ := q
    simp only [keysOf.goChildren, List.mem_append, List.mem_map, ih, List.mem_cons]
    constructor
    · rintro (⟨u, hu, rfl⟩ | ⟨q', hq', u, hu, rfl⟩)
      · exact ⟨(l, c), Or.inl rfl, u, hu, rfl⟩
      · exact ⟨q', Or.inr hq', u, hu, rfl⟩
    · rintro ⟨q', hq' | hq', u, hu, rfl⟩
      · subst hq'
        exact Or.inl ⟨u, hu, rfl⟩
      · exact Or.inr ⟨q', hq', u, hu, rfl⟩

/-- Keys below an earlier child precede keys below a later child. -/
theorem strLt_cross {l1 l2 u v : Str} (h : ChOrd (l1, Node.mk false []) (l2, Node.mk false []))
    (hl1 : l1 ≠ []) (hl2 : l2 ≠ []) :
    strLt (l1 ++ u) (l2 ++ v) = true := by
  obtain ⟨hlt, hne⟩ := h
  obtain ⟨x, hx⟩ : ∃ x, l1.head? = some x := by
    cases l1 with
    | nil => exact absurd rfl hl1
    | cons a s => exact ⟨a, rfl⟩
  obtain ⟨y, hy⟩ : ∃ y, l2.head? = some y := by
    cases l2 with
    | nil => exact absurd rfl hl2
    | cons a s => exact ⟨a, rfl⟩
  have hxy : x < y := by
    rcases head_le_of_strLt hlt hx hy with h1 | h1
    · exact h1
    · exact absurd (by rw [hx, hy, h1]) hne
  exact strLt_of_head_lt (by rw [head?_append_of_ne hl1, hx])
    (by rw [head?_append_of_ne hl2, hy]) hxy

theorem keysOf_sorted : ∀ (n : Node), ValidP n →
    (keysOf n).Pairwise (fun a b => strLt a b = true) := by
  refine Node.indMem (fun n => ValidP n →
    (keysOf n).Pairwise (fun a b => strLt a b = true)) ?_
  intro e cs ih hv
  simp only [keysOf]
  rw [List.pairwise_append]
  refine ⟨?_, ?_, ?_⟩
  · cases e <;> simp
  · have hgo : ∀ cs', cs'.Pairwise ChOrd → (∀ q ∈ cs', q.1 ≠ ([] : Str)) →
        (∀ q ∈ cs', (keysOf q.2).Pairwise (fun a b => strLt a b = true)) →
        (keysOf.goChildren cs').Pairwise (fun a b => strLt a b = true) := by
      intro cs' hpw hne hsort
      induction cs' with
      | nil => simp [keysOf.goChildren]
      | cons q rest ih2 =>
        obtain ⟨l, c⟩ := q
        simp only [keysOf.goChildren]
        rw [List.pairwise_append]
        refine ⟨?_, ?_, ?_⟩
        · exact List.Pairwise.map _ (fun a b hab => by
            simpa [strLt_append_left] using hab)
            (hsort (l, c) (List.mem_cons_self _ _))
        · exact ih2 (List.pairwise_cons.mp hpw).2
            (fun q hq => hne q (List.mem_cons_of_mem _ hq))
            (fun q hq => hsort q (List.mem_cons_of_mem _ hq))
        · intro a ha b hb
          obtain ⟨u, _, rfl⟩ := List.mem_map.mp ha
          obtain ⟨q', hq', v, _, rfl⟩ := mem_keysOf_goChildren.mp hb
          have hch : ChOrd (l, c) q' := (List.pairwise_cons.mp hpw).1 q' hq'
          exact strLt_cross ⟨hch.1, hch.2⟩ (hne (l, c) (List.mem_cons_self _ _))
            (hne q' (List.mem_cons_of_mem _ hq'))
    exact hgo cs hv.1.1 (fun q hq => hv.1.2 q hq)
      (fun q hq => ih q hq (hv.childSub hq).toValidP4)
  · intro a ha b hb
    have haa : a = [] := by
      cases e with
      | true => simpa using ha
      | false => simp at ha
    subst haa
    obtain ⟨q', hq', v, _, rfl⟩ := mem_keysOf_goChildren.mp hb
    have : q'.1 ≠ [] := hv.1.2 q' hq'
    refine strLt_nil ?_
    simp [this]

/-! ### In-order traversal: paths of end-marked vertices -/

theorem endPaths_goChildren_append : ∀ (u v : List (Str × Node)),
    endPaths.goChildren (u ++ v) = endPaths.goChildren u ++ endPaths.goChildren v := by
  intro u v
  induction u with
  | nil => rfl
  | cons q rest ih =>
    obtain ⟨l, c⟩ := q
    simp [endPaths.goChildren, ih]

theorem mem_endPaths_goChildren : ∀ {cs : List (Str × Node)} {w : List Str},
    w ∈ endPaths.goChildren cs ↔ ∃ q ∈ cs, ∃ u ∈ endPaths q.2, w = q.1 :: u := by
  intro cs w
  induction cs with
  | nil => simp [endPaths.goChildren]
  | cons q rest ih =>
    obtain ⟨l, c⟩ := q
    simp only [endPaths.goChildren, List.mem_append, List.mem_map, ih, List.mem_cons]
    constructor
    · rintro (⟨u, hu, rfl⟩ | ⟨q', hq', u, hu, rfl⟩)
      · exact ⟨(l, c), Or.inl rfl, u, hu, rfl⟩
      · exact ⟨q', Or.inr hq', u, hu, rfl⟩
    · rintro ⟨q', hq' | hq', u, hu, rfl⟩
      · subst hq'
        exact Or.inl ⟨u, hu, rfl⟩
      · exact Or.inr ⟨q', hq', u, hu, rfl⟩

/-- The key list is the end-path list read through `underlying_string`. -/
theorem keysOf_eq_map_pathString : ∀ (n : Node),
    keysOf n = (endPaths n).map pathString := by
  refine Node.indMem (fun n => keysOf n = (endPaths n).map pathString) ?_
  intro e cs ih
  have hgo : ∀ cs', (∀ q ∈ cs', keysOf q.2 = (endPaths q.2).map pathString) →
      keysOf.goChildren cs' = (endPaths.goChildren cs').map pathString := by
    intro cs' h
    induction cs' with
    | nil => rfl
    | cons q rest ih2 =>
      obtain ⟨l, c⟩ := q
      simp only [keysOf.goChildren, endPaths.goChildren, List.map_append, List.map_map]
      rw [h (l, c) (List.mem_cons_self _ _),
        ih2 (fun q hq => h q (List.mem_cons_of_mem _ hq)), List.map_map]
      congr 1
  simp only [keysOf, endPaths, List.map_append, hgo cs ih]
  congr 1
  cases e <;> simp [pathString]

theorem endPaths_ne_nil {n : Node} (hs : SubP n) : endPaths n ≠ [] := by
  intro hc
  have h1 := keyCount_eq_length n
  rw [keysOf_eq_map_pathString, hc] at h1
  have h2 := hs.keyCount_pos
  simp at h1
  omega

theorem endPaths_length_eq : ∀ (n : Node), (endPaths n).length = n.keyCount := by
  intro n
  rw [keyCount_eq_length, keysOf_eq_map_pathString, List.length_map]

/-- `first_key` returns the first end path below the vertex stepped into. -/
theorem firstKeyFrom_eq : ∀ (c : Node), SubP c → ∀ (l : Str),
    Node.firstKeyFrom l c = ((endPaths c).head?).map (l :: ·) := by
  refine Node.indMem (fun c => SubP c → ∀ l,
    Node.firstKeyFrom l c = ((endPaths c).head?).map (l :: ·)) ?_
  intro e cs ih hs l
  cases e with
  | true => simp [Node.firstKeyFrom, endPaths]
  | false =>
    cases cs with
    | nil => exact absurd (hs.leafEnd4 rfl) (by simp)
    | cons q rest =>
      obtain ⟨l', c'⟩ := q
      have hsub : SubP c' := hs.child4 (l', c') (List.mem_cons_self _ _)
      have ihc := ih (l', c') (List.mem_cons_self _ _) hsub l'
      simp only [Node.firstKeyFrom, endPaths, endPaths.goChildren, if_false]
      cases hep : endPaths c' with
      | nil => exact absurd hep (endPaths_ne_nil hsub)
      | cons p0 prest =>
        rw [hep] at ihc
        simp only [List.head?_cons, Option.map_some'] at ihc
        simp [ihc]

/-- `first_key` of a vertex is the first end path among its children part. -/
theorem firstKeyPath_eq {n : Node} (hv : ValidP n) :
    n.firstKeyPath = (endPaths.goChildren n.children).head? := by
  cases n with
  | mk e cs =>
    cases cs with
    | nil => simp [Node.firstKeyPath, endPaths.goChildren]
    | cons q rest =>
      obtain ⟨l, c⟩ := q
      have hsub : SubP c := hv.childSub (List.mem_cons_self _ _)
      show Node.firstKeyFrom l c = _
      rw [firstKeyFrom_eq c hsub l]
      simp only [endPaths.goChildren]
      cases hep : endPaths c with
      | nil => exact absurd hep (endPaths_ne_nil hsub)
      | cons p0 prest => simp

theorem nodeAt_append : ∀ (p : List Str) (t : Node) (r : List Str),
    nodeAt t (p ++ r) = (nodeAt t p).bind (fun n => nodeAt n r) := by
  intro p
  induction p with
  | nil => intro t r; rfl
  | cons l rest ih =>
    intro t r
    simp only [List.cons_append, nodeAt]
    cases mapLookup t.children l with
    | none => rfl
    | some c => exact ih c r

theorem nodeAt_child {t : Node} {σ : List Str} {s : Node} (hs : nodeAt t σ = some s)
    (hpw : s.children.Pairwise ChOrd) {l : Str} {c : Node} (hm : (l, c) ∈ s.children) :
    nodeAt t (σ ++ [l]) = some c := by
  rw [nodeAt_append, hs]
  show nodeAt s [l] = some c
  simp [nodeAt, localOk_lookup hpw hm]

/-- With pairwise-distinct labels, the right sibling of the child labelled `l`
is the head of the part following it. -/
theorem nextSibling_decomp {u1 u2 : List (Str × Node)} {l : Str} {c : Node}
    (hpw : (u1 ++ (l, c) :: u2).Pairwise ChOrd) :
    nextSibling (u1 ++ (l, c) :: u2) l = u2.head? := by
  induction u1 with
  | nil => simp [nextSibling]
  | cons q rest ih =>
    obtain ⟨l', c'⟩ := q
    have hne : l' ≠ l := by
      intro hc
      subst hc
      have := (List.pairwise_cons.mp hpw).1 (l', c)
        (List.mem_append_right _ (List.mem_cons_self _ _))
      exact absurd this.1 (by simp [strLt_irrefl])
    simp only [List.cons_append, nextSibling, if_neg hne]
    exact ih (List.pairwise_cons.mp hpw).2

/-- With pairwise-distinct labels, the child labelled `l` is the rightmost
child exactly when nothing follows it. -/
theorem isLastChild_decomp {u1 u2 : List (Str × Node)} {l : Str} {c : Node}
    (hpw : (u1 ++ (l, c) :: u2).Pairwise ChOrd) :
    isLastChild (u1 ++ (l, c) :: u2) l = u2.isEmpty := by
  cases hu2 : u2 with
  | nil =>
    subst hu2
    unfold isLastChild
    rw [List.getLast?_append_cons]
    simp
  | cons q2 rest2 =>
    subst hu2
    unfold isLastChild
    rw [List.getLast?_append_cons, List.getLast?_cons_cons]
    have hlast : (q2 :: rest2).getLast? = some ((q2 :: rest2).getLast (by simp)) :=
      List.getLast?_eq_getLast _ _
    have hmem : (q2 :: rest2).getLast (by simp) ∈ q2 :: rest2 := List.getLast_mem _
    rw [hlast]
    simp only [List.isEmpty_cons]
    have hcross := (List.pairwise_append.mp hpw).2.1
    have := (List.pairwise_cons.mp hcross).1 _ hmem
    have hne : ((q2 :: rest2).getLast (by simp)).1 ≠ l := by
      intro hc
      have h2 := this.1
      rw [hc] at h2
      exact absurd h2 (by simp [strLt_irrefl])
    simp [hne]

theorem goChildren_endPaths_ne_nil {u : List (Str × Node)}
    (hall : ∀ q ∈ u, SubP q.2) (hne : u ≠ []) :
    endPaths.goChildren u ≠ [] := by
  cases u with
  | nil => exact absurd rfl hne
  | cons q rest =>
    obtain ⟨l, c⟩ := q
    simp only [endPaths.goChildren]
    have h1 : endPaths c ≠ [] := endPaths_ne_nil (hall (l, c) (List.mem_cons_self _ _))
    cases hep : endPaths c with
    | nil => exact absurd hep h1
    | cons p0 prest => simp

/-- Joint correctness of `operator++` over the in-order end paths of a
subtree rooted at path `σ`: consecutive end paths of the subtree are linked
by one increment, and an increment at the subtree's last end path equals
`next_node` of the subtree's own vertex. -/
theorem iter_main : ∀ (s : Node), ValidP s → ∀ (t : Node) (σ : List Str),
    nodeAt t σ = some s →
    List.Chain' (fun a b => iterStep t (σ ++ a) = some (σ ++ b)) (endPaths s) ∧
    (∀ a, (endPaths s).getLast? = some a → iterStep t (σ ++ a) = nextNodePath t σ) := by
  refine Node.indMem (fun s => ValidP s → ∀ t σ, nodeAt t σ = some s →
    List.Chain' (fun a b => iterStep t (σ ++ a) = some (σ ++ b)) (endPaths s) ∧
    (∀ a, (endPaths s).getLast? = some a → iterStep t (σ ++ a) = nextNodePath t σ)) ?_
  intro e cs ihc hv t σ hσ
  have hpw : cs.Pairwise ChOrd := hv.1.1
  -- `next_node` at a non-rightmost child `l` of this vertex descends to the
  -- right sibling's first end path; at the rightmost child it reduces to
  -- `next_node` of this vertex.
  have hnext : ∀ (u1 u2 : List (Str × Node)) (l : Str) (c : Node),
      cs = u1 ++ (l, c) :: u2 →
      nextNodePath t (σ ++ [l]) =
        (match u2 with
         | [] => nextNodePath t σ
         | (l2, c2) :: _ =>
           if c2.is_end then some (σ ++ [l2])
           else (c2.firstKeyPath).map (fun q => σ ++ l2 :: q)) := by
    intro u1 u2 l c hdec
    have hpw2 : (u1 ++ (l, c) :: u2).Pairwise ChOrd := hdec ▸ hpw
    show nextNodeRev t (σ ++ [l]).reverse = _
    rw [List.reverse_append]
    simp only [List.reverse_cons, List.reverse_nil, List.nil_append, List.singleton_append]
    unfold nextNodeRev
    rw [List.reverse_reverse, hσ]
    simp only [Node.children_mk, hdec, isLastChild_decomp hpw2]
    cases u2 with
    | nil =>
      simp only [List.isEmpty_nil, if_true]
      rfl
    | cons q2 rest2 =>
      obtain ⟨l2, c2⟩ := q2
      simp only [List.isEmpty_cons, Bool.false_eq_true, if_false,
        nextSibling_decomp hpw2, List.head?_cons]
  -- the per-child blocks of the in-order list, by suffix induction
  have hgo : ∀ (u2 u1 : List (Str × Node)), cs = u1 ++ u2 →
      List.Chain' (fun a b => iterStep t (σ ++ a) = some (σ ++ b))
        (endPaths.goChildren u2) ∧
      (∀ a, (endPaths.goChildren u2).getLast? = some a →
        iterStep t (σ ++ a) = nextNodePath t σ) := by
    intro u2
    induction u2 with
    | nil => intro u1 _; exact ⟨List.chain'_nil, by simp [endPaths.goChildren]⟩
    | cons q u2' ihu =>
      intro u1 hdec
      obtain ⟨l, c⟩ := q
      have hm : (l, c) ∈ cs := hdec ▸ List.mem_append_right _ (List.mem_cons_self _ _)
      have hsub : SubP c := hv.childSub hm
      have hvc : ValidP c := hsub.toValidP4
      have hcat : nodeAt t (σ ++ [l]) = some c := nodeAt_child hσ hpw hm
      obtain ⟨hchain_c, hexit_c⟩ := ihc (l, c) hm hvc t (σ ++ [l]) hcat
      obtain ⟨hchain', hexit'⟩ := ihu (u1 ++ [(l, c)]) (by simpa using hdec)
      have hepc : endPaths c ≠ [] := endPaths_ne_nil hsub
      -- the in-block chain, transported through the `l ::` map
      have hblock : List.Chain' (fun a b => iterStep t (σ ++ a) = some (σ ++ b))
          ((endPaths c).map (l :: ·)) := by
        rw [List.chain'_map]
        refine hchain_c.imp (fun a b hab => ?_)
        simpa [List.append_assoc] using hab
      -- increment at the block's last element
      have hlastblock : ∀ a'', (endPaths c).getLast? = some a'' →
          iterStep t (σ ++ (l :: a'')) = nextNodePath t (σ ++ [l]) := by
        intro a'' ha''
        have := hexit_c a'' ha''
        simpa [List.append_assoc] using this
      simp only [endPaths.goChildren]
      constructor
      · rw [List.chain'_append]
        refine ⟨hblock, hchain', ?_⟩
        intro x hx y hy
        rw [List.getLast?_map] at hx
        cases ha'' : (endPaths c).getLast? with
        | none => simp [ha''] at hx
        | some a'' =>
          rw [ha''] at hx
          simp only [Option.map_some', Option.mem_def, Option.some.injEq] at hx
          subst hx
          rw [hlastblock a'' ha'', hnext u1 u2' l c hdec]
          cases u2' with
          | nil => simp [endPaths.goChildren] at hy
          | cons q2 rest2 =>
            obtain ⟨l2, c2⟩ := q2
            have hsub2 : SubP c2 := hv.childSub
              (hdec ▸ List.mem_append_right _
                (List.mem_cons_of_mem _ (List.mem_cons_self _ _)))
            have hep2 : endPaths c2 ≠ [] := endPaths_ne_nil hsub2
            simp only [endPaths.goChildren, List.head?_append, List.head?_map,
              Option.mem_def] at hy
            cases hep2' : endPaths c2 with
            | nil => exact absurd hep2' hep2
            | cons p0 prest =>
              rw [hep2'] at hy
              simp only [List.head?_cons, Option.map_some', Option.or_some,
                Option.some.injEq] at hy
              subst hy
              cases he2 : c2.is_end with
              | true =>
                -- an end-marked sibling is itself the next position
                have hp0 : p0 = [] := by
                  cases c2 with
                  | mk e2 cs2 =>
                    simp only [Node.is_end_mk] at he2
                    subst he2
                    simp only [endPaths, if_true, List.singleton_append,
                      List.cons.injEq] at hep2'
                    exact hep2'.1.symm
                simp [he2, hp0]
              | false =>
                -- descend to the sibling's first key
                have hvc2 : ValidP c2 := hsub2.toValidP4
                have hfk : c2.firstKeyPath = some p0 := by
                  rw [firstKeyPath_eq hvc2]
                  cases c2 with
                  | mk e2 cs2 =>
                    simp only [Node.is_end_mk] at he2
                    subst he2
                    have hfr : endPaths (Node.mk false cs2) = endPaths.goChildren cs2 := by
                      simp [endPaths]
                    rw [hfr] at hep2'
                    simp [Node.children_mk, hep2']
                simp [he2, hfk]
      · intro a ha
        by_cases hu2' : u2' = []
        · subst hu2'
          simp only [endPaths.goChildren, List.append_nil, List.getLast?_map] at ha
          cases ha'' : (endPaths c).getLast? with
          | none => simp [ha''] at ha
          | some a'' =>
            rw [ha''] at ha
            simp only [Option.map_some', Option.some.injEq] at ha
            subst ha
            rw [hlastblock a'' ha'', hnext u1 [] l c (by simpa using hdec)]
        · have hne2 : endPaths.goChildren u2' ≠ [] :=
            goChildren_endPaths_ne_nil
              (fun q hq => hv.childSub (hdec ▸ List.mem_append_right _
                (List.mem_cons_of_mem _ hq)))
              hu2'
          rw [List.getLast?_append_of_ne_nil _ hne2] at ha
          exact hexit' a ha
  constructor
  · simp only [endPaths]
    rw [List.chain'_append]
    refine ⟨?_, (hgo cs [] rfl).1, ?_⟩
    · cases e <;> simp
    · intro x hx y hy
      cases e with
      | false => simp at hx
      | true =>
        simp at hx
        subst hx
        have hcs : cs ≠ [] := by
          intro hc
          subst hc
          simp [endPaths.goChildren] at hy
        unfold iterStep
        rw [List.append_nil, hσ]
        have hcsne : ¬ (Node.mk true cs).children.isEmpty = true := by
          cases cs with
          | nil => exact absurd rfl hcs
          | cons _ _ => simp
        simp only [Node.children_mk] at hcsne ⊢
        rw [if_neg hcsne]
        rw [firstKeyPath_eq hv]
        simp only [Node.children_mk, Option.mem_def] at hy ⊢
        rw [hy]
        rfl
  · intro a ha
    simp only [endPaths] at ha
    by_cases hcs : cs = []
    · subst hcs
      simp only [endPaths.goChildren, List.append_nil] at ha
      cases e with
      | false => simp at ha
      | true =>
        simp at ha
        subst ha
        unfold iterStep
        rw [List.append_nil, hσ]
        simp [nextNodePath]
    · have hne : endPaths.goChildren cs ≠ [] :=
        goChildren_endPaths_ne_nil (fun q hq => hv.childSub hq) hcs
      rw [List.getLast?_append_of_ne_nil _ hne] at ha
      exact (hgo cs [] rfl).2 a ha

theorem trieBeginPath_eq {t : Node} (hv : ValidP t) :
    trieBeginPath t = (endPaths t).head? := by
  unfold trieBeginPath
  cases t with
  | mk e cs =>
    cases e with
    | true => simp [endPaths]
    | false =>
      rw [firstKeyPath_eq hv]
      simp [endPaths]

theorem trieSize_nil (t : Node) : trieSize t [] = t.keyCount := by
  unfold trieSize Node.pfxMatch
  rw [approximateMatch_eq]
  simp

theorem iterList_of_chain : ∀ (A : List (List Str)) (t : Node),
    List.Chain' (fun a b => iterStep t a = some b) A →
    (∀ a, A.getLast? = some a → iterStep t a = none) →
    iterList t A.length A.head? = A.map pathString ∧
    iterN t A.length A.head? = none := by
  intro A
  induction A with
  | nil => intro t _ _; exact ⟨rfl, rfl⟩
  | cons a rest ih =>
    intro t hch hlast
    cases rest with
    | nil =>
      have hstep : iterStep t a = none := hlast a rfl
      refine ⟨?_, ?_⟩
      · show pathString a :: iterList t 0 (iterStep t a) = [pathString a]
        simp [iterList]
      · show iterN t 1 (some a) = none
        simp [iterN, hstep]
    | cons b rest2 =>
      have hstep : iterStep t a = some b := (List.chain'_cons.mp hch).1
      obtain ⟨ih1, ih2⟩ := ih t (List.chain'_cons.mp hch).2
        (fun x hx => hlast x (by rw [List.getLast?_cons_cons]; exact hx))
      simp only [List.head?_cons] at ih1 ih2
      refine ⟨?_, ?_⟩
      · show pathString a :: iterList t (b :: rest2).length (iterStep t a) = _
        rw [hstep, ih1]
        rfl
      · show iterN t (b :: rest2).length (iterStep t a) = none
        rw [hstep]
        exact ih2

/-- Forward iteration from `begin()` visits exactly the stored keys, and the
`size()`-th increment lands on the end iterator. -/
theorem trieIterKeys_eq {t : Node} (hv : ValidP t) :
    trieIterKeys t = keysOf t ∧ iterN t t.keyCount (trieBeginPath t) = none := by
  obtain ⟨hchain, hexit⟩ := iter_main t hv t [] rfl
  have hch : List.Chain' (fun a b => iterStep t a = some b) (endPaths t) := by
    refine hchain.imp (fun a b hab => ?_)
    simpa using hab
  have hlast : ∀ a, (endPaths t).getLast? = some a → iterStep t a = none := by
    intro a ha
    have h2 := hexit a ha
    simpa [nextNodePath, nextNodeRev] using h2
  obtain ⟨h1, h2⟩ := iterList_of_chain (endPaths t) t hch hlast
  have hlen : t.keyCount = (endPaths t).length := (endPaths_length_eq t).symm
  unfold trieIterKeys
  rw [trieBeginPath_eq hv, hlen]
  exact ⟨by rw [h1, ← keysOf_eq_map_pathString], h2⟩

/-! ### Structural equality -/

/-- `Node::equals` decides structural equality of trees. -/
theorem equals_iff_eq : ∀ (a b : Node), Node.equals a b = true ↔ a = b := by
  refine Node.indMem (fun a => ∀ b, Node.equals a b = true ↔ a = b) ?_
  intro e cs ih b
  cases b with
  | mk e2 cs2 =>
    have hgo : ∀ cs2', Node.equals.goChildren cs cs2' = true ↔ cs = cs2' := by
      have haux : ∀ cs' cs2',
          (∀ p ∈ cs', ∀ b', Node.equals p.2 b' = true ↔ p.2 = b') →
          (Node.equals.goChildren cs' cs2' = true ↔ cs' = cs2') := by
        intro cs'
        induction cs' with
        | nil => intro cs2' _; cases cs2' <;> simp [Node.equals.goChildren]
        | cons q rest ih2 =>
          intro cs2' h
          obtain ⟨l, c⟩ := q
          cases cs2' with
          | nil => simp [Node.equals.goChildren]
          | cons q2 rest2 =>
            obtain ⟨l2, c2⟩ := q2
            simp only [Node.equals.goChildren, Bool.and_eq_true, decide_eq_true_eq]
            rw [h (l, c) (List.mem_cons_self _ _) c2,
              ih2 rest2 (fun p hp => h p (List.mem_cons_of_mem _ hp))]
            constructor
            · rintro ⟨⟨h1, h2⟩, h3⟩
              subst h1
              subst h3
              have h4 : c = c2 := h2
              rw [h4]
            · intro h1
              simp only [List.cons.injEq, Prod.mk.injEq] at h1
              exact ⟨⟨h1.1.1, h1.1.2⟩, h1.2⟩
      intro cs2'
      exact haux cs cs2' ih
    show (decide (e = e2) && Node.equals.goChildren cs cs2) = true ↔ _
    rw [Bool.and_eq_true, decide_eq_true_eq, hgo cs2]
    constructor
    · rintro ⟨rfl, rfl⟩
      rfl
    · intro h
      injection h with h1 h2
      exact ⟨h1, h2⟩

/-! ### Surgery lemmas for the children map -/

theorem mem_of_mapEmplace : ∀ {cs : List (Str × Node)} {k : Str} {v : Node}
    {p : Str × Node}, p ∈ mapEmplace cs k v → p ∈ cs ∨ p = (k, v) := by
  intro cs k v p hp
  induction cs with
  | nil =>
    simp only [mapEmplace, List.mem_singleton] at hp
    exact Or.inr hp
  | cons q rest ih =>
    obtain ⟨l, c⟩ := q
    simp only [mapEmplace] at hp
    by_cases h1 : strLt k l = true
    · rw [if_pos h1] at hp
      rcases List.mem_cons.mp hp with h | h
      · exact Or.inr h
      · exact Or.inl h
    · rw [if_neg h1] at hp
      by_cases h2 : l = k
      · rw [if_pos h2] at hp
        exact Or.inl hp
      · rw [if_neg h2] at hp
        rcases List.mem_cons.mp hp with h | h
        · exact Or.inl (List.mem_cons_self _ _ |> (h ▸ ·))
        · rcases ih h with h' | h'
          · exact Or.inl (List.mem_cons_of_mem _ h')
          · exact Or.inr h'

theorem pairwise_mapEmplace {cs : List (Str × Node)} {k : Str} {v : Node}
    (hpw : cs.Pairwise ChOrd) (hheads : ∀ p ∈ cs, p.1.head? ≠ k.head?) :
    (mapEmplace cs k v).Pairwise ChOrd := by
  induction cs with
  | nil => simp [mapEmplace]
  | cons q rest ih =>
    obtain ⟨l, c⟩ := q
    obtain ⟨hq, hrest⟩ := List.pairwise_cons.mp hpw
    have hlh : l.head? ≠ k.head? := hheads (l, c) (List.mem_cons_self _ _)
    have hlk : l ≠ k := fun hc => hlh (hc ▸ rfl)
    simp only [mapEmplace]
    by_cases h1 : strLt k l = true
    · rw [if_pos h1]
      refine List.pairwise_cons.mpr ⟨?_, hpw⟩
      intro p hp
      rcases List.mem_cons.mp hp with h | h
      · subst h
        exact ⟨h1, fun hc => hlh hc.symm⟩
      · have hlp := hq p h
        exact ⟨strLt_trans h1 hlp.1,
          fun hc => (hheads p (List.mem_cons_of_mem _ h)) hc.symm⟩
    · rw [if_neg h1, if_neg hlk]
      refine List.pairwise_cons.mpr ⟨?_, ih hrest
        (fun p hp => hheads p (List.mem_cons_of_mem _ hp))⟩
      intro p hp
      rcases mem_of_mapEmplace hp with h | h
      · exact hq p h
      · subst h
        have hkl : strLt l k = true := by
          rcases strLt_connex hlk with h' | h'
          · exact h'
          · exact absurd h' h1
        exact ⟨hkl, hlh⟩

theorem mapErase_sublist : ∀ (cs : List (Str × Node)) (k : Str),
    (mapErase cs k).Sublist cs := by
  intro cs k
  induction cs with
  | nil => simp [mapErase]
  | cons q rest ih =>
    obtain ⟨l, c⟩ := q
    simp only [mapErase]
    by_cases h : l = k
    · rw [if_pos h]
      exact (List.sublist_cons_self _ _)
    · rw [if_neg h]
      exact ih.cons₂ _

theorem pairwise_mapErase {cs : List (Str × Node)} {k : Str}
    (hpw : cs.Pairwise ChOrd) : (mapErase cs k).Pairwise ChOrd :=
  hpw.sublist (mapErase_sublist cs k)

theorem mem_of_mapErase {cs : List (Str × Node)} {k : Str} {p : Str × Node}
    (hp : p ∈ mapErase cs k) : p ∈ cs :=
  (mapErase_sublist cs k).mem hp

theorem mem_of_mapUpdate : ∀ {cs : List (Str × Node)} {k : Str} {v : Node}
    {p : Str × Node}, p ∈ mapUpdate cs k v → p ∈ cs ∨ p = (k, v) := by
  intro cs k v p hp
  induction cs with
  | nil => simp [mapUpdate] at hp
  | cons q rest ih =>
    obtain ⟨l, c⟩ := q
    simp only [mapUpdate] at hp
    by_cases h : l = k
    · rw [if_pos h] at hp
      rcases List.mem_cons.mp hp with h' | h'
      · subst h
        exact Or.inr h'
      · exact Or.inl (List.mem_cons_of_mem _ h')
    · rw [if_neg h] at hp
      rcases List.mem_cons.mp hp with h' | h'
      · exact Or.inl (h' ▸ List.mem_cons_self _ _)
      · rcases ih h' with h'' | h''
        · exact Or.inl (List.mem_cons_of_mem _ h'')
        · exact Or.inr h''

theorem map_fst_mapUpdate : ∀ (cs : List (Str × Node)) (k : Str) (v : Node),
    (mapUpdate cs k v).map Prod.fst = cs.map Prod.fst := by
  intro cs k v
  induction cs with
  | nil => rfl
  | cons q rest ih =>
    obtain ⟨l, c⟩ := q
    simp only [mapUpdate]
    by_cases h : l = k
    · rw [if_pos h]
      simp
    · rw [if_neg h]
      simp [ih]

theorem pairwise_mapUpdate {cs : List (Str × Node)} {k : Str} {v : Node}
    (hpw : cs.Pairwise ChOrd) : (mapUpdate cs k v).Pairwise ChOrd := by
  have h1 : ∀ (u : List (Str × Node)), u.Pairwise ChOrd ↔
      (u.map Prod.fst).Pairwise (fun a b => strLt a b = true ∧ a.head? ≠ b.head?) := by
    intro u
    rw [List.pairwise_map]
    rfl
  rw [h1, map_fst_mapUpdate, ← h1]
  exact hpw

theorem strLt_pfx_proper : ∀ (a b : Str), b ≠ [] → strLt a (a ++ b) = true := by
  intro a
  induction a with
  | nil =>
    intro b hb
    cases b with
    | nil => exact absurd rfl hb
    | cons x s => rfl
  | cons x s ih =>
    intro b hb
    simp [strLt, ih b hb]

theorem findHeadChild_some {cs : List (Str × Node)} {k l : Str} {c : Node}
    (h : findHeadChild cs k = some (l, c)) :
    (l, c) ∈ cs ∧ l.head? = k.head? := by
  induction cs with
  | nil => simp [findHeadChild] at h
  | cons q rest ih =>
    obtain ⟨l', c'⟩ := q
    by_cases hp : l'.head? = k.head?
    · simp only [findHeadChild, if_pos hp, Option.some.injEq] at h
      obtain ⟨rfl, rfl⟩ := Prod.mk.injEq .. ▸ (Prod.ext_iff.mp h.symm)
      exact ⟨List.mem_cons_self _ _, hp⟩
    · simp only [findHeadChild, if_neg hp] at h
      obtain ⟨h1, h2⟩ := ih h
      exact ⟨List.mem_cons_of_mem _ h1, h2⟩

theorem findHeadChild_none {cs : List (Str × Node)} {k : Str}
    (h : findHeadChild cs k = none) : ∀ p ∈ cs, p.1.head? ≠ k.head? := by
  induction cs with
  | nil => simp
  | cons q rest ih =>
    obtain ⟨l', c'⟩ := q
    by_cases hp : l'.head? = k.head?
    · simp [findHeadChild, hp] at h
    · simp only [findHeadChild, if_neg hp] at h
      intro p hp'
      rcases List.mem_cons.mp hp' with h1 | h1
      · subst h1
        exact hp
      · exact ih h p h1

/-- Sorted insertion at an explicitly known position. -/
theorem mapEmplace_middle : ∀ {u1 u2 : List (Str × Node)} {k : Str} (v : Node),
    (∀ p ∈ u1, strLt k p.1 = false ∧ p.1 ≠ k) →
    (∀ q, u2.head? = some q → strLt k q.1 = true) →
    mapEmplace (u1 ++ u2) k v = u1 ++ (k, v) :: u2 := by
  intro u1
  induction u1 with
  | nil =>
    intro u2 k v _ h2
    cases u2 with
    | nil => rfl
    | cons q rest =>
      obtain ⟨l, c⟩ := q
      have := h2 (l, c) rfl
      simp [mapEmplace, this]
  | cons q rest ih =>
    intro u2 k v h1 h2
    obtain ⟨l, c⟩ := q
    obtain ⟨ha, hb⟩ := h1 (l, c) (List.mem_cons_self _ _)
    simp only [List.cons_append, mapEmplace, ha, Bool.false_eq_true, if_false, if_neg hb]
    congr 1
    exact ih v (fun p hp => h1 p (List.mem_cons_of_mem _ hp)) h2

/-- Splitting a well-formed children map at a member label, collecting the
order facts about the two sides. -/
theorem children_split {cs : List (Str × Node)} (hpw : cs.Pairwise ChOrd)
    {l : Str} {c : Node} (hm : (l, c) ∈ cs) :
    ∃ u1 u2, cs = u1 ++ (l, c) :: u2 ∧
      (∀ p ∈ u1, strLt p.1 l = true ∧ p.1.head? ≠ l.head?) ∧
      (∀ p ∈ u2, strLt l p.1 = true ∧ l.head? ≠ p.1.head?) := by
  obtain ⟨u1, u2, hdec⟩ := List.append_of_mem hm
  refine ⟨u1, u2, hdec, ?_, ?_⟩
  · intro p hp
    have hcross := (List.pairwise_append.mp (hdec ▸ hpw)).2.2
    have := hcross p hp (l, c) (List.mem_cons_self _ _)
    exact ⟨this.1, this.2⟩
  · intro p hp
    have h2 := (List.pairwise_append.mp (hdec ▸ hpw)).2.1
    have := (List.pairwise_cons.mp h2).1 p hp
    exact ⟨this.1, this.2⟩


theorem strLt_of_lt_same_head {a l k : Str} (hal : strLt a l = true)
    (hne : a.head? ≠ l.head?) (hk : k ≠ []) (hkh : k.head? = l.head?) :
    strLt a k = true := by
  cases a with
  | nil => exact strLt_nil hk
  | cons x s =>
    cases l with
    | nil => simp [strLt] at hal
    | cons y t =>
      rcases head_le_of_strLt hal rfl rfl with h | h
      · obtain ⟨z, hz⟩ : ∃ z, k.head? = some z := by
          cases k with
          | nil => exact absurd rfl hk
          | cons z u => exact ⟨z, rfl⟩
        have hzy : z = y := by
          rw [hkh] at hz
          simpa using hz.symm
        exact strLt_of_head_lt rfl hz (hzy ▸ h)
      · exact absurd (by simp [h]) hne

theorem strLt_of_same_head_lt {l q k : Str} (hlq : strLt l q = true)
    (hne : l.head? ≠ q.head?) (hl : l ≠ []) (hk : k ≠ [])
    (hkh : k.head? = l.head?) : strLt k q = true := by
  cases l with
  | nil => exact absurd rfl hl
  | cons y t =>
    cases q with
    | nil => simp [strLt] at hlq
    | cons w u =>
      rcases head_le_of_strLt hlq rfl rfl with h | h
      · obtain ⟨z, hz⟩ : ∃ z, k.head? = some z := by
          cases k with
          | nil => exact absurd rfl hk
          | cons z v => exact ⟨z, rfl⟩
        have hzy : z = y := by
          rw [hkh] at hz
          simpa using hz.symm
        exact strLt_of_head_lt hz rfl (hzy ▸ h)
      · exact absurd (by simp [h]) hne

/-- The emplace-then-erase composite used by the split of `trie::insert` and
the joins of `trie::erase`: replacing the entry at label `l` by one at a
label `k` with the same first byte lands at the same position of the map. -/
theorem emplace_erase_composite {u1 u2 : List (Str × Node)} {l k : Str} {m v : Node}
    (h1 : ∀ p ∈ u1, strLt p.1 l = true ∧ p.1.head? ≠ l.head?)
    (h2 : ∀ p ∈ u2, strLt l p.1 = true ∧ l.head? ≠ p.1.head?)
    (hl : l ≠ []) (hk : k ≠ []) (hkh : k.head? = l.head?) (hkl : k ≠ l) :
    mapErase (mapEmplace (u1 ++ (l, m) :: u2) k v) l = u1 ++ (k, v) :: u2 := by
  have hu1k : ∀ p ∈ u1, strLt k p.1 = false ∧ p.1 ≠ k := by
    intro p hp
    obtain ⟨ha, hb⟩ := h1 p hp
    have := strLt_of_lt_same_head ha hb hk hkh
    exact ⟨strLt_asymm this, fun hc => by
      rw [hc] at this
      simp [strLt_irrefl] at this⟩
  have hu1l : ∀ p ∈ u1, p.1 ≠ l := by
    intro p hp hc
    have := (h1 p hp).1
    rw [hc] at this
    simp [strLt_irrefl] at this
  have hu2k : ∀ q, u2.head? = some q → strLt k q.1 = true := by
    intro q hq
    have hqm : q ∈ u2 := by
      cases u2 with
      | nil => simp at hq
      | cons q0 rest =>
        simp only [List.head?_cons, Option.some.injEq] at hq
        subst hq
        exact List.mem_cons_self _ _
    obtain ⟨ha, hb⟩ := h2 q hqm
    exact strLt_of_same_head_lt ha hb hl hk hkh
  rcases strLt_connex hkl with hlt | hlt
  · -- k is placed before l
    have hmid : mapEmplace (u1 ++ (l, m) :: u2) k v = u1 ++ (k, v) :: (l, m) :: u2 := by
      refine mapEmplace_middle v hu1k ?_
      intro q hq
      simp only [List.head?_cons, Option.some.injEq] at hq
      subst hq
      exact hlt
    rw [hmid]
    have herase : mapErase ((u1 ++ [(k, v)]) ++ (l, m) :: u2) l = (u1 ++ [(k, v)]) ++ u2 := by
      refine mapErase_append_of_not_mem ?_ m u2
      intro p hp
      rcases List.mem_append.mp hp with h | h
      · exact hu1l p h
      · simp only [List.mem_singleton] at h
        subst h
        exact hkl
    simpa [List.append_assoc] using herase
  · -- k is placed after l
    have hmid : mapEmplace ((u1 ++ [(l, m)]) ++ u2) k v = (u1 ++ [(l, m)]) ++ (k, v) :: u2 := by
      refine mapEmplace_middle v ?_ hu2k
      intro p hp
      rcases List.mem_append.mp hp with h | h
      · exact hu1k p h
      · simp only [List.mem_singleton] at h
        subst h
        exact ⟨strLt_asymm hlt, fun hc => hkl hc.symm⟩
    have hmid' : mapEmplace (u1 ++ (l, m) :: u2) k v = u1 ++ (l, m) :: (k, v) :: u2 := by
      have := hmid
      simp only [List.append_assoc, List.singleton_append] at this
      exact this
    rw [hmid']
    exact mapErase_append_of_not_mem hu1l m ((k, v) :: u2)

theorem pairwise_replace {u1 u2 : List (Str × Node)} {l k : Str} {m : Node} (v : Node)
    (hpw : (u1 ++ (l, m) :: u2).Pairwise ChOrd)
    (hl : l ≠ []) (hk : k ≠ []) (hkh : k.head? = l.head?) :
    (u1 ++ (k, v) :: u2).Pairwise ChOrd := by
  rw [List.pairwise_append] at hpw ⊢
  obtain ⟨hp1, hp2, hcross⟩ := hpw
  obtain ⟨hlq, hp2'⟩ := List.pairwise_cons.mp hp2
  refine ⟨hp1, List.pairwise_cons.mpr ⟨?_, hp2'⟩, ?_⟩
  · intro q hq
    obtain ⟨ha, hb⟩ := hlq q hq
    exact ⟨strLt_of_same_head_lt ha hb hl hk hkh, by rw [hkh]; exact hb⟩
  · intro p hp q hq
    rcases List.mem_cons.mp hq with h | h
    · subst h
      obtain ⟨ha, hb⟩ := hcross p hp (l, m) (List.mem_cons_self _ _)
      exact ⟨strLt_of_lt_same_head ha hb hk hkh, by rw [hkh]; exact hb⟩
    · exact hcross p hp q (List.mem_cons_of_mem _ h)

theorem commonPfx_ne_nil_of_head {k l : Str} (hk : k ≠ []) (hl : l ≠ [])
    (h : l.head? = k.head?) : commonPfx k l ≠ [] := by
  cases k with
  | nil => exact absurd rfl hk
  | cons x s =>
    cases l with
    | nil => exact absurd rfl hl
    | cons y t =>
      simp only [List.head?_cons, Option.some.injEq] at h
      subst h
      exact commonPfx_ne_nil

theorem commonPfx_head {k l : Str} (hne : commonPfx k l ≠ []) :
    (commonPfx k l).head? = k.head? :=
  (head_eq_of_isPfxOf (isPfxOf_iff.mpr (commonPfx_pfx_left k l)) hne).symm

/-- Unfolding `insertLoc` for an empty residual. -/
theorem insertLoc_nil_eq (e : Bool) (cs : List (Str × Node)) :
    insertLoc (.mk e cs) [] = .mk true cs := by
  simp [insertLoc]

/-- Unfolding `insertLoc` when no child shares the key's first byte. -/
theorem insertLoc_leaf_eq {cs : List (Str × Node)} {k : Str} (e : Bool) (hk : k ≠ [])
    (hfh : findHeadChild cs k = none) :
    insertLoc (.mk e cs) k = .mk e (mapEmplace cs k (.mk true [])) := by
  cases cs with
  | nil => simp [insertLoc, hk]
  | cons q rest => simp [insertLoc, hk, hfh]

/-- Unfolding `insertLoc` in the edge-splitting case. -/
theorem insertLoc_split_eq {cs : List (Str × Node)} {k l : Str} {c : Node} (e : Bool)
    (hk : k ≠ []) (hfh : findHeadChild cs k = some (l, c)) :
    insertLoc (.mk e cs) k =
      .mk e (mapErase (mapEmplace cs (commonPfx k l)
        (if k.drop (commonPfx k l).length = []
         then Node.mk true [(l.drop (commonPfx k l).length, c)]
         else Node.mk false (mapEmplace [(l.drop (commonPfx k l).length, c)]
                (k.drop (commonPfx k l).length) (.mk true [])))) l) := by
  cases cs with
  | nil => simp [findHeadChild] at hfh
  | cons q rest =>
    simp only [insertLoc, if_neg hk, List.isEmpty_cons, Bool.false_eq_true, if_false, hfh]
    simp [mapEmplace]

theorem leaf_sub5 : Sub5P (.mk true []) :=
  Sub5P.mk true [] (fun _ => rfl) (by simp) ⟨List.Pairwise.nil, by simp⟩ (by simp)

/-- The junction created by the split of `trie::insert` is well-formed. -/
theorem junction_sub5 {a b : Str} {c : Node} (hc : Sub5P c) (ha : a ≠ [])
    (hhead : a.head? ≠ b.head?) :
    Sub5P (if b = [] then Node.mk true [(a, c)]
           else Node.mk false (mapEmplace [(a, c)] b (.mk true []))) := by
  by_cases hb : b = []
  · subst hb
    simp only [if_pos rfl]
    refine Sub5P.mk true [(a, c)] (fun _ => rfl) (by simp)
      ⟨List.pairwise_singleton _ _, by simpa using ha⟩ ?_
    intro p hp
    simp only [List.mem_singleton] at hp
    subst hp
    exact hc
  · rw [if_neg hb]
    have hab : a ≠ b := fun hcc => hhead (hcc ▸ rfl)
    by_cases hlt : strLt b a = true
    · have hmp : mapEmplace [(a, c)] b (Node.mk true []) = [(b, Node.mk true []), (a, c)] := by
        simp [mapEmplace, hlt]
      rw [hmp]
      refine Sub5P.mk false _ (by simp) (by simp) ⟨?_, ?_⟩ ?_
      · refine List.pairwise_cons.mpr ⟨?_, List.pairwise_singleton _ _⟩
        intro p hp
        simp only [List.mem_singleton] at hp
        subst hp
        exact ⟨hlt, fun hcc => hhead hcc.symm⟩
      · rintro p hp
        rcases List.mem_cons.mp hp with h | h
        · subst h
          exact hb
        · simp only [List.mem_singleton] at h
          subst h
          exact ha
      · intro p hp
        rcases List.mem_cons.mp hp with h | h
        · subst h
          exact leaf_sub5
        · simp only [List.mem_singleton] at h
          subst h
          exact hc
    · have hba : strLt a b = true := by
        rcases strLt_connex hab with h | h
        · exact h
        · exact absurd h hlt
      have hmp : mapEmplace [(a, c)] b (Node.mk true []) = [(a, c), (b, Node.mk true [])] := by
        simp only [mapEmplace]
        rw [if_neg hlt, if_neg hab]
      rw [hmp]
      refine Sub5P.mk false _ (by simp) (by simp) ⟨?_, ?_⟩ ?_
      · refine List.pairwise_cons.mpr ⟨?_, List.pairwise_singleton _ _⟩
        intro p hp
        simp only [List.mem_singleton] at hp
        subst hp
        exact ⟨hba, hhead⟩
      · rintro p hp
        rcases List.mem_cons.mp hp with h | h
        · subst h
          exact ha
        · simp only [List.mem_singleton] at h
          subst h
          exact hb
      · intro p hp
        rcases List.mem_cons.mp hp with h | h
        · subst h
          exact hc
        · simp only [List.mem_singleton] at h
          subst h
          exact leaf_sub5

/-- The local action of `trie::insert` at the approximate-match vertex keeps
the end flag and produces a well-formed, no-shorter, non-empty children
map. -/
theorem insertLoc_props {e : Bool} {cs : List (Str × Node)} {k : Str}
    (hloc : LocalOk cs) (hsub : ∀ p ∈ cs, Sub5P p.2)
    (hfp : findPfxChild cs k = none) (hk : k ≠ []) :
    ∃ cs', insertLoc (.mk e cs) k = .mk e cs' ∧ LocalOk cs' ∧
      (∀ p ∈ cs', Sub5P p.2) ∧ cs.length ≤ cs'.length ∧ cs' ≠ [] := by
  cases hfh : findHeadChild cs k with
  | none =>
    have hne : ∀ p ∈ cs, p.1 ≠ k :=
      fun p hp hc => findHeadChild_none hfh p hp (hc ▸ rfl)
    obtain ⟨l1, l2, hdec, hemp⟩ := mapEmplace_not_mem (Node.mk true []) hne
    refine ⟨mapEmplace cs k (.mk true []), insertLoc_leaf_eq e hk hfh, ?_, ?_, ?_, ?_⟩
    · refine ⟨pairwise_mapEmplace hloc.1 (findHeadChild_none hfh), ?_⟩
      intro p hp
      rcases mem_of_mapEmplace hp with h | h
      · exact hloc.2 p h
      · subst h
        exact hk
    · intro p hp
      rcases mem_of_mapEmplace hp with h | h
      · exact hsub p h
      · subst h
        exact leaf_sub5
    · rw [hemp, hdec]
      simp
    · rw [hemp]
      simp
  | some lc =>
    obtain ⟨l, c⟩ := lc
    obtain ⟨hmem, hlh⟩ := findHeadChild_some hfh
    have hl : l ≠ [] := hloc.2 (l, c) hmem
    have hco : commonPfx k l ≠ [] := commonPfx_ne_nil_of_head hk hl hlh
    have hcoh : (commonPfx k l).head? = l.head? := by
      rw [commonPfx_head hco, ← hlh]
    have hcopl : isPfxOf (commonPfx k l) l = true :=
      isPfxOf_iff.mpr (commonPfx_pfx_right k l)
    have hcopk : isPfxOf (commonPfx k l) k = true :=
      isPfxOf_iff.mpr (commonPfx_pfx_left k l)
    have hpost : l.drop (commonPfx k l).length ≠ [] := by
      intro hcc
      have h1 := congrArg List.length hcc
      simp only [List.length_drop, List.length_nil] at h1
      have hlen : l.length ≤ (commonPfx k l).length := by omega
      have heq : commonPfx k l = l := (commonPfx_pfx_right k l).eq_of_length_le hlen
      have hpl : isPfxOf l k = true := heq ▸ hcopk
      have h2 := findPfxChild_none_iff.mp hfp (l, c) hmem
      simp [hpl] at h2
    have hcol : commonPfx k l ≠ l := fun hcc => hpost (by rw [hcc, List.drop_length])
    have hpch : (l.drop (commonPfx k l).length).head? ≠
        (k.drop (commonPfx k l).length).head? := by
      intro hcc
      rcases commonPfx_residual_heads k l hcc.symm with h | h
      · rw [h] at hcc
        cases hld : l.drop (commonPfx k l).length with
        | nil => exact hpost hld
        | cons x s =>
          rw [hld] at hcc
          simp at hcc
      · exact hpost h
    have hsubc : Sub5P c := hsub (l, c) hmem
    have hJ := junction_sub5 (c := c) hsubc hpost hpch
    obtain ⟨u1, u2, hdec, hu1, hu2⟩ := children_split hloc.1 hmem
    refine ⟨u1 ++ (commonPfx k l,
      if k.drop (commonPfx k l).length = []
      then Node.mk true [(l.drop (commonPfx k l).length, c)]
      else Node.mk false (mapEmplace [(l.drop (commonPfx k l).length, c)]
        (k.drop (commonPfx k l).length) (.mk true []))) :: u2, ?_, ?_, ?_, ?_, by simp⟩
    · rw [insertLoc_split_eq e hk hfh, hdec,
        emplace_erase_composite hu1 hu2 hl hco hcoh hcol]
    · constructor
      · exact pairwise_replace _ (hdec ▸ hloc.1) hl hco hcoh
      · intro p hp
        rcases List.mem_append.mp hp with h | h
        · exact hloc.2 p (hdec ▸ List.mem_append_left _ h)
        · rcases List.mem_cons.mp h with h' | h'
          · subst h'
            exact hco
          · exact hloc.2 p (hdec ▸ List.mem_append_right _ (List.mem_cons_of_mem _ h'))
    · intro p hp
      rcases List.mem_append.mp hp with h | h
      · exact hsub p (hdec ▸ List.mem_append_left _ h)
      · rcases List.mem_cons.mp h with h' | h'
        · subst h'
          exact hJ
        · exact hsub p (hdec ▸ List.mem_append_right _ (List.mem_cons_of_mem _ h'))
    · rw [hdec]
      simp

theorem trieInsert_eq (e : Bool) (cs : List (Str × Node)) (k : Str) :
    trieInsert (.mk e cs) k =
      (if k = [] then insertLoc (.mk e cs) k
       else
         match trieInsert.goChildren cs k with
         | some cs' => .mk e cs'
         | none => insertLoc (.mk e cs) k) := rfl

theorem goChildren_insert_none : ∀ {cs : List (Str × Node)} {k : Str},
    trieInsert.goChildren cs k = none ↔ findPfxChild cs k = none := by
  intro cs k
  induction cs with
  | nil => simp [trieInsert.goChildren, findPfxChild]
  | cons q rest ih =>
    obtain ⟨l, c⟩ := q
    by_cases hp : isPfxOf l k = true
    · simp [trieInsert.goChildren, findPfxChild, hp]
    · simp only [Bool.not_eq_true] at hp
      simp [trieInsert.goChildren, findPfxChild, hp, ih]

theorem goChildren_insert_some : ∀ {cs : List (Str × Node)} {k : Str}
    {cs' : List (Str × Node)}, trieInsert.goChildren cs k = some cs' →
    ∃ u1 l c u2, cs = u1 ++ (l, c) :: u2 ∧ isPfxOf l k = true ∧
      (∀ p ∈ u1, isPfxOf p.1 k = false) ∧
      cs' = u1 ++ (l, trieInsert c (k.drop l.length)) :: u2 := by
  intro cs k cs' h
  induction cs generalizing cs' with
  | nil => simp [trieInsert.goChildren] at h
  | cons q rest ih =>
    obtain ⟨l', c'⟩ := q
    by_cases hp : isPfxOf l' k = true
    · simp only [trieInsert.goChildren, if_pos hp, Option.some.injEq] at h
      exact ⟨[], l', c', rest, rfl, hp, by simp, h.symm⟩
    · simp only [Bool.not_eq_true] at hp
      simp only [trieInsert.goChildren, hp, Bool.false_eq_true, if_false] at h
      cases hgo : trieInsert.goChildren rest k with
      | none =>
        rw [hgo] at h
        simp at h
      | some cs'' =>
        rw [hgo] at h
        simp only [Option.map_some', Option.some.injEq] at h
        obtain ⟨u1, l, c, u2, hdec, hpfx, hu1, hcs''⟩ := ih hgo
        refine ⟨(l', c') :: u1, l, c, u2, by simp [hdec], hpfx, ?_, ?_⟩
        · intro p hp'
          rcases List.mem_cons.mp hp' with h1 | h1
          · subst h1
            exact hp
          · exact hu1 p h1
        · rw [← h, hcs'']
          rfl

/-- `trie::insert` preserves the structural invariants (2-5) below the
root. -/
theorem trieInsert_sub5 : ∀ (n : Node), Sub5P n → ∀ (k : Str),
    Sub5P (trieInsert n k) := by
  refine Node.indMem (fun n => Sub5P n → ∀ k, Sub5P (trieInsert n k)) ?_
  intro e cs ih hs k
  rw [trieInsert_eq]
  by_cases hk : k = []
  · subst hk
    simp only [if_pos rfl]
    rw [insertLoc_nil_eq]
    exact Sub5P.mk true cs (fun _ => rfl) (fun h => by simp at h) hs.localOk hs.child
  · simp only [if_neg hk]
    cases hgo : trieInsert.goChildren cs k with
    | none =>
      have hfp : findPfxChild cs k = none := goChildren_insert_none.mp hgo
      obtain ⟨cs', heq, hloc', hsub', hlen, hne⟩ :=
        insertLoc_props (e := e) hs.localOk hs.child hfp hk
      simp only [heq]
      refine Sub5P.mk e cs' (fun hc => absurd hc hne) ?_ hloc' hsub'
      intro he
      have h5 := hs.branch he
      omega
    | some cs' =>
      obtain ⟨u1, l, c, u2, hdec, hpfx, hu1, hcs'⟩ := goChildren_insert_some hgo
      have hm : (l, c) ∈ cs := hdec ▸ List.mem_append_right _ (List.mem_cons_self _ _)
      have hl : l ≠ [] := hs.localOk.2 (l, c) hm
      have hins : Sub5P (trieInsert c (k.drop l.length)) :=
        ih (l, c) hm (hs.child (l, c) hm) _
      subst hcs'
      refine Sub5P.mk e _ (fun hc => by simp at hc) ?_ ⟨?_, ?_⟩ ?_
      · intro he
        have h5 := hs.branch he
        rw [hdec] at h5
        simpa using h5
      · exact pairwise_replace _ (hdec ▸ hs.localOk.1) hl hl rfl
      · intro p hp
        rcases List.mem_append.mp hp with h | h
        · exact hs.localOk.2 p (hdec ▸ List.mem_append_left _ h)
        · rcases List.mem_cons.mp h with h' | h'
          · subst h'
            exact hl
          · exact hs.localOk.2 p (hdec ▸ List.mem_append_right _ (List.mem_cons_of_mem _ h'))
      · intro p hp
        rcases List.mem_append.mp hp with h | h
        · exact hs.child p (hdec ▸ List.mem_append_left _ h)
        · rcases List.mem_cons.mp h with h' | h'
          · subst h'
            exact hins
          · exact hs.child p (hdec ▸ List.mem_append_right _ (List.mem_cons_of_mem _ h'))

/-- `trie::insert` preserves all structural invariants of the tree. -/
theorem trieInsert_valid5 {t : Node} (hv : Valid5P t) (k : Str) :
    Valid5P (trieInsert t k) := by
  cases t with
  | mk e cs =>
    have hloc : LocalOk cs := hv.1
    have hsub : ∀ p ∈ cs, Sub5P p.2 := hv.2
    rw [trieInsert_eq]
    by_cases hk : k = []
    · subst hk
      simp only [if_pos rfl]
      rw [insertLoc_nil_eq]
      exact ⟨hloc, hsub⟩
    · simp only [if_neg hk]
      cases hgo : trieInsert.goChildren cs k with
      | none =>
        have hfp : findPfxChild cs k = none := goChildren_insert_none.mp hgo
        obtain ⟨cs', heq, hloc', hsub', _, _⟩ :=
          insertLoc_props (e := e) hloc hsub hfp hk
        simp only [heq]
        exact ⟨hloc', hsub'⟩
      | some cs' =>
        obtain ⟨u1, l, c, u2, hdec, hpfx, hu1, hcs'⟩ := goChildren_insert_some hgo
        have hm : (l, c) ∈ cs := hdec ▸ List.mem_append_right _ (List.mem_cons_self _ _)
        have hl : l ≠ [] := hloc.2 (l, c) hm
        have hins : Sub5P (trieInsert c (k.drop l.length)) :=
          trieInsert_sub5 c (hsub (l, c) hm) _
        subst hcs'
        refine ⟨⟨?_, ?_⟩, ?_⟩
        · exact pairwise_replace _ (hdec ▸ hloc.1) hl hl rfl
        · intro p hp
          rcases List.mem_append.mp hp with h | h
          · exact hloc.2 p (hdec ▸ List.mem_append_left _ h)
          · rcases List.mem_cons.mp h with h' | h'
            · subst h'
              exact hl
            · exact hloc.2 p (hdec ▸ List.mem_append_right _ (List.mem_cons_of_mem _ h'))
        · intro p hp
          rcases List.mem_append.mp hp with h | h
          · exact hsub p (hdec ▸ List.mem_append_left _ h)
          · rcases List.mem_cons.mp h with h' | h'
            · subst h'
              exact hins
            · exact hsub p (hdec ▸ List.mem_append_right _ (List.mem_cons_of_mem _ h'))

theorem mapLookup_append_of_not_mem {l1 : List (Str × Node)} {k : Str}
    (h : ∀ p ∈ l1, p.1 ≠ k) (c : Node) (l2 : List (Str × Node)) :
    mapLookup (l1 ++ (k, c) :: l2) k = some c := by
  induction l1 with
  | nil => simp [mapLookup]
  | cons q rest ih =>
    obtain ⟨l, c'⟩ := q
    have hne : l ≠ k := h (l, c') (List.mem_cons_self _ _)
    simp only [List.cons_append, mapLookup, if_neg hne]
    exact ih (fun p hp => h p (List.mem_cons_of_mem _ hp))

theorem mapErase_length_lb : ∀ (cs : List (Str × Node)) (k : Str),
    cs.length ≤ (mapErase cs k).length + 1 := by
  intro cs k
  induction cs with
  | nil => simp [mapErase]
  | cons q rest ih =>
    obtain ⟨l, c⟩ := q
    simp only [mapErase]
    by_cases h : l = k
    · rw [if_pos h]
      simp
    · rw [if_neg h]
      simp only [List.length_cons]
      omega

theorem mapErase_length_of_lookup {cs : List (Str × Node)} {k : Str} {m : Node}
    (h : mapLookup cs k = some m) : (mapErase cs k).length + 1 = cs.length := by
  induction cs with
  | nil => simp [mapLookup] at h
  | cons q rest ih =>
    obtain ⟨l, c⟩ := q
    by_cases hl : l = k
    · simp [mapErase, hl]
    · simp only [mapLookup, if_neg hl] at h
      simp only [mapErase, if_neg hl, List.length_cons]
      rw [← ih h]

theorem mapUpdate_length (cs : List (Str × Node)) (k : Str) (v : Node) :
    (mapUpdate cs k v).length = cs.length := by
  have := congrArg List.length (map_fst_mapUpdate cs k v)
  simpa using this

/-- Well-formedness of the per-parent action of `trie::erase`: the parent
keeps its end mark, the children stay well-formed, and the child count drops
only in the childless-detach case. -/
theorem eraseChildAction_props {e : Bool} {cs : List (Str × Node)} (lm : Str)
    (hloc : LocalOk cs) (hsub : ∀ q ∈ cs, Sub5P q.2) :
    ∃ cs', eraseChildAction (.mk e cs) lm = .mk e cs' ∧ LocalOk cs' ∧
      (∀ q ∈ cs', Sub5P q.2) ∧
      (cs'.length = cs.length ∨
        ∃ m, mapLookup cs lm = some m ∧ m.children = [] ∧ cs' = mapErase cs lm) := by
  cases hl : mapLookup cs lm with
  | none =>
    refine ⟨cs, ?_, hloc, hsub, Or.inl rfl⟩
    simp [eraseChildAction, Node.children_mk, hl]
  | some m =>
    obtain ⟨em, csm⟩ := m
    have hmem : (lm, Node.mk em csm) ∈ cs := mapLookup_mem hl
    have hlm : lm ≠ [] := hloc.2 (lm, Node.mk em csm) hmem
    have hsm : Sub5P (Node.mk em csm) := hsub (lm, Node.mk em csm) hmem
    cases hmc : csm with
    | nil =>
      subst hmc
      refine ⟨mapErase cs lm, ?_, ⟨pairwise_mapErase hloc.1,
        fun q hq => hloc.2 q (mem_of_mapErase hq)⟩,
        fun q hq => hsub q (mem_of_mapErase hq),
        Or.inr ⟨Node.mk em [], rfl, rfl, rfl⟩⟩
      simp [eraseChildAction, Node.children_mk, hl]
    | cons p1 rest1 =>
      subst hmc
      cases rest1 with
      | nil =>
        obtain ⟨lc, cc⟩ := p1
        have hcm : (lc, cc) ∈ [(lc, cc)] := List.mem_cons_self _ _
        have hlc : lc ≠ [] := hsm.localOk.2 (lc, cc) hcm
        have hscc : Sub5P cc := hsm.child (lc, cc) hcm
        obtain ⟨u1, u2, hdec, h1, h2⟩ := children_split hloc.1 hmem
        have hknil : lm ++ lc ≠ [] := by simp [hlm]
        have hkh : (lm ++ lc).head? = lm.head? := head?_append_of_ne hlm lc
        have hkl : lm ++ lc ≠ lm := by
          intro hc
          have := congrArg List.length hc
          simp only [List.length_append] at this
          exact hlc (List.length_eq_zero.mp (by omega))
        have hcomp : mapErase (mapEmplace cs (lm ++ lc) cc) lm =
            u1 ++ (lm ++ lc, cc) :: u2 := by
          rw [hdec]
          exact emplace_erase_composite h1 h2 hlm hknil hkh hkl
        refine ⟨u1 ++ (lm ++ lc, cc) :: u2, ?_, ⟨?_, ?_⟩, ?_, Or.inl ?_⟩
        · simp [eraseChildAction, Node.children_mk, hl, hcomp]
        · exact pairwise_replace cc (hdec ▸ hloc.1) hlm hknil hkh
        · intro q hq
          rcases List.mem_append.mp hq with h | h
          · exact hloc.2 q (hdec ▸ List.mem_append_left _ h)
          · rcases List.mem_cons.mp h with h' | h'
            · subst h'
              exact hknil
            · exact hloc.2 q (hdec ▸ List.mem_append_right _ (List.mem_cons_of_mem _ h'))
        · intro q hq
          rcases List.mem_append.mp hq with h | h
          · exact hsub q (hdec ▸ List.mem_append_left _ h)
          · rcases List.mem_cons.mp h with h' | h'
            · subst h'
              exact hscc
            · exact hsub q (hdec ▸ List.mem_append_right _ (List.mem_cons_of_mem _ h'))
        · rw [hdec]
          simp
      | cons p2 rest2 =>
        have hs' : Sub5P (Node.mk false (p1 :: p2 :: rest2)) := by
          refine Sub5P.mk false _ (fun hc => by simp at hc)
            (fun _ => by simp) hsm.localOk hsm.child
        refine ⟨mapUpdate cs lm (.mk false (p1 :: p2 :: rest2)), ?_,
          ⟨pairwise_mapUpdate hloc.1, ?_⟩, ?_, Or.inl (mapUpdate_length cs lm _)⟩
        · simp [eraseChildAction, Node.children_mk, hl]
        · intro q hq
          rcases mem_of_mapUpdate hq with h | h
          · exact hloc.2 q h
          · rw [h]
            exact hlm
        · intro q hq
          rcases mem_of_mapUpdate hq with h | h
          · exact hsub q h
          · rw [h]
            exact hs'

theorem eraseAt_rec_eq (e : Bool) (cs : List (Str × Node)) (lp lm r : Str)
    (rest : List Str) :
    eraseAt (.mk e cs) (lp :: lm :: r :: rest) =
      (match mapLookup cs lp with
       | none => Node.mk e cs
       | some c => .mk e (mapUpdate cs lp (eraseAt c (lm :: r :: rest)))) := rfl

/-- Well-formedness of the recursion of `trie::erase` below the root for
paths of length at least two: the traversed vertex keeps its end mark and
child count, and its children map stays well-formed. -/
theorem eraseAt_props : ∀ (p : List Str), 2 ≤ p.length →
    ∀ (e : Bool) (cs : List (Str × Node)), LocalOk cs → (∀ q ∈ cs, Sub5P q.2) →
    ∃ cs', eraseAt (.mk e cs) p = .mk e cs' ∧ LocalOk cs' ∧
      (∀ q ∈ cs', Sub5P q.2) ∧ cs'.length = cs.length := by
  intro p
  induction p with
  | nil => intro h; simp at h
  | cons lp rest ih =>
    intro hlen e cs hloc hsub
    cases rest with
    | nil => simp at hlen
    | cons lm rest2 =>
      cases rest2 with
      | nil =>
        cases hlp : mapLookup cs lp with
        | none => exact ⟨cs, by simp [eraseAt, hlp], hloc, hsub, rfl⟩
        | some par =>
          obtain ⟨ep, csp⟩ := par
          have hmemp : (lp, Node.mk ep csp) ∈ cs := mapLookup_mem hlp
          have hlpne : lp ≠ [] := hloc.2 _ hmemp
          have hspar : Sub5P (Node.mk ep csp) := hsub _ hmemp
          cases hlm : mapLookup csp lm with
          | none => exact ⟨cs, by simp [eraseAt, hlp, hlm], hloc, hsub, rfl⟩
          | some m =>
            obtain ⟨em, csm⟩ := m
            have hmemm : (lm, Node.mk em csm) ∈ csp := mapLookup_mem hlm
            cases csm with
            | cons q1 tl1 =>
              obtain ⟨cs2, hact, hloc2, hsub2, hdisj⟩ :=
                eraseChildAction_props (e := ep) lm hspar.localOk hspar.child
              have hlen2 : cs2.length = csp.length := by
                rcases hdisj with h | ⟨m', hm', hmc', _⟩
                · exact h
                · rw [hlm] at hm'
                  injection hm' with h'
                  rw [← h'] at hmc'
                  simp at hmc'
              have hsub2' : Sub5P (Node.mk ep cs2) := by
                refine Sub5P.mk ep cs2 (fun hc => ?_) (fun hc => ?_) hloc2 hsub2
                · apply hspar.leafEnd
                  rw [hc] at hlen2
                  exact List.length_eq_zero.mp hlen2.symm
                · have := hspar.branch hc
                  omega
              refine ⟨mapUpdate cs lp (.mk ep cs2), ?_,
                ⟨pairwise_mapUpdate hloc.1, ?_⟩, ?_, mapUpdate_length ..⟩
              · simp [eraseAt, hlp, hlm, hact]
              · intro q hq
                rcases mem_of_mapUpdate hq with h | h
                · exact hloc.2 q h
                · rw [h]
                  exact hlpne
              · intro q hq
                rcases mem_of_mapUpdate hq with h | h
                · exact hsub q h
                · rw [h]
                  exact hsub2'
            | nil =>
              cases hE : mapErase csp lm with
              | nil =>
                have hep : ep = true := by
                  have hl1 := mapErase_length_of_lookup hlm
                  rw [hE] at hl1
                  cases ep with
                  | true => rfl
                  | false =>
                    have := hspar.branch rfl
                    simp at hl1
                    omega
                subst hep
                have hsub2' : Sub5P (Node.mk true (mapErase csp lm)) := by
                  rw [hE]
                  exact leaf_sub5
                refine ⟨mapUpdate cs lp (.mk true (mapErase csp lm)), ?_,
                  ⟨pairwise_mapUpdate hloc.1, ?_⟩, ?_, mapUpdate_length ..⟩
                · simp [eraseAt, hlp, hlm, hE]
                · intro q hq
                  rcases mem_of_mapUpdate hq with h | h
                  · exact hloc.2 q h
                  · rw [h]
                    exact hlpne
                · intro q hq
                  rcases mem_of_mapUpdate hq with h | h
                  · exact hsub q h
                  · rw [h]
                    exact hsub2'
              | cons qq tl =>
                cases tl with
                | nil =>
                  obtain ⟨lc, cc⟩ := qq
                  have hccm : (lc, cc) ∈ csp := mem_of_mapErase (by
                    rw [hE]
                    exact List.mem_cons_self _ _)
                  have hlc : lc ≠ [] := hspar.localOk.2 _ hccm
                  have hscc : Sub5P cc := hspar.child _ hccm
                  cases ep with
                  | false =>
                    obtain ⟨u1, u2, hdec, h1, h2⟩ := children_split hloc.1 hmemp
                    have hknil : lp ++ lc ≠ [] := by simp [hlpne]
                    have hkh : (lp ++ lc).head? = lp.head? := head?_append_of_ne hlpne lc
                    have hkl : lp ++ lc ≠ lp := by
                      intro hc
                      have := congrArg List.length hc
                      simp only [List.length_append] at this
                      exact hlc (List.length_eq_zero.mp (by omega))
                    have hcomp : mapErase (mapEmplace cs (lp ++ lc) cc) lp =
                        u1 ++ (lp ++ lc, cc) :: u2 := by
                      rw [hdec]
                      exact emplace_erase_composite h1 h2 hlpne hknil hkh hkl
                    refine ⟨u1 ++ (lp ++ lc, cc) :: u2, ?_, ⟨?_, ?_⟩, ?_, ?_⟩
                    · simp [eraseAt, hlp, hlm, hE, hcomp]
                    · exact pairwise_replace cc (hdec ▸ hloc.1) hlpne hknil hkh
                    · intro q hq
                      rcases List.mem_append.mp hq with h | h
                      · exact hloc.2 q (hdec ▸ List.mem_append_left _ h)
                      · rcases List.mem_cons.mp h with h' | h'
                        · subst h'
                          exact hknil
                        · exact hloc.2 q
                            (hdec ▸ List.mem_append_right _ (List.mem_cons_of_mem _ h'))
                    · intro q hq
                      rcases List.mem_append.mp hq with h | h
                      · exact hsub q (hdec ▸ List.mem_append_left _ h)
                      · rcases List.mem_cons.mp h with h' | h'
                        · subst h'
                          exact hscc
                        · exact hsub q
                            (hdec ▸ List.mem_append_right _ (List.mem_cons_of_mem _ h'))
                    · rw [hdec]
                      simp
                  | true =>
                    have hsub2' : Sub5P (Node.mk true (mapErase csp lm)) := by
                      rw [hE]
                      refine Sub5P.mk true _ (fun hc => rfl) (fun hc => by simp at hc)
                        ⟨?_, ?_⟩ ?_
                      · exact List.pairwise_singleton _ _
                      · intro q hq
                        rcases List.mem_singleton.mp hq with rfl
                        exact hlc
                      · intro q hq
                        rcases List.mem_singleton.mp hq with rfl
                        exact hscc
                    refine ⟨mapUpdate cs lp (.mk true (mapErase csp lm)), ?_,
                      ⟨pairwise_mapUpdate hloc.1, ?_⟩, ?_, mapUpdate_length ..⟩
                    · simp [eraseAt, hlp, hlm, hE]
                    · intro q hq
                      rcases mem_of_mapUpdate hq with h | h
                      · exact hloc.2 q h
                      · rw [h]
                        exact hlpne
                    · intro q hq
                      rcases mem_of_mapUpdate hq with h | h
                      · exact hsub q h
                      · rw [h]
                        exact hsub2'
                | cons qq2 tl2 =>
                  have hsub2' : Sub5P (Node.mk ep (mapErase csp lm)) := by
                    rw [hE]
                    refine Sub5P.mk ep _ (fun hc => by simp at hc) (fun hc => by simp) ?_ ?_
                    · have hpw := pairwise_mapErase (k := lm) hspar.localOk.1
                      rw [hE] at hpw
                      refine ⟨hpw, ?_⟩
                      intro q hq
                      refine hspar.localOk.2 q (mem_of_mapErase (k := lm) ?_)
                      rw [hE]
                      exact hq
                    · intro q hq
                      refine hspar.child q (mem_of_mapErase (k := lm) ?_)
                      rw [hE]
                      exact hq
                  refine ⟨mapUpdate cs lp (.mk ep (mapErase csp lm)), ?_,
                    ⟨pairwise_mapUpdate hloc.1, ?_⟩, ?_, mapUpdate_length ..⟩
                  · simp [eraseAt, hlp, hlm, hE]
                  · intro q hq
                    rcases mem_of_mapUpdate hq with h | h
                    · exact hloc.2 q h
                    · rw [h]
                      exact hlpne
                  · intro q hq
                    rcases mem_of_mapUpdate hq with h | h
                    · exact hsub q h
                    · rw [h]
                      exact hsub2'
      | cons r rest3 =>
        cases hlp : mapLookup cs lp with
        | none => exact ⟨cs, by simp [eraseAt, hlp], hloc, hsub, rfl⟩
        | some c =>
          obtain ⟨ec, csc⟩ := c
          have hmemc : (lp, Node.mk ec csc) ∈ cs := mapLookup_mem hlp
          have hlpne : lp ≠ [] := hloc.2 _ hmemc
          have hsc : Sub5P (Node.mk ec csc) := hsub _ hmemc
          obtain ⟨cs2, heq, hloc2, hsub2, hlen2⟩ :=
            ih (by simp) ec csc hsc.localOk hsc.child
          have hsub2' : Sub5P (Node.mk ec cs2) := by
            refine Sub5P.mk ec cs2 (fun hc => ?_) (fun hc => ?_) hloc2 hsub2
            · apply hsc.leafEnd
              rw [hc] at hlen2
              exact List.length_eq_zero.mp hlen2.symm
            · have := hsc.branch hc
              omega
          refine ⟨mapUpdate cs lp (.mk ec cs2), ?_,
            ⟨pairwise_mapUpdate hloc.1, ?_⟩, ?_, mapUpdate_length ..⟩
          · simp [eraseAt, hlp, heq]
          · intro q hq
            rcases mem_of_mapUpdate hq with h | h
            · exact hloc.2 q h
            · rw [h]
              exact hlpne
          · intro q hq
            rcases mem_of_mapUpdate hq with h | h
            · exact hsub q h
            · rw [h]
              exact hsub2'

/-- `trie::erase` preserves all structural invariants of the tree. -/
theorem trieErase_valid5 {t : Node} (hv : Valid5P t) (k : Str) :
    Valid5P (trieErase t k) := by
  obtain ⟨e, cs⟩ := t
  have hloc : LocalOk cs := hv.1
  have hsub : ∀ q ∈ cs, Sub5P q.2 := hv.2
  unfold trieErase
  cases hp : Node.exactPath (.mk e cs) k with
  | none => exact ⟨hloc, hsub⟩
  | some p =>
    cases p with
    | nil => exact ⟨hloc, hsub⟩
    | cons l1 rest =>
      cases rest with
      | nil =>
        obtain ⟨cs', heq, hloc', hsub', _⟩ :=
          eraseChildAction_props (e := e) l1 hloc hsub
        show Valid5P (eraseAt (Node.mk e cs) [l1])
        have : eraseAt (Node.mk e cs) [l1] = eraseChildAction (Node.mk e cs) l1 := rfl
        rw [this, heq]
        exact ⟨hloc', hsub'⟩
      | cons l2 rest2 =>
        obtain ⟨cs', heq, hloc', hsub', _⟩ :=
          eraseAt_props (l1 :: l2 :: rest2) (by simp) e cs hloc hsub
        show Valid5P (eraseAt (Node.mk e cs) (l1 :: l2 :: rest2))
        rw [heq]
        exact ⟨hloc', hsub'⟩

/-- The edge detachment of `trie::erase_prefix` keeps invariants 2-4 (but
not 5: the parent of the detached vertex may be left with a single child). -/
theorem removeEdgeAt_props : ∀ (p : List Str), p ≠ [] →
    ∀ (e : Bool) (cs : List (Str × Node)), LocalOk cs → (∀ q ∈ cs, Sub5P q.2) →
    ∃ cs', removeEdgeAt (.mk e cs) p = .mk e cs' ∧ LocalOk cs' ∧
      (∀ q ∈ cs', SubP q.2) ∧ cs.length ≤ cs'.length + 1 := by
  intro p
  induction p with
  | nil => intro h; exact absurd rfl h
  | cons l1 rest ih =>
    intro _ e cs hloc hsub
    cases rest with
    | nil =>
      exact ⟨mapErase cs l1, rfl, ⟨pairwise_mapErase hloc.1,
        fun q hq => hloc.2 q (mem_of_mapErase hq)⟩,
        fun q hq => (hsub q (mem_of_mapErase hq)).toSubP, mapErase_length_lb cs l1⟩
    | cons l2 rest2 =>
      cases hlp : mapLookup cs l1 with
      | none =>
        exact ⟨cs, by simp [removeEdgeAt, hlp], hloc,
          fun q hq => (hsub q hq).toSubP, by omega⟩
      | some c =>
        obtain ⟨ec, csc⟩ := c
        have hmemc : (l1, Node.mk ec csc) ∈ cs := mapLookup_mem hlp
        have hl1ne : l1 ≠ [] := hloc.2 _ hmemc
        have hsc : Sub5P (Node.mk ec csc) := hsub _ hmemc
        obtain ⟨cs2, heq, hloc2, hsub2, hlen2⟩ :=
          ih (by simp) ec csc hsc.localOk hsc.child
        have hsub2' : SubP (Node.mk ec cs2) := by
          refine SubP.mk ec cs2 (fun hc => ?_) hloc2 hsub2
          cases ec with
          | true => rfl
          | false =>
            have := hsc.branch rfl
            rw [hc] at hlen2
            simp only [List.length_nil] at hlen2
            omega
        refine ⟨mapUpdate cs l1 (.mk ec cs2), ?_,
          ⟨pairwise_mapUpdate hloc.1, ?_⟩, ?_, by rw [mapUpdate_length]; omega⟩
        · simp [removeEdgeAt, hlp, heq]
        · intro q hq
          rcases mem_of_mapUpdate hq with h | h
          · exact hloc.2 q h
          · rw [h]
            exact hl1ne
        · intro q hq
          rcases mem_of_mapUpdate hq with h | h
          · exact (hsub q h).toSubP
          · rw [h]
            exact hsub2'

/-- `trie::erase_prefix` preserves invariants 1-4 (not 5). -/
theorem trieErasePfx_valid {t : Node} (hv : Valid5P t) (p : Str) :
    ValidP (trieErasePfx t p) := by
  obtain ⟨e, cs⟩ := t
  have hloc : LocalOk cs := hv.1
  have hsub : ∀ q ∈ cs, Sub5P q.2 := hv.2
  unfold trieErasePfx
  cases hp : Node.pfxMatchPath (.mk e cs) p with
  | none => exact ⟨hloc, fun q hq => (hsub q hq).toSubP⟩
  | some pa =>
    cases pa with
    | nil =>
      refine ⟨⟨List.Pairwise.nil, ?_⟩, ?_⟩
      · intro q hq
        simp [trieClear] at hq
      · intro q hq
        simp [trieClear] at hq
    | cons l1 rest =>
      obtain ⟨cs', heq, hloc', hsub', _⟩ :=
        removeEdgeAt_props (l1 :: rest) (by simp) e cs hloc hsub
      show ValidP (removeEdgeAt (Node.mk e cs) (l1 :: rest))
      rw [heq]
      exact ⟨hloc', hsub'⟩

/-- `trie::clear` yields an invariant-satisfying (empty) tree. -/
theorem trieClear_valid5 (t : Node) : Valid5P (trieClear t) := by
  refine ⟨⟨List.Pairwise.nil, ?_⟩, ?_⟩
  · intro q hq
    simp [trieClear] at hq
  · intro q hq
    simp [trieClear] at hq

/-- The empty container satisfies all invariants. -/
theorem trieNew_valid5 : Valid5P trieNew := by
  refine ⟨⟨List.Pairwise.nil, ?_⟩, ?_⟩
  · intro q hq
    simp [trieNew] at hq
  · intro q hq
    simp [trieNew] at hq

theorem foldl_insert_valid5 : ∀ (ks : List Str) {t : Node}, Valid5P t →
    Valid5P (ks.foldl trieInsert t) := by
  intro ks
  induction ks with
  | nil => intro t hv; exact hv
  | cons k rest ih =>
    intro t hv
    exact ih (trieInsert_valid5 hv k)

theorem foldl_erase_valid5 : ∀ (ks : List Str) {t : Node}, Valid5P t →
    Valid5P (ks.foldl trieErase t) := by
  intro ks
  induction ks with
  | nil => intro t hv; exact hv
  | cons k rest ih =>
    intro t hv
    exact ih (trieErase_valid5 hv k)

/-- `operator+=` preserves all structural invariants. -/
theorem trieUnion_valid5 {t : Node} (hv : Valid5P t) (s : Node) :
    Valid5P (trieUnion t s) :=
  foldl_insert_valid5 _ hv

/-- `operator-=` preserves all structural invariants. -/
theorem trieDiff_valid5 {t : Node} (hv : Valid5P t) (s : Node) :
    Valid5P (trieDiff t s) :=
  foldl_erase_valid5 _ hv

/-- Bulk construction from any key list satisfies all invariants. -/
theorem trieOf_valid5 (ks : List Str) : Valid5P (trieOf ks) :=
  foldl_insert_valid5 _ trieNew_valid5

/-! ### Insert-erase roundtrip: helper lemmas -/

theorem mapLookup_mapEmplace_self {cs : List (Str × Node)} {k : Str} (v : Node)
    (h : ∀ p ∈ cs, p.1 ≠ k) : mapLookup (mapEmplace cs k v) k = some v := by
  obtain ⟨l1, l2, hcs, he⟩ := mapEmplace_not_mem v h
  rw [he]
  exact mapLookup_append_of_not_mem (fun p hp => h p (hcs ▸ List.mem_append_left _ hp)) v l2

theorem mapErase_mapEmplace_fresh {cs : List (Str × Node)} {k : Str} (v : Node)
    (h : ∀ p ∈ cs, p.1 ≠ k) : mapErase (mapEmplace cs k v) k = cs := by
  obtain ⟨l1, l2, hcs, he⟩ := mapEmplace_not_mem v h
  rw [he, mapErase_append_of_not_mem
    (fun p hp => h p (hcs ▸ List.mem_append_left _ hp)) v l2, ← hcs]

theorem mem_mapEmplace_self {cs : List (Str × Node)} {k : Str} (v : Node)
    (h : ∀ p ∈ cs, p.1 ≠ k) : (k, v) ∈ mapEmplace cs k v := by
  obtain ⟨l1, l2, _, he⟩ := mapEmplace_not_mem v h
  rw [he]
  exact List.mem_append_right _ (List.mem_cons_self _ _)

theorem findPfxChild_unique : ∀ {cs : List (Str × Node)} {k l : Str} {c : Node},
    (l, c) ∈ cs → isPfxOf l k = true →
    (∀ p ∈ cs, p ≠ (l, c) → isPfxOf p.1 k = false) →
    findPfxChild cs k = some (l, c) := by
  intro cs k l c hm hpfx hothers
  induction cs with
  | nil => simp at hm
  | cons q rest ih =>
    obtain ⟨lq, cq⟩ := q
    by_cases hq : (lq, cq) = (l, c)
    · injection hq with h1 h2
      subst h1
      subst h2
      simp [findPfxChild, hpfx]
    · have hfalse : isPfxOf lq k = false :=
        hothers (lq, cq) (List.mem_cons_self _ _) hq
      have hm' : (l, c) ∈ rest := by
        rcases List.mem_cons.mp hm with h | h
        · exact absurd h.symm hq
        · exact h
      simp only [findPfxChild, hfalse, Bool.false_eq_true, if_false]
      exact ih hm' (fun p hp hne => hothers p (List.mem_cons_of_mem _ hp) hne)

theorem nil_mem_keysOf {e : Bool} {cs : List (Str × Node)}
    (h : ∀ q ∈ cs, q.1 ≠ []) : [] ∈ keysOf (.mk e cs) ↔ e = true := by
  show [] ∈ (if e then [[]] else []) ++ keysOf.goChildren cs ↔ e = true
  rw [List.mem_append]
  constructor
  · rintro (h1 | h1)
    · cases e with
      | true => rfl
      | false => simp at h1
    · obtain ⟨q, hq, u, _, hw⟩ := mem_keysOf_goChildren.mp h1
      exact absurd (List.append_eq_nil.mp hw.symm).1 (h q hq)
  · rintro rfl
    left
    simp

theorem mem_keysOf_child {e : Bool} {cs : List (Str × Node)} {l w : Str} {c : Node}
    (hm : (l, c) ∈ cs) (hw : w ∈ keysOf c) : l ++ w ∈ keysOf (.mk e cs) := by
  show l ++ w ∈ (if e then [[]] else []) ++ keysOf.goChildren cs
  rw [List.mem_append]
  exact Or.inr (mem_keysOf_goChildren.mpr ⟨(l, c), hm, w, hw, rfl⟩)

theorem exactPath_nil (n : Node) : n.exactPath [] = some [] := by
  obtain ⟨e, cs⟩ := n
  rfl

theorem exactPath_descend {e : Bool} {cs : List (Str × Node)} {k l : Str} {c : Node}
    (hk : k ≠ []) (hf : findPfxChild cs k = some (l, c)) :
    Node.exactPath (.mk e cs) k = (Node.exactPath c (k.drop l.length)).map (l :: ·) := by
  show (if (Node.approxPath (.mk e cs) k).2 = []
        then some (Node.approxPath (.mk e cs) k).1 else none) = _
  rw [approxPath_eq]
  simp only [Node.children_mk, if_neg hk, hf]
  show (if (c.approxPath (k.drop l.length)).2 = []
        then some (l :: (c.approxPath (k.drop l.length)).1) else none) =
    (if (c.approxPath (k.drop l.length)).2 = []
     then some (c.approxPath (k.drop l.length)).1 else none).map (l :: ·)
  by_cases hr : (c.approxPath (k.drop l.length)).2 = []
  · simp [hr]
  · simp [hr]

theorem exactPath_no_child {e : Bool} {cs : List (Str × Node)} {k : Str}
    (hk : k ≠ []) (hf : findPfxChild cs k = none) :
    Node.exactPath (.mk e cs) k = none := by
  show (if (Node.approxPath (.mk e cs) k).2 = []
        then some (Node.approxPath (.mk e cs) k).1 else none) = none
  rw [approxPath_eq]
  simp [hk, hf]

theorem exactPath_cons_parts {n : Node} {w l : Str} {ρ : List Str}
    (hpw : n.children.Pairwise ChOrd) (h : n.exactPath w = some (l :: ρ)) :
    ∃ c, mapLookup n.children l = some c ∧ isPfxOf l w = true ∧
      c.exactPath (w.drop l.length) = some ρ := by
  obtain ⟨e, cs⟩ := n
  by_cases hw : w = []
  · subst hw
    rw [exactPath_nil] at h
    simp at h
  · cases hf : findPfxChild cs w with
    | none =>
      rw [exactPath_no_child hw hf] at h
      simp at h
    | some lc =>
      obtain ⟨l0, c0⟩ := lc
      rw [exactPath_descend hw hf] at h
      cases hsub : Node.exactPath c0 (w.drop l0.length) with
      | none =>
        rw [hsub] at h
        simp at h
      | some ρ0 =>
        rw [hsub] at h
        simp only [Option.map_some', Option.some.injEq, List.cons.injEq] at h
        obtain ⟨rfl, rfl⟩ := h
        obtain ⟨hmem, hpfx⟩ := findPfxChild_some hf
        exact ⟨c0, localOk_lookup hpw hmem, hpfx, hsub⟩

/-- Undoing the leaf attachment of `trie::insert` (no child shares the key's
first byte): the erase of the fresh key detaches exactly the new leaf. -/
theorem insertLoc_leaf_roundtrip {e : Bool} {cs : List (Str × Node)} {k : Str}
    (hloc : LocalOk cs) (hk : k ≠ []) (hfh : findHeadChild cs k = none) :
    Node.exactPath (insertLoc (.mk e cs) k) k = some [k] ∧
    eraseChildAction (insertLoc (.mk e cs) k) k = .mk e cs := by
  have hheads := findHeadChild_none hfh
  have hlab : ∀ p ∈ cs, p.1 ≠ k := fun p hp hc => hheads p hp (by rw [hc])
  have hnp : ∀ p ∈ cs, isPfxOf p.1 k = false := fun p hp =>
    isPfxOf_head_ne (hheads p hp) (hloc.2 p hp)
  rw [insertLoc_leaf_eq e hk hfh]
  constructor
  · have hfind : findPfxChild (mapEmplace cs k (.mk true [])) k =
        some (k, .mk true []) := by
      refine findPfxChild_unique (mem_mapEmplace_self _ hlab) (isPfxOf_self k) ?_
      intro p hp hne
      rcases mem_of_mapEmplace hp with h | h
      · exact hnp p h
      · exact absurd h hne
    rw [exactPath_descend hk hfind, List.drop_length, exactPath_nil]
    rfl
  · have hlk := mapLookup_mapEmplace_self (.mk true []) hlab
    simp [eraseChildAction, hlk, mapErase_mapEmplace_fresh _ hlab]

/-- Undoing the edge split of `trie::insert`: erasing the fresh key removes
the new leaf (or the new end mark) and the degenerate-junction join restores
the original edge. -/
theorem insertLoc_split_roundtrip {e : Bool} {cs : List (Str × Node)} {k l : Str}
    {c0 : Node} (hloc : LocalOk cs) (hk : k ≠ [])
    (hfp : findPfxChild cs k = none) (hfh : findHeadChild cs k = some (l, c0)) :
    (k.drop (commonPfx k l).length = [] →
      Node.exactPath (insertLoc (.mk e cs) k) k = some [commonPfx k l] ∧
      eraseChildAction (insertLoc (.mk e cs) k) (commonPfx k l) = .mk e cs) ∧
    (k.drop (commonPfx k l).length ≠ [] →
      Node.exactPath (insertLoc (.mk e cs) k) k =
        some [commonPfx k l, k.drop (commonPfx k l).length] ∧
      eraseAt (insertLoc (.mk e cs) k)
        [commonPfx k l, k.drop (commonPfx k l).length] = .mk e cs) := by
  obtain ⟨hmem, hhead⟩ := findHeadChild_some hfh
  have hl : l ≠ [] := hloc.2 _ hmem
  have hC0 : commonPfx k l ≠ [] := commonPfx_ne_nil_of_head hk hl hhead
  have hC0k : isPfxOf (commonPfx k l) k = true := isPfxOf_iff.mpr (commonPfx_pfx_left k l)
  have hC0l : isPfxOf (commonPfx k l) l = true := isPfxOf_iff.mpr (commonPfx_pfx_right k l)
  have hlC0 : l = commonPfx k l ++ l.drop (commonPfx k l).length := drop_of_isPfxOf hC0l
  have hkC0 : k = commonPfx k l ++ k.drop (commonPfx k l).length := drop_of_isPfxOf hC0k
  have hnpl : isPfxOf l k = false := findPfxChild_none_iff.mp hfp _ hmem
  have hpc : l.drop (commonPfx k l).length ≠ [] := by
    intro hc
    rw [hc, List.append_nil] at hlC0
    rw [hlC0] at hnpl
    rw [hC0k] at hnpl
    exact Bool.true_eq_false ▸ hnpl
  have hC0headk : (commonPfx k l).head? = k.head? := commonPfx_head hC0
  have hC0headl : (commonPfx k l).head? = l.head? := by rw [hC0headk, ← hhead]
  have hC0nel : commonPfx k l ≠ l := by
    intro hc
    rw [← hc] at hnpl
    rw [hC0k] at hnpl
    exact Bool.true_eq_false ▸ hnpl
  have hlneC0 : l ≠ commonPfx k l := fun hc => hC0nel hc.symm
  obtain ⟨u1, u2, hdec, h1, h2⟩ := children_split hloc.1 hmem
  have hu1lab : ∀ p ∈ u1, p.1 ≠ [] := fun p hp =>
    hloc.2 p (hdec ▸ List.mem_append_left _ hp)
  have hu2lab : ∀ p ∈ u2, p.1 ≠ [] := fun p hp =>
    hloc.2 p (hdec ▸ List.mem_append_right _ (List.mem_cons_of_mem _ hp))
  have h1' : ∀ p ∈ u1, strLt p.1 (commonPfx k l) = true ∧
      p.1.head? ≠ (commonPfx k l).head? := by
    intro p hp
    obtain ⟨ha, hb⟩ := h1 p hp
    exact ⟨strLt_of_lt_same_head ha hb hC0 hC0headl,
      fun hc => hb (by rw [hc, hC0headl])⟩
  have h2' : ∀ p ∈ u2, strLt (commonPfx k l) p.1 = true ∧
      (commonPfx k l).head? ≠ p.1.head? := by
    intro p hp
    obtain ⟨ha, hb⟩ := h2 p hp
    exact ⟨strLt_of_same_head_lt ha hb hl hC0 hC0headl,
      fun hc => hb (by rw [← hc, hC0headl])⟩
  have hu1C0 : ∀ p ∈ u1, p.1 ≠ commonPfx k l := by
    intro p hp hc
    exact (h1' p hp).2 (by rw [hc])
  have hu1k : ∀ p ∈ u1, isPfxOf p.1 k = false := by
    intro p hp
    refine isPfxOf_head_ne ?_ (hu1lab p hp)
    intro hc
    exact (h1 p hp).2 (by rw [hc, ← hhead])
  have hu2k : ∀ p ∈ u2, isPfxOf p.1 k = false := by
    intro p hp
    refine isPfxOf_head_ne ?_ (hu2lab p hp)
    intro hc
    exact (h2 p hp).2 (by rw [hc, ← hhead])
  have hCpc : commonPfx k l ++ l.drop (commonPfx k l).length = l := hlC0.symm
  -- the composite that restores the original edge, shared by both cases
  have hcompB : ∀ (J : Node),
      mapErase (mapEmplace (u1 ++ (commonPfx k l, J) :: u2) l c0) (commonPfx k l) =
        u1 ++ (l, c0) :: u2 := by
    intro J
    refine emplace_erase_composite h1' h2' hC0 hl ?_ hlneC0
    rw [hC0headl]
  constructor
  · -- the key dies at the junction: the junction is end-marked
    intro hpk
    rw [insertLoc_split_eq e hk hfh]
    simp only [if_pos hpk]
    have hcompF : mapErase (mapEmplace cs (commonPfx k l)
        (Node.mk true [(l.drop (commonPfx k l).length, c0)])) l =
        u1 ++ (commonPfx k l, .mk true [(l.drop (commonPfx k l).length, c0)]) :: u2 := by
      rw [hdec]
      exact emplace_erase_composite h1 h2 hl hC0 hC0headl hC0nel
    rw [hcompF]
    have hfind : findPfxChild
        (u1 ++ (commonPfx k l, Node.mk true [(l.drop (commonPfx k l).length, c0)]) :: u2) k =
        some (commonPfx k l, .mk true [(l.drop (commonPfx k l).length, c0)]) := by
      refine findPfxChild_unique
        (List.mem_append_right _ (List.mem_cons_self _ _)) hC0k ?_
      intro p hp hne
      rcases List.mem_append.mp hp with h | h
      · exact hu1k p h
      · rcases List.mem_cons.mp h with h' | h'
        · exact absurd h' hne
        · exact hu2k p h'
    constructor
    · rw [exactPath_descend hk hfind, hpk, exactPath_nil]
      rfl
    · have hlk : mapLookup
          (u1 ++ (commonPfx k l, Node.mk true [(l.drop (commonPfx k l).length, c0)]) :: u2)
          (commonPfx k l) = some (.mk true [(l.drop (commonPfx k l).length, c0)]) :=
        mapLookup_append_of_not_mem hu1C0 _ u2
      have hstep : eraseChildAction
          (.mk e (u1 ++ (commonPfx k l, Node.mk true [(l.drop (commonPfx k l).length, c0)]) :: u2))
          (commonPfx k l) =
          .mk e (mapErase (mapEmplace
            (u1 ++ (commonPfx k l, Node.mk true [(l.drop (commonPfx k l).length, c0)]) :: u2)
            (commonPfx k l ++ l.drop (commonPfx k l).length) c0) (commonPfx k l)) := by
        simp [eraseChildAction, hlk]
      rw [hstep, hCpc, hcompB, ← hdec]
  · -- the key continues past the junction: a fresh leaf hangs under it
    intro hpk
    rw [insertLoc_split_eq e hk hfh]
    simp only [if_neg hpk]
    have hdiv : (k.drop (commonPfx k l).length).head? ≠
        (l.drop (commonPfx k l).length).head? := by
      intro hc
      rcases commonPfx_residual_heads k l hc with h | h
      · exact hpk h
      · exact hpc h
    have hjlab : ∀ p ∈ [(l.drop (commonPfx k l).length, c0)],
        p.1 ≠ k.drop (commonPfx k l).length := by
      intro p hp
      rcases List.mem_singleton.mp hp with rfl
      intro hc
      exact hdiv (congrArg List.head? hc).symm
    have hE : mapErase
        (mapEmplace [(l.drop (commonPfx k l).length, c0)] (k.drop (commonPfx k l).length)
          (.mk true [])) (k.drop (commonPfx k l).length) =
        [(l.drop (commonPfx k l).length, c0)] :=
      mapErase_mapEmplace_fresh _ hjlab
    have hlk2 : mapLookup
        (mapEmplace [(l.drop (commonPfx k l).length, c0)] (k.drop (commonPfx k l).length)
          (.mk true [])) (k.drop (commonPfx k l).length) = some (.mk true []) :=
      mapLookup_mapEmplace_self _ hjlab
    have hcompF : mapErase (mapEmplace cs (commonPfx k l)
        (Node.mk false (mapEmplace [(l.drop (commonPfx k l).length, c0)]
          (k.drop (commonPfx k l).length) (.mk true [])))) l =
        u1 ++ (commonPfx k l, Node.mk false (mapEmplace [(l.drop (commonPfx k l).length, c0)]
          (k.drop (commonPfx k l).length) (.mk true []))) :: u2 := by
      rw [hdec]
      exact emplace_erase_composite h1 h2 hl hC0 hC0headl hC0nel
    rw [hcompF]
    have hfindJ : findPfxChild
        (mapEmplace [(l.drop (commonPfx k l).length, c0)] (k.drop (commonPfx k l).length)
          (.mk true [])) (k.drop (commonPfx k l).length) =
        some (k.drop (commonPfx k l).length, .mk true []) := by
      refine findPfxChild_unique (mem_mapEmplace_self _ hjlab)
        (isPfxOf_self _) ?_
      intro p hp hne
      rcases mem_of_mapEmplace hp with h | h
      · rcases List.mem_singleton.mp h with rfl
        exact isPfxOf_head_ne (fun hc => hdiv hc.symm) hpc
      · exact absurd h hne
    have hfind : findPfxChild
        (u1 ++ (commonPfx k l, Node.mk false (mapEmplace [(l.drop (commonPfx k l).length, c0)]
          (k.drop (commonPfx k l).length) (.mk true []))) :: u2) k =
        some (commonPfx k l, Node.mk false (mapEmplace [(l.drop (commonPfx k l).length, c0)]
          (k.drop (commonPfx k l).length) (.mk true []))) := by
      refine findPfxChild_unique
        (List.mem_append_right _ (List.mem_cons_self _ _)) hC0k ?_
      intro p hp hne
      rcases List.mem_append.mp hp with h | h
      · exact hu1k p h
      · rcases List.mem_cons.mp h with h' | h'
        · exact absurd h' hne
        · exact hu2k p h'
    constructor
    · rw [exactPath_descend hk hfind]
      rw [exactPath_descend hpk hfindJ, List.drop_length, exactPath_nil]
      rfl
    · have hlk1 : mapLookup
          (u1 ++ (commonPfx k l, Node.mk false (mapEmplace [(l.drop (commonPfx k l).length, c0)]
            (k.drop (commonPfx k l).length) (.mk true []))) :: u2) (commonPfx k l) =
          some (Node.mk false (mapEmplace [(l.drop (commonPfx k l).length, c0)]
            (k.drop (commonPfx k l).length) (.mk true []))) :=
        mapLookup_append_of_not_mem hu1C0 _ u2
      have hstep : eraseAt
          (.mk e (u1 ++ (commonPfx k l, Node.mk false (mapEmplace
            [(l.drop (commonPfx k l).length, c0)] (k.drop (commonPfx k l).length)
            (.mk true []))) :: u2))
          [commonPfx k l, k.drop (commonPfx k l).length] =
          .mk e (mapErase (mapEmplace
            (u1 ++ (commonPfx k l, Node.mk false (mapEmplace
              [(l.drop (commonPfx k l).length, c0)] (k.drop (commonPfx k l).length)
              (.mk true []))) :: u2)
            (commonPfx k l ++ l.drop (commonPfx k l).length) c0) (commonPfx k l)) := by
        simp [eraseAt, hlk1, hlk2, hE]
      rw [hstep, hCpc, hcompB, ← hdec]

/-- Core of the insert-erase roundtrip: inserting a fresh key yields a tree
in which the key's exact path exists and along which the erase surgery
exactly undoes the insertion. -/
theorem insert_erase_loc : ∀ (n : Node), Valid5P n → ∀ (k : Str), k ∉ keysOf n →
    ∃ ρ, (trieInsert n k).exactPath k = some ρ ∧
      (ρ = [] → trieInsert n k = .mk true n.children ∧ n.is_end = false) ∧
      (∀ lm, ρ = [lm] → eraseChildAction (trieInsert n k) lm = n) ∧
      (2 ≤ ρ.length → eraseAt (trieInsert n k) ρ = n) := by
  refine Node.indMem
    (fun n => Valid5P n → ∀ k, k ∉ keysOf n →
      ∃ ρ, (trieInsert n k).exactPath k = some ρ ∧
        (ρ = [] → trieInsert n k = .mk true n.children ∧ n.is_end = false) ∧
        (∀ lm, ρ = [lm] → eraseChildAction (trieInsert n k) lm = n) ∧
        (2 ≤ ρ.length → eraseAt (trieInsert n k) ρ = n)) ?_
  intro e cs ih hv k hk
  have hloc : LocalOk cs := hv.1
  have hsub : ∀ q ∈ cs, Sub5P q.2 := hv.2
  by_cases hk0 : k = []
  · subst hk0
    have hins : trieInsert (.mk e cs) [] = .mk true cs := by
      rw [trieInsert_eq]
      simp only [if_pos rfl]
      exact insertLoc_nil_eq e cs
    have hend : e = false := by
      cases e with
      | false => rfl
      | true => exact absurd ((nil_mem_keysOf hloc.2).mpr rfl) hk
    refine ⟨[], by rw [hins]; exact exactPath_nil _, ?_, ?_, ?_⟩
    · intro _
      exact ⟨by rw [hins]; rfl, by simp [hend]⟩
    · intro lm h
      exact absurd h (by simp)
    · intro h
      simp at h
  · cases hgo : trieInsert.goChildren cs k with
    | none =>
      have hfp : findPfxChild cs k = none := goChildren_insert_none.mp hgo
      have hins : trieInsert (.mk e cs) k = insertLoc (.mk e cs) k := by
        rw [trieInsert_eq]
        simp [if_neg hk0, hgo]
      cases hfh : findHeadChild cs k with
      | none =>
        obtain ⟨hpath, hact⟩ := insertLoc_leaf_roundtrip (e := e) hloc hk0 hfh
        refine ⟨[k], by rw [hins]; exact hpath, ?_, ?_, ?_⟩
        · intro h
          exact absurd h (by simp)
        · intro lm h
          injection h with h1 _
          subst h1
          rw [hins]
          exact hact
        · intro h
          simp at h
      | some lc =>
        obtain ⟨l, c0⟩ := lc
        obtain ⟨hcase1, hcase2⟩ := insertLoc_split_roundtrip (e := e) hloc hk0 hfp hfh
        by_cases hpk : k.drop (commonPfx k l).length = []
        · obtain ⟨hpath, hact⟩ := hcase1 hpk
          refine ⟨[commonPfx k l], by rw [hins]; exact hpath, ?_, ?_, ?_⟩
          · intro h
            exact absurd h (by simp)
          · intro lm h
            injection h with h1 _
            subst h1
            rw [hins]
            exact hact
          · intro h
            simp at h
        · obtain ⟨hpath, hact⟩ := hcase2 hpk
          refine ⟨[commonPfx k l, k.drop (commonPfx k l).length],
            by rw [hins]; exact hpath, ?_, ?_, ?_⟩
          · intro h
            exact absurd h (by simp)
          · intro lm h
            exfalso
            have := congrArg List.length h
            simp at this
          · intro _
            rw [hins]
            exact hact
    | some cs' =>
      obtain ⟨u1, l, c, u2, hdec, hpfx, hu1, hcs'⟩ := goChildren_insert_some hgo
      have hmc : (l, c) ∈ cs := hdec ▸ List.mem_append_right _ (List.mem_cons_self _ _)
      have hl : l ≠ [] := hloc.2 _ hmc
      have hsc : Sub5P c := hsub _ hmc
      have hkl : k = l ++ k.drop l.length := drop_of_isPfxOf hpfx
      have hkh : k.head? = l.head? := head_eq_of_isPfxOf hpfx hl
      have hk2 : k.drop l.length ∉ keysOf c := by
        intro hmem
        exact hk (hkl ▸ mem_keysOf_child hmc hmem)
      obtain ⟨ρc, hpc, hc0, hc1, hc2⟩ := ih (l, c) hmc hsc.toValid5P _ hk2
      have hsc' : Sub5P (trieInsert c (k.drop l.length)) := trieInsert_sub5 c hsc _
      have hins : trieInsert (.mk e cs) k = .mk e cs' := by
        rw [trieInsert_eq]
        simp [if_neg hk0, hgo]
      have hpwdec := hdec ▸ hloc.1
      have hA : ∀ p ∈ u1, ChOrd p (l, c) :=
        fun p hp => (List.pairwise_append.mp hpwdec).2.2 p hp _ (List.mem_cons_self _ _)
      have hB : ∀ p ∈ u2, ChOrd (l, c) p :=
        fun p hp => (List.pairwise_cons.mp (List.pairwise_append.mp hpwdec).2.1).1 p hp
      have hu1lab : ∀ p ∈ u1, p.1 ≠ l := by
        intro p hp hc'
        have := (hA p hp).1
        rw [hc'] at this
        simp [strLt_irrefl] at this
      have hu2k : ∀ p ∈ u2, isPfxOf p.1 k = false := by
        intro p hp
        refine isPfxOf_head_ne ?_
          (hloc.2 p (hdec ▸ List.mem_append_right _ (List.mem_cons_of_mem _ hp)))
        intro hc'
        exact (hB p hp).2 (by rw [hc', hkh])
      have hlk1 : mapLookup cs' l = some (trieInsert c (k.drop l.length)) := by
        rw [hcs']
        exact mapLookup_append_of_not_mem hu1lab _ u2
      have hfind : findPfxChild cs' k = some (l, trieInsert c (k.drop l.length)) := by
        rw [hcs']
        refine findPfxChild_unique
          (List.mem_append_right _ (List.mem_cons_self _ _)) hpfx ?_
        intro p hp hne
        rcases List.mem_append.mp hp with h | h
        · exact hu1 p h
        · rcases List.mem_cons.mp h with h' | h'
          · exact absurd h' hne
          · exact hu2k p h'
      have hupd : mapUpdate cs' l c = cs := by
        rw [hcs', mapUpdate_append_of_not_mem hu1lab _ _ u2, ← hdec]
      have hpath : Node.exactPath (.mk e cs') k =
          (Node.exactPath (trieInsert c (k.drop l.length))
            (k.drop l.length)).map (l :: ·) :=
        exactPath_descend hk0 hfind
      refine ⟨l :: ρc, ?_, ?_, ?_, ?_⟩
      · rw [hins, hpath, hpc]
        rfl
      · intro h
        exact absurd h (by simp)
      · intro lm h
        injection h with h1 h2
        subst h1
        obtain ⟨hcins, hcend⟩ := hc0 h2
        rw [hins]
        obtain ⟨ec2, csc2⟩ := c
        simp only [Node.is_end_mk] at hcend
        subst hcend
        have h2c : 2 ≤ csc2.length := hsc.branch rfl
        simp only [Node.children_mk] at hcins
        rw [hcins] at hlk1
        cases csc2 with
        | nil => simp at h2c
        | cons q1 tl1 =>
          cases tl1 with
          | nil => simp at h2c
          | cons q2 tl2 =>
            have hstep : eraseChildAction (.mk e cs') l =
                .mk e (mapUpdate cs' l (.mk false (q1 :: q2 :: tl2))) := by
              simp [eraseChildAction, hlk1]
            rw [hstep, hupd]
      · intro hlen
        rw [hins]
        cases ρc with
        | nil => simp at hlen
        | cons x rest1 =>
          cases rest1 with
          | nil =>
            have hact : eraseChildAction (trieInsert c (k.drop l.length)) x = c :=
              hc1 x rfl
            cases hT : trieInsert c (k.drop l.length) with
            | mk eT csT =>
              rw [hT] at hlk1 hact hpc hsc'
              obtain ⟨m, hm, _, _⟩ :=
                exactPath_cons_parts (n := Node.mk eT csT) hsc'.localOk.1 hpc
              simp only [Node.children_mk] at hm
              cases hmc2 : m.children with
              | nil =>
                have hact' : Node.mk eT (mapErase csT x) = c := by
                  rw [← hact]
                  simp [eraseChildAction, hm, hmc2]
                cases hE : mapErase csT x with
                | nil =>
                  have hstep : eraseAt (.mk e cs') [l, x] =
                      .mk e (mapUpdate cs' l (.mk eT (mapErase csT x))) := by
                    simp [eraseAt, hlk1, hm, hmc2, hE]
                  rw [hstep, hact', hupd]
                | cons w1 tl =>
                  cases tl with
                  | nil =>
                    obtain ⟨lc1, cc1⟩ := w1
                    have hcc : c = Node.mk eT [(lc1, cc1)] := by
                      rw [← hact', hE]
                    have heT : eT = true := by
                      cases eT with
                      | true => rfl
                      | false =>
                        exfalso
                        rw [hcc] at hsc
                        have := hsc.branch rfl
                        simp at this
                    subst heT
                    have hstep : eraseAt (.mk e cs') [l, x] =
                        .mk e (mapUpdate cs' l (.mk true (mapErase csT x))) := by
                      simp [eraseAt, hlk1, hm, hmc2, hE]
                    rw [hstep, hact', hupd]
                  | cons w2 tl2 =>
                    have hstep : eraseAt (.mk e cs') [l, x] =
                        .mk e (mapUpdate cs' l (.mk eT (mapErase csT x))) := by
                      simp [eraseAt, hlk1, hm, hmc2, hE]
                    rw [hstep, hact', hupd]
              | cons w0 tl0 =>
                have hstep : eraseAt (.mk e cs') [l, x] =
                    .mk e (mapUpdate cs' l (eraseChildAction (.mk eT csT) x)) := by
                  simp [eraseAt, hlk1, hm, hmc2]
                rw [hstep, hact, hupd]
          | cons y rest2 =>
            have hstep : eraseAt (.mk e cs') (l :: x :: y :: rest2) =
                .mk e (mapUpdate cs' l
                  (eraseAt (trieInsert c (k.drop l.length)) (x :: y :: rest2))) := by
              cases hT : trieInsert c (k.drop l.length) with
              | mk eT csT =>
                rw [hT] at hlk1
                simp [eraseAt, hlk1]
            rw [hstep, hc2 (by simp), hupd]

/-- `trie::erase` exactly undoes `trie::insert` of a key not already
stored. -/
theorem trieInsertErase_roundtrip {t : Node} (hv : Valid5P t) {k : Str}
    (hk : k ∉ keysOf t) : trieErase (trieInsert t k) k = t := by
  obtain ⟨ρ, hpath, h0, h1, h2⟩ := insert_erase_loc t hv k hk
  unfold trieErase
  rw [hpath]
  cases ρ with
  | nil =>
    obtain ⟨hins, hend⟩ := h0 rfl
    show eraseAt (trieInsert t k) [] = t
    rw [hins]
    show Node.mk false (Node.mk true t.children).children = t
    rw [Node.children_mk, ← hend, Node.eta]
  | cons l1 rest =>
    cases rest with
    | nil =>
      show eraseAt (trieInsert t k) [l1] = t
      have : eraseAt (trieInsert t k) [l1] = eraseChildAction (trieInsert t k) l1 := rfl
      rw [this]
      exact h1 l1 rfl
    | cons l2 rest2 =>
      show eraseAt (trieInsert t k) (l1 :: l2 :: rest2) = t
      exact h2 (by simp)

/-! ### Canonicity: a valid tree is determined by its key set -/

theorem sorted_children_eq_of_mem_iff : ∀ {L1 L2 : List (Str × Node)},
    L1.Pairwise ChOrd → L2.Pairwise ChOrd → (∀ x, x ∈ L1 ↔ x ∈ L2) → L1 = L2 := by
  intro L1
  induction L1 with
  | nil =>
    intro L2 _ _ hmem
    cases L2 with
    | nil => rfl
    | cons b t2 => exact absurd ((hmem b).mpr (List.mem_cons_self _ _)) (by simp)
  | cons a t1 ih =>
    intro L2 hp1 hp2 hmem
    cases L2 with
    | nil => exact absurd ((hmem a).mp (List.mem_cons_self _ _)) (by simp)
    | cons b t2 =>
      by_cases hab : a = b
      · subst hab
        have htail : ∀ x, x ∈ t1 ↔ x ∈ t2 := by
          intro x
          constructor
          · intro hx
            rcases List.mem_cons.mp ((hmem x).mp (List.mem_cons_of_mem _ hx)) with h | h
            · subst h
              have := ((List.pairwise_cons.mp hp1).1 x hx).1
              simp [strLt_irrefl] at this
            · exact h
          · intro hx
            rcases List.mem_cons.mp ((hmem x).mpr (List.mem_cons_of_mem _ hx)) with h | h
            · subst h
              have := ((List.pairwise_cons.mp hp2).1 x hx).1
              simp [strLt_irrefl] at this
            · exact h
        rw [ih (List.pairwise_cons.mp hp1).2 (List.pairwise_cons.mp hp2).2 htail]
      · exfalso
        have ha2 : a ∈ t2 := by
          rcases List.mem_cons.mp ((hmem a).mp (List.mem_cons_self _ _)) with h | h
          · exact absurd h hab
          · exact h
        have hb1 : b ∈ t1 := by
          rcases List.mem_cons.mp ((hmem b).mpr (List.mem_cons_self _ _)) with h | h
          · exact absurd h.symm hab
          · exact h
        have h1 := ((List.pairwise_cons.mp hp1).1 b hb1).1
        have h2 := ((List.pairwise_cons.mp hp2).1 a ha2).1
        rw [strLt_asymm h1] at h2
        exact Bool.false_eq_true ▸ h2

theorem pairwise_same_head_eq : ∀ {cs : List (Str × Node)} {p q : Str × Node},
    cs.Pairwise ChOrd → p ∈ cs → q ∈ cs → p.1.head? = q.1.head? → p = q := by
  intro cs
  induction cs with
  | nil => intro p q _ hp; simp at hp
  | cons r rest ih =>
    intro p q hpw hp hq hh
    obtain ⟨hr, hrest⟩ := List.pairwise_cons.mp hpw
    rcases List.mem_cons.mp hp with hp' | hp' <;> rcases List.mem_cons.mp hq with hq' | hq'
    · rw [hp', hq']
    · subst hp'
      exact absurd hh (hr q hq').2
    · subst hq'
      exact absurd hh.symm (hr p hp').2
    · exact ih hrest hp' hq' hh

theorem keysOf_ne_nil {c : Node} (hs : SubP c) : keysOf c ≠ [] := by
  intro hc
  have h1 := hs.keyCount_pos
  rw [keyCount_eq_length, hc] at h1
  simp at h1

theorem mem_keysOf_mk {e : Bool} {cs : List (Str × Node)} {w : Str} :
    w ∈ keysOf (.mk e cs) ↔
      (w = [] ∧ e = true) ∨ ∃ q ∈ cs, ∃ u ∈ keysOf q.2, w = q.1 ++ u := by
  show w ∈ (if e then [[]] else []) ++ keysOf.goChildren cs ↔ _
  rw [List.mem_append, mem_keysOf_goChildren]
  cases e with
  | true => simp
  | false => simp

/-- Two candidate longest-common-prefix labels of the same nonempty set of
strings coincide, where being such a label means: a common prefix that is
either itself in the set or has two one-character extensions into the set
that differ. -/
theorem lcp_det_le {S : Str → Prop} {l1 l2 : Str} (h12 : l1 <+: l2)
    (hub2 : ∀ s, S s → l2 <+: s)
    (hw1 : S l1 ∨ ∃ s1 s2 a b, S s1 ∧ S s2 ∧ a ≠ b ∧
      (l1 ++ [a]) <+: s1 ∧ (l1 ++ [b]) <+: s2) :
    l1 = l2 := by
  by_cases heq : l1 = l2
  · exact heq
  exfalso
  have hlt : l1.length < l2.length :=
    lt_of_le_of_ne h12.length_le (fun hc => heq (List.IsPrefix.eq_of_length h12 hc))
  rcases hw1 with h | ⟨s1, s2, a, b, hS1, hS2, hab, ha, hb⟩
  · have := (hub2 _ h).length_le
    omega
  · have hstep : ∀ x s, S s → (l1 ++ [x]) <+: s → (l1 ++ [x]) <+: l2 := by
      intro x s hSs hxs
      rcases List.prefix_or_prefix_of_prefix hxs (hub2 _ hSs) with h | h
      · exact h
      · have hlen : l2.length = l1.length + 1 := by
          have := h.length_le
          simp only [List.length_append, List.length_singleton] at this
          omega
        rw [List.IsPrefix.eq_of_length h (by simpa using hlen)]
    have h1 := hstep a s1 hS1 ha
    have h2 := hstep b s2 hS2 hb
    have heq2 : l1 ++ [a] = l1 ++ [b] := by
      rcases List.prefix_or_prefix_of_prefix h1 h2 with h | h
      · exact List.IsPrefix.eq_of_length h (by simp)
      · exact (List.IsPrefix.eq_of_length h (by simp)).symm
    exact hab (by simpa using heq2)

theorem lcp_det {S : Str → Prop} {l1 l2 : Str}
    (hub1 : ∀ s, S s → l1 <+: s) (hub2 : ∀ s, S s → l2 <+: s)
    (hne : ∃ s, S s)
    (hw1 : S l1 ∨ ∃ s1 s2 a b, S s1 ∧ S s2 ∧ a ≠ b ∧
      (l1 ++ [a]) <+: s1 ∧ (l1 ++ [b]) <+: s2)
    (hw2 : S l2 ∨ ∃ s1 s2 a b, S s1 ∧ S s2 ∧ a ≠ b ∧
      (l2 ++ [a]) <+: s1 ∧ (l2 ++ [b]) <+: s2) :
    l1 = l2 := by
  obtain ⟨s0, hs0⟩ := hne
  rcases List.prefix_or_prefix_of_prefix (hub1 s0 hs0) (hub2 s0 hs0) with h | h
  · exact lcp_det_le h hub2 hw1
  · exact (lcp_det_le h hub1 hw2).symm

/-- Keys sharing the first byte of child label `l` are exactly the keys
below the child at `l`. -/
theorem group_char {e : Bool} {cs : List (Str × Node)} (hloc : LocalOk cs)
    {l : Str} {c : Node} (hcm : (l, c) ∈ cs) :
    ∀ w, (w ∈ keysOf (.mk e cs) ∧ w.head? = l.head?) ↔
      ∃ u ∈ keysOf c, w = l ++ u := by
  have hl : l ≠ [] := hloc.2 _ hcm
  intro w
  constructor
  · rintro ⟨hw, hh⟩
    rcases mem_keysOf_mk.mp hw with ⟨rfl, _⟩ | ⟨q, hq, u, hu, rfl⟩
    · rw [List.head?_eq_none_iff.mpr rfl] at hh
      exact absurd rfl (List.head?_eq_none_iff.mp hh.symm ▸ hl)
    · have hq1 : q.1 ≠ [] := hloc.2 _ hq
      have hqh : q.1.head? = l.head? := by
        rw [← head?_append_of_ne hq1 u]
        exact hh
      have hqe := pairwise_same_head_eq hloc.1 hq hcm hqh
      subst hqe
      exact ⟨u, hu, rfl⟩
  · rintro ⟨u, hu, rfl⟩
    exact ⟨mem_keysOf_child hcm hu, head?_append_of_ne hl u⟩

/-- Any child label is the longest common prefix of the keys below it: the
child is end-marked (so the bare label is a key) or branches into at least
two subtrees whose keys diverge immediately after the label. -/
theorem label_branch_or_end {l : Str} {c : Node} (hs : Sub5P c) :
    (∃ u ∈ keysOf c, l = l ++ u) ∨
    (∃ s1 s2 a b, (∃ u1 ∈ keysOf c, s1 = l ++ u1) ∧ (∃ u2 ∈ keysOf c, s2 = l ++ u2) ∧
      a ≠ b ∧ (l ++ [a]) <+: s1 ∧ (l ++ [b]) <+: s2) := by
  obtain ⟨ec, csc⟩ := c
  cases ec with
  | true =>
    left
    exact ⟨[], (nil_mem_keysOf hs.localOk.2).mpr rfl, (List.append_nil l).symm⟩
  | false =>
    right
    have h2 := hs.branch rfl
    cases csc with
    | nil => simp at h2
    | cons qa tl1 =>
      cases tl1 with
      | nil => simp at h2
      | cons qb tl2 =>
        obtain ⟨la, ca⟩ := qa
        obtain ⟨lb, cb⟩ := qb
        have hma : (la, ca) ∈ (la, ca) :: (lb, cb) :: tl2 := List.mem_cons_self _ _
        have hmb : (lb, cb) ∈ (la, ca) :: (lb, cb) :: tl2 :=
          List.mem_cons_of_mem _ (List.mem_cons_self _ _)
        have hla : la ≠ [] := hs.localOk.2 _ hma
        have hlb : lb ≠ [] := hs.localOk.2 _ hmb
        obtain ⟨ua, hua⟩ := List.exists_mem_of_ne_nil _
          (keysOf_ne_nil (hs.child _ hma).toSubP)
        obtain ⟨ub, hub⟩ := List.exists_mem_of_ne_nil _
          (keysOf_ne_nil (hs.child _ hmb).toSubP)
        have hka : la ++ ua ∈ keysOf (.mk false ((la, ca) :: (lb, cb) :: tl2)) :=
          mem_keysOf_child hma hua
        have hkb : lb ++ ub ∈ keysOf (.mk false ((la, ca) :: (lb, cb) :: tl2)) :=
          mem_keysOf_child hmb hub
        have hhd : la.head? ≠ lb.head? :=
          ((List.pairwise_cons.mp hs.localOk.1).1 _ (List.mem_cons_self _ _)).2
        cases la with
        | nil => exact absurd rfl hla
        | cons a la' =>
          cases lb with
          | nil => exact absurd rfl hlb
          | cons b lb' =>
            have hab : a ≠ b := by
              intro hc
              apply hhd
              simp [hc]
            refine ⟨l ++ ((a :: la') ++ ua), l ++ ((b :: lb') ++ ub), a, b,
              ⟨(a :: la') ++ ua, hka, rfl⟩, ⟨(b :: lb') ++ ub, hkb, rfl⟩, hab,
              ⟨la' ++ ua, by simp⟩, ⟨lb' ++ ub, by simp⟩⟩

/-- A child of one tree has, in any key-set-equal tree, a child with the same
label whose subtree stores the same keys. -/
theorem child_partner {e1 e2 : Bool} {cs1 cs2 : List (Str × Node)}
    (hloc1 : LocalOk cs1) (hsub1 : ∀ q ∈ cs1, Sub5P q.2)
    (hloc2 : LocalOk cs2) (hsub2 : ∀ q ∈ cs2, Sub5P q.2)
    (hmem : ∀ w, w ∈ keysOf (.mk e1 cs1) ↔ w ∈ keysOf (.mk e2 cs2))
    {l : Str} {c : Node} (hcm : (l, c) ∈ cs1) :
    ∃ c2, (l, c2) ∈ cs2 ∧ ∀ u, u ∈ keysOf c ↔ u ∈ keysOf c2 := by
  have hl : l ≠ [] := hloc1.2 _ hcm
  have hchar1 := group_char (e := e1) hloc1 hcm
  obtain ⟨u0, hu0⟩ := List.exists_mem_of_ne_nil _ (keysOf_ne_nil (hsub1 _ hcm).toSubP)
  have hw0 : l ++ u0 ∈ keysOf (.mk e2 cs2) := (hmem _).mp (mem_keysOf_child hcm hu0)
  rcases mem_keysOf_mk.mp hw0 with ⟨hnil, _⟩ | ⟨q2, hq2, u2, hu2, hequ⟩
  · exact absurd (List.append_eq_nil.mp hnil).1 hl
  obtain ⟨l2, c2⟩ := q2
  have hl2 : l2 ≠ [] := hloc2.2 _ hq2
  have hheads : l2.head? = l.head? := by
    have hh1 : (l ++ u0).head? = l.head? := head?_append_of_ne hl u0
    rw [hequ] at hh1
    rw [← hh1]
    exact (head?_append_of_ne hl2 u2).symm
  have hchar2 := group_char (e := e2) hloc2 hq2
  have hiff : ∀ w, (∃ u ∈ keysOf c, w = l ++ u) ↔ ∃ u ∈ keysOf c2, w = l2 ++ u := by
    intro w
    rw [← hchar1 w, ← hchar2 w, hmem w, hheads]
  have hub1 : ∀ s, (∃ u ∈ keysOf c, s = l ++ u) → l <+: s := by
    rintro s ⟨u, _, rfl⟩
    exact List.prefix_append l u
  have hub2 : ∀ s, (∃ u ∈ keysOf c, s = l ++ u) → l2 <+: s := by
    intro s hsS
    obtain ⟨u, _, rfl⟩ := (hiff s).mp hsS
    exact List.prefix_append l2 u
  have hw1 : (∃ u ∈ keysOf c, l = l ++ u) ∨
      (∃ s1 s2 a b, (∃ u1 ∈ keysOf c, s1 = l ++ u1) ∧ (∃ u2 ∈ keysOf c, s2 = l ++ u2) ∧
        a ≠ b ∧ (l ++ [a]) <+: s1 ∧ (l ++ [b]) <+: s2) :=
    label_branch_or_end (hsub1 _ hcm)
  have hw2' : (∃ u ∈ keysOf c2, l2 = l2 ++ u) ∨
      (∃ s1 s2 a b, (∃ u1 ∈ keysOf c2, s1 = l2 ++ u1) ∧ (∃ u2 ∈ keysOf c2, s2 = l2 ++ u2) ∧
        a ≠ b ∧ (l2 ++ [a]) <+: s1 ∧ (l2 ++ [b]) <+: s2) :=
    label_branch_or_end (hsub2 _ hq2)
  have hw2 : (∃ u ∈ keysOf c, l2 = l ++ u) ∨
      (∃ s1 s2 a b, (∃ u1 ∈ keysOf c, s1 = l ++ u1) ∧ (∃ u2 ∈ keysOf c, s2 = l ++ u2) ∧
        a ≠ b ∧ (l2 ++ [a]) <+: s1 ∧ (l2 ++ [b]) <+: s2) := by
    rcases hw2' with h | ⟨s1, s2, a, b, h1, h2, hab, ha, hb⟩
    · exact Or.inl ((hiff l2).mpr h)
    · exact Or.inr ⟨s1, s2, a, b, (hiff s1).mpr h1, (hiff s2).mpr h2, hab, ha, hb⟩
  have heq : l = l2 :=
    lcp_det hub1 hub2 ⟨l ++ u0, u0, hu0, rfl⟩ hw1 hw2
  subst heq
  refine ⟨c2, hq2, ?_⟩
  intro u
  constructor
  · intro hu
    obtain ⟨u', hu', hequ'⟩ := (hiff (l ++ u)).mp ⟨u, hu, rfl⟩
    rw [List.append_cancel_left hequ']
    exact hu'
  · intro hu
    obtain ⟨u', hu', hequ'⟩ := (hiff (l ++ u)).mpr ⟨u, hu, rfl⟩
    rw [List.append_cancel_left hequ']
    exact hu'

/-- A tree satisfying all invariants is determined by its key set. -/
theorem canonical_eq : ∀ (t1 : Node), Valid5P t1 → ∀ (t2 : Node), Valid5P t2 →
    (∀ w, w ∈ keysOf t1 ↔ w ∈ keysOf t2) → t1 = t2 := by
  refine Node.indMem (fun t1 => Valid5P t1 → ∀ t2, Valid5P t2 →
    (∀ w, w ∈ keysOf t1 ↔ w ∈ keysOf t2) → t1 = t2) ?_
  intro e1 cs1 ih hv1 t2 hv2 hmem
  obtain ⟨e2, cs2⟩ := t2
  have hloc1 : LocalOk cs1 := hv1.1
  have hsub1 : ∀ q ∈ cs1, Sub5P q.2 := hv1.2
  have hloc2 : LocalOk cs2 := hv2.1
  have hsub2 : ∀ q ∈ cs2, Sub5P q.2 := hv2.2
  have he : e1 = e2 := by
    have h1 := nil_mem_keysOf (e := e1) hloc1.2
    have h2 := nil_mem_keysOf (e := e2) hloc2.2
    rw [hmem []] at h1
    rw [h2] at h1
    cases e1 with
    | true => exact (h1.mpr rfl).symm
    | false =>
      cases e2 with
      | false => rfl
      | true => exact absurd (h1.mp rfl) (by simp)
  subst he
  have hcs : cs1 = cs2 := by
    refine sorted_children_eq_of_mem_iff hloc1.1 hloc2.1 ?_
    intro x
    constructor
    · intro hx
      obtain ⟨l, c⟩ := x
      obtain ⟨c2, hc2m, hkiff⟩ := child_partner hloc1 hsub1 hloc2 hsub2 hmem hx
      have hcc : c = c2 :=
        ih (l, c) hx (hsub1 _ hx).toValid5P c2 (hsub2 _ hc2m).toValid5P hkiff
      rw [hcc]
      exact hc2m
    · intro hx
      obtain ⟨l, c2⟩ := x
      obtain ⟨c1, hc1m, hkiff⟩ := child_partner hloc2 hsub2 hloc1 hsub1
        (fun w => (hmem w).symm) hx
      have hcc : c1 = c2 :=
        ih (l, c1) hc1m (hsub1 _ hc1m).toValid5P c2 (hsub2 _ hx).toValid5P
          (fun u => (hkiff u).symm)
      rw [← hcc]
      exact hc1m
  rw [hcs]

/-! ### The claims -/

set_option maxRecDepth 10000

/-- C1: `find` does not test `is_end` at the matched vertex of a nonempty
key, so on the valid trie {"ab","ac"} the interior junction "a" — not a
stored key — gets a non-end iterator: `find(k) = end ⇔ k unstored` fails. -/
theorem C1_find_junction_eval :
    valid5B (trieOf [['a','b'], ['a','c']]) = true ∧
    ['a'] ∉ keysOf (trieOf [['a','b'], ['a','c']]) ∧
    (trieFind (trieOf [['a','b'], ['a','c']]) ['a']).isSome = true :=
  ⟨by decide, by decide, by decide⟩

/-- C2 (corrected): construction, `insert`, `erase`, `clear`, `+=`, `-=`
preserve all structural invariants; `erase_prefix` preserves invariants 1-4
only — it performs no join, so the parent of the detached vertex can be left
a non-end vertex with a single child, violating invariant 5. -/
theorem C2_invariant_preservation {t : Node} (hv : Valid5P t) :
    Valid5P trieNew ∧ (∀ ks, Valid5P (trieOf ks)) ∧
    (∀ k, Valid5P (trieInsert t k)) ∧ (∀ k, Valid5P (trieErase t k)) ∧
    Valid5P (trieClear t) ∧ (∀ s, Valid5P (trieUnion t s)) ∧
    (∀ s, Valid5P (trieDiff t s)) ∧ (∀ p, ValidP (trieErasePfx t p)) :=
  ⟨trieNew_valid5, trieOf_valid5, fun k => trieInsert_valid5 hv k,
   fun k => trieErase_valid5 hv k, trieClear_valid5 t,
   fun s => trieUnion_valid5 hv s, fun s => trieDiff_valid5 hv s,
   fun p => trieErasePfx_valid hv p⟩

/-- Witness for C2 at the invariant-satisfying trie {"ab"}. -/
theorem C2_invariant_preservation_witness :
    Valid5P (trieInsert (trieOf [['a','b']]) ['c','d']) ∧
    ValidP (trieErasePfx (trieOf [['a','b']]) ['a','b']) :=
  ⟨(C2_invariant_preservation (t := trieOf [['a','b']])
      (valid5B_iff.mp (by decide))).2.2.1 ['c','d'],
   (C2_invariant_preservation (t := trieOf [['a','b']])
      (valid5B_iff.mp (by decide))).2.2.2.2.2.2.2 ['a','b']⟩

/-- Counterexample to C2 as stated: after `erase_prefix("cd")` on the valid
trie {"ab","cd","ce"} invariant 5 fails (the vertex "c" is non-end with a
single child). -/
theorem C2_counterexample :
    valid5B (trieOf [['a','b'], ['c','d'], ['c','e']]) = true ∧
    valid5B (trieErasePfx (trieOf [['a','b'], ['c','d'], ['c','e']]) ['c','d']) = false := by
  decide

/-- C3: on the valid trie {"ka","kbz"}, `end("kb")` reaches the
"unexpected" branch: the residual "b" neither exceeds the last child label
"bz" of the matched vertex nor is any child's first byte strictly greater
than 'b', so the scan falls through to the `runtime_error`. -/
theorem C3_end_throw_eval :
    valid5B (trieOf [['k','a'], ['k','b','z']]) = true ∧
    trieEndRange (trieOf [['k','a'], ['k','b','z']]) ['k','b'] = .error () :=
  ⟨by decide, by rfl⟩

/-- C4 (corrected): on a trie satisfying invariants 1-4 forward iteration
visits exactly the stored keys, in strictly increasing lexicographic order,
and visits `size()` of them; trees violating invariant 4 are reachable by
two `erase_prefix` calls, and on them iteration can stop early. -/
theorem C4_iteration {t : Node} (hv : ValidP t) :
    trieIterKeys t = keysOf t ∧
    (trieIterKeys t).Pairwise (fun a b => strLt a b = true) ∧
    (trieIterKeys t).length = trieSize t [] := by
  obtain ⟨h1, _⟩ := trieIterKeys_eq hv
  refine ⟨h1, ?_, ?_⟩
  · rw [h1]
    exact keysOf_sorted t hv
  · rw [h1, trieSize_nil, keyCount_eq_length]

/-- Witness for C4 at the valid trie {"ab","ac"}. -/
theorem C4_iteration_witness :
    trieIterKeys (trieOf [['a','b'], ['a','c']]) = keysOf (trieOf [['a','b'], ['a','c']]) ∧
    (trieIterKeys (trieOf [['a','b'], ['a','c']])).Pairwise (fun a b => strLt a b = true) ∧
    (trieIterKeys (trieOf [['a','b'], ['a','c']])).length =
      trieSize (trieOf [['a','b'], ['a','c']]) [] :=
  C4_iteration (validB_iff.mp (by decide))

/-- Counterexample to C4 as stated: after two `erase_prefix` calls on the
valid trie {"ab","cd","ce","x"}, invariant 4 is broken (the vertex "c" is
childless and non-end) and iteration stops at "ab", missing "x". -/
theorem C4_counterexample :
    trieIterKeys (trieErasePfx (trieErasePfx
      (trieOf [['a','b'], ['c','d'], ['c','e'], ['x']]) ['c','d']) ['c','e']) ≠
      keysOf (trieErasePfx (trieErasePfx
      (trieOf [['a','b'], ['c','d'], ['c','e'], ['x']]) ['c','d']) ['c','e']) ∧
    (trieIterKeys (trieErasePfx (trieErasePfx
      (trieOf [['a','b'], ['c','d'], ['c','e'], ['x']]) ['c','d']) ['c','e'])).length ≠
      trieSize (trieErasePfx (trieErasePfx
      (trieOf [['a','b'], ['c','d'], ['c','e'], ['x']]) ['c','d']) ['c','e']) [] :=
  ⟨by decide, by decide⟩

/-- C5: `size(prefix)` is the number of stored keys having the prefix, and
`size()` (empty prefix) is the total number of stored keys. -/
theorem C5_size_counts {t : Node} (hv : ValidP t) (p : Str) :
    trieSize t p = (keysOf t).countP (fun w => isPfxOf p w) ∧
    trieSize t [] = (keysOf t).length := by
  refine ⟨trieSize_counts hv p, ?_⟩
  rw [trieSize_nil, keyCount_eq_length]

/-- Witness for C5 at the valid trie {"ab","ac"} with prefix "a". -/
theorem C5_size_counts_witness :
    trieSize (trieOf [['a','b'], ['a','c']]) ['a'] =
      (keysOf (trieOf [['a','b'], ['a','c']])).countP (fun w => isPfxOf ['a'] w) ∧
    trieSize (trieOf [['a','b'], ['a','c']]) [] =
      (keysOf (trieOf [['a','b'], ['a','c']])).length :=
  C5_size_counts (validB_iff.mp (by decide)) ['a']

/-- C6: `empty(p)` holds exactly when `size(p)` is zero. -/
theorem C6_empty_iff_size_zero {t : Node} (hv : ValidP t) (p : Str) :
    trieEmpty t p = true ↔ trieSize t p = 0 :=
  trieEmpty_iff_size hv p

/-- Witness for C6 at the valid trie {"ab"} with prefix "b". -/
theorem C6_empty_iff_size_zero_witness :
    trieEmpty (trieOf [['a','b']]) ['b'] = true ↔
      trieSize (trieOf [['a','b']]) ['b'] = 0 :=
  C6_empty_iff_size_zero (validB_iff.mp (by decide)) ['b']

/-- C7: on a trie satisfying the invariants, inserting a key not stored and
then erasing it yields a container `operator==`-equal to the original. -/
theorem C7_insert_erase_roundtrip {t : Node} (hv : Valid5P t) {k : Str}
    (hk : k ∉ keysOf t) :
    Node.equals (trieErase (trieInsert t k) k) t = true :=
  (equals_iff_eq _ _).mpr (trieInsertErase_roundtrip hv hk)

/-- Witness for C7: inserting and erasing "ce" on the trie {"ab","cd"}
(an edge split at "c" and its undoing). -/
theorem C7_insert_erase_roundtrip_witness :
    Node.equals (trieErase (trieInsert (trieOf [['a','b'], ['c','d']]) ['c','e'])
      ['c','e']) (trieOf [['a','b'], ['c','d']]) = true :=
  C7_insert_erase_roundtrip (valid5B_iff.mp (by decide)) (by decide)

/-- C8 (corrected): for tries satisfying all structural invariants,
`operator==` holds exactly when the stored key sets coincide (so insertion
order is immaterial); tries reached through `erase_prefix` can break this. -/
theorem C8_equals_iff_same_keys {t1 t2 : Node} (h1 : Valid5P t1) (h2 : Valid5P t2) :
    Node.equals t1 t2 = true ↔ (∀ k, k ∈ keysOf t1 ↔ k ∈ keysOf t2) := by
  rw [equals_iff_eq]
  constructor
  · intro h k
    rw [h]
  · exact canonical_eq t1 h1 t2 h2

/-- Witness for C8: the same two keys inserted in either order give
`==`-equal tries. -/
theorem C8_equals_iff_same_keys_witness :
    Node.equals (trieOf [['b'], ['a']]) (trieOf [['a'], ['b']]) = true ↔
      (∀ k, k ∈ keysOf (trieOf [['b'], ['a']]) ↔ k ∈ keysOf (trieOf [['a'], ['b']])) :=
  C8_equals_iff_same_keys (valid5B_iff.mp (by decide)) (valid5B_iff.mp (by decide))

/-- Counterexample to C8 as stated: `erase_prefix("cd")` on {"ab","cd","ce"}
leaves a tree storing the same keys as the directly built {"ab","ce"}, yet
`operator==` (structural equality) rejects the pair. -/
theorem C8_counterexample :
    keysOf (trieErasePfx (trieOf [['a','b'], ['c','d'], ['c','e']]) ['c','d']) =
      keysOf (trieOf [['a','b'], ['c','e']]) ∧
    Node.equals (trieErasePfx (trieOf [['a','b'], ['c','d'], ['c','e']]) ['c','d'])
      (trieOf [['a','b'], ['c','e']]) = false := by
  decide

/-- C9: after `insert("")` the root is end-marked and `begin()` points at
it; the increment calls `next_node` on the root, whose `assert(par)` walks
to the null parent before the null test — iteration over {""} cannot reach
`end()` without tripping the assertion (debug) or reading a null pointer
(release). -/
theorem C9_root_next_eval :
    (trieInsert trieNew []).is_end = true ∧
    keysOf (trieInsert trieNew []) = [[]] ∧
    trieBeginPath (trieInsert trieNew []) = some [] ∧
    nextNodeDbg (trieInsert trieNew []) [] = .error () :=
  ⟨rfl, rfl, rfl, rfl⟩

/-- C10: the search kernel terminates: each descent step of
`approximate_match` consumes a nonempty edge label, so fuel exceeding the
key length always suffices and the fueled descent agrees with the total
model of the recursion. -/
theorem C10_approx_terminates {t : Node} (hv : ValidP t) (k : Str) :
    approxFuel (k.length + 1) t k = some (t.approximateMatch k) :=
  approxFuel_complete t hv k (k.length + 1) (by omega)

/-- Witness for C10 at the valid trie {"ab"} and key "ab". -/
theorem C10_approx_terminates_witness :
    approxFuel (['a','b'].length + 1) (trieOf [['a','b']]) ['a','b'] =
      some ((trieOf [['a','b']]).approximateMatch ['a','b']) :=
  C10_approx_terminates (validB_iff.mp (by decide)) ['a','b']
